import Mathlib

/-!
# Templater: a shallow embedding of the render engine, its caches and its security gate

Go strings are modelled as lists of runes (`List Char`), Go maps as association lists
whose iteration order is the list order (every theorem holds for every order), and
`time.Time` / `time.Duration` values as integers counting nanoseconds.
-/

namespace Templater

/-- A Go string, as its sequence of runes. -/
abbrev Str := List Char

deriving instance DecidableEq for Except

/-! ## Go maps -/

namespace GoMap

/-- The lookup `m[k]` with its presence flag. -/
def get {V : Type} (m : List (Str × V)) (k : Str) : Option V :=
  match m with
  | [] => none
  | (k', v) :: rest => if k' = k then some v else get rest k

/-- The assignment `m[k] = v`: an existing key keeps its place, a new key is added. -/
def set {V : Type} (m : List (Str × V)) (k : Str) (v : V) : List (Str × V) :=
  match m with
  | [] => [(k, v)]
  | (k', v') :: rest => if k' = k then (k, v) :: rest else (k', v') :: set rest k v

/-- The builtin `delete(m, k)`. -/
def delete {V : Type} (m : List (Str × V)) (k : Str) : List (Str × V) :=
  match m with
  | [] => []
  | (k', v) :: rest => if k' = k then delete rest k else (k', v) :: delete rest k

/-- The keys of the map, in iteration order. -/
def keys {V : Type} (m : List (Str × V)) : List Str := m.map Prod.fst

end GoMap

/-! ## The `strings` package -/

/-- The scan of `strings.ReplaceAll` for a non-empty `old`: `skip` counts the runes of a
match that are still to be dropped. -/
def replaceScan (old new : Str) : Nat → Str → Str
  | _, [] => []
  | skip + 1, _ :: cs => replaceScan old new skip cs
  | 0, c :: cs =>
    if old.isPrefixOf (c :: cs) then new ++ replaceScan old new (old.length - 1) cs
    else c :: replaceScan old new 0 cs

/-- Go `strings.ReplaceAll(s, old, new)`: the non-overlapping occurrences of `old`, found
from left to right, are replaced; an empty `old` matches before every rune and at the end. -/
def ReplaceAll (s old new : Str) : Str :=
  match old with
  | [] => new ++ s.flatMap (fun c => c :: new)
  | _ :: _ => replaceScan old new 0 s

/-- Go `strings.HasPrefix(s, p)`. -/
def HasPrefix (s p : Str) : Bool := p.isPrefixOf s

/-- Go `strings.Contains(s, sub)`. -/
def Contains (s sub : Str) : Bool :=
  match s with
  | [] => sub.isEmpty
  | c :: cs => sub.isPrefixOf (c :: cs) || Contains cs sub

/-- Go `unicode.IsSpace`: the Latin-1 spaces and the runes of category Z. -/
def isSpace (c : Char) : Bool :=
  let n := c.toNat
  (9 ≤ n && n ≤ 13) || n = 32 || n = 0x85 || n = 0xA0 || n = 0x1680
    || (0x2000 ≤ n && n ≤ 0x200A) || n = 0x2028 || n = 0x2029 || n = 0x202F
    || n = 0x205F || n = 0x3000

/-- The scan of `strings.Fields`: `cur` holds the runes of the field being read, last
rune first. -/
def fieldsScan : Str → Str → List Str
  | cur, [] => if cur.isEmpty then [] else [cur.reverse]
  | cur, c :: cs =>
    if isSpace c then
      if cur.isEmpty then fieldsScan [] cs else cur.reverse :: fieldsScan [] cs
    else fieldsScan (c :: cur) cs

/-- Go `strings.Fields(s)`: the maximal runs of non-space runes. -/
def Fields (s : Str) : List Str := fieldsScan [] s

/-- The orbit of an ASCII rune under `unicode.SimpleFold`: a letter folds with its other
case, `k` also with the Kelvin sign U+212A and `s` also with the long s U+017F; any other
ASCII rune folds only with itself. -/
def foldOrbit (c : Char) : List Char :=
  if c.isAlpha then
    [c.toLower, c.toUpper]
      ++ (if c.toLower = 'k' then [Char.ofNat 0x212A] else [])
      ++ (if c.toLower = 's' then [Char.ofNat 0x017F] else [])
  else [c]

/-- Whether rune `r` equals the ASCII rune `c` under simple case folding. -/
def foldsTo (r c : Char) : Bool := decide (r ∈ foldOrbit c)

/-- Go `strings.EqualFold(s, t)` for an ASCII `t`: rune by rune, equal under simple case
folding, and of the same length. -/
def EqualFold : Str → Str → Bool
  | [], [] => true
  | r :: s, c :: t => foldsTo r c && EqualFold s t
  | _, _ => false

/-! ## The `path/filepath` package, for slash-separated paths -/

/-- The backtracking step of `filepath.Clean` on a `..` element: the buffer, held last
rune first, loses its last element and the slash before it, down to `dotdot` runes. -/
def cleanBacktrack (dotdot : Nat) : Str → Str
  | [] => []
  | c :: out => if out.length > dotdot ∧ c ≠ '/' then cleanBacktrack dotdot out else out

/-- The main loop of `filepath.Clean`: `out` is the output buffer, last rune first, and
`dotdot` the length of the buffer that backtracking must keep; each round consumes at
least one rune of the input, so the length of the path is enough fuel. -/
def cleanLoop (rooted : Bool) : Nat → Str → Str → Nat → Str
  | 0, _, out, _ => out
  | _ + 1, [], out, _ => out
  | fuel + 1, c :: rest, out, dotdot =>
    if c = '/' then cleanLoop rooted fuel rest out dotdot
    else if c = '.' ∧ (rest = [] ∨ rest.head? = some '/') then
      cleanLoop rooted fuel rest out dotdot
    else if c = '.' ∧ rest.head? = some '.'
        ∧ (rest.tail = [] ∨ rest.tail.head? = some '/') then
      if out.length > dotdot then
        cleanLoop rooted fuel rest.tail (cleanBacktrack dotdot out) dotdot
      else if rooted then cleanLoop rooted fuel rest.tail out dotdot
      else
        let out1 := if out.length > 0 then '/' :: out else out
        cleanLoop rooted fuel rest.tail ('.' :: '.' :: out1) (out1.length + 2)
    else
      let out1 :=
        if (rooted && out.length != 1) || (!rooted && out.length != 0) then '/' :: out
        else out
      cleanLoop rooted fuel ((c :: rest).dropWhile (fun x => x != '/'))
        (((c :: rest).takeWhile (fun x => x != '/')).reverse ++ out1) dotdot

/-- Go `filepath.Clean`. -/
def Clean (path : Str) : Str :=
  match path with
  | [] => ['.']
  | c :: rest =>
    let out :=
      if c = '/' then cleanLoop true path.length rest ['/'] 1
      else cleanLoop false path.length (c :: rest) [] 0
    if out.isEmpty then ['.'] else out.reverse

/-- The path without its trailing slashes, last rune first. -/
def stripTrailingSlashes (path : Str) : Str := path.reverse.dropWhile (fun x => x == '/')

/-- Go `filepath.Base`: the last element of the path. -/
def Base (path : Str) : Str :=
  if path.isEmpty then ['.']
  else
    let last := ((stripTrailingSlashes path).takeWhile (fun x => x != '/')).reverse
    if last.isEmpty then ['/'] else last

/-- Go `filepath.Dir`: all but the last element of the path, cleaned. -/
def Dir (path : Str) : Str := Clean (path.reverse.dropWhile (fun x => x != '/')).reverse

/-- Go `filepath.Join`: the non-empty elements joined by slashes, cleaned. -/
def Join (elems : List Str) : Str :=
  match elems.filter (fun e => !e.isEmpty) with
  | [] => []
  | e :: es => Clean (es.foldl (fun acc x => acc ++ '/' :: x) e)

/-- Go `filepath.IsAbs`. -/
def IsAbs (path : Str) : Bool := path.head? = some '/'

/-- Go `filepath.Abs`, given the result of `os.Getwd` (`none` when it fails). -/
def Abs (cwd : Option Str) (path : Str) : Except String Str :=
  if IsAbs path then .ok (Clean path)
  else
    match cwd with
    | none => .error "getwd: no such file or directory"
    | some wd => .ok (Join [wd, path])

/-! ## The filesystem and the `os` package -/

/-- An entry of the filesystem: a regular file with its bytes and modification time, or
a directory. -/
inductive Node where
  | file (content : Str) (modTime : Int)
  | dir (modTime : Int)
deriving DecidableEq

/-- The filesystem: the entries by path. A path names its entry by its text, there are
no links and no permissions, and a parent directory is not required for a file. -/
abbrev FS := List (Str × Node)

/-- The modification time of an entry. -/
def Node.modTime : Node → Int
  | .file _ t => t
  | .dir t => t

namespace FS

/-- Go `os.Stat`: the modification time of the entry, or the not-exist error. -/
def stat (fs : FS) (path : Str) : Except String Int :=
  match GoMap.get fs path with
  | some n => .ok n.modTime
  | none => .error ("stat " ++ String.mk path ++ ": no such file or directory")

/-- Go `os.ReadFile`. -/
def readFile (fs : FS) (path : Str) : Except String Str :=
  match GoMap.get fs path with
  | some (.file content _) => .ok content
  | some (.dir _) => .error ("read " ++ String.mk path ++ ": is a directory")
  | none => .error ("open " ++ String.mk path ++ ": no such file or directory")

/-- Go `os.WriteFile` at time `now`: the file is created or replaced; a directory cannot
be written. -/
def writeFile (fs : FS) (path data : Str) (now : Int) : Except String FS :=
  match GoMap.get fs path with
  | some (.dir _) => .error ("open " ++ String.mk path ++ ": is a directory")
  | _ => .ok (GoMap.set fs path (.file data now))

/-- Go `os.MkdirAll` at time `now`: a directory that exists is kept, a missing one is
created, and a regular file in its place is an error. -/
def mkdirAll (fs : FS) (path : Str) (now : Int) : Except String FS :=
  match GoMap.get fs path with
  | some (.dir _) => .ok fs
  | some (.file _ _) => .error ("mkdir " ++ String.mk path ++ ": not a directory")
  | none => .ok (GoMap.set fs path (.dir now))

/-- Go `os.Remove`. -/
def remove (fs : FS) (path : Str) : Except String FS :=
  match GoMap.get fs path with
  | some _ => .ok (GoMap.delete fs path)
  | none => .error ("remove " ++ String.mk path ++ ": no such file or directory")

/-- Whether the path is a directory. -/
def isDir (fs : FS) (path : Str) : Bool :=
  match GoMap.get fs path with
  | some (.dir _) => true
  | _ => false

/-- The name of the entry `key` inside the directory `dir`, when it lies directly in it. -/
def entryName (dir key : Str) : Option Str :=
  let stem := if dir = ['/'] then dir else dir ++ ['/']
  if stem.isPrefixOf key then
    let name := key.drop stem.length
    if name.isEmpty || name.contains '/' then none else some name
  else none

end FS

/-- Whether `a` sorts before `b` or equals it, rune by rune. -/
def strLe : Str → Str → Bool
  | [], _ => true
  | _ :: _, [] => false
  | a :: as, b :: bs => a < b || (a = b && strLe as bs)

/-- One step of the insertion sort of names. -/
def insertName (n : Str) : List Str → List Str
  | [] => [n]
  | m :: ms => if strLe n m then n :: m :: ms else m :: insertName n ms

/-- The names sorted as `slices.Sort` sorts strings. -/
def sortNames (names : List Str) : List Str := names.foldr insertName []

/-- Go `Readdirnames` followed by the sort: the names of the entries of a directory. -/
def FS.readDirNames (fs : FS) (dir : Str) : List Str :=
  sortNames ((GoMap.keys fs).filterMap (FS.entryName dir))

/-- A term of a `filepath.Match` pattern. -/
inductive GlobTerm where
  | star
  | anyRune
  | rune (c : Char)
  | cls (negated : Bool) (ranges : List (Char × Char))

/-- The helper `getEsc` of `filepath.Match`: one rune of a character class, possibly
escaped; the class must go on after it. `none` is `ErrBadPattern`. -/
def getEsc : Str → Option (Char × Str)
  | [] => none
  | c :: rest =>
    if c = '-' ∨ c = ']' then none
    else if c = '\\' then
      match rest with
      | [] => none
      | r :: rest1 => if rest1.isEmpty then none else some (r, rest1)
    else if rest.isEmpty then none else some (c, rest)

/-- The ranges of a character class, up to the bracket that closes it, and the pattern
after it. -/
def parseRanges : Nat → Str → List (Char × Char) → Option (List (Char × Char) × Str)
  | 0, _, _ => none
  | fuel + 1, chunk, acc =>
    if chunk.head? = some ']' ∧ !acc.isEmpty then some (acc.reverse, chunk.tail)
    else
      match getEsc chunk with
      | none => none
      | some (lo, chunk1) =>
        if chunk1.head? = some '-' then
          match getEsc chunk1.tail with
          | none => none
          | some (hi, chunk2) => parseRanges fuel chunk2 ((lo, hi) :: acc)
        else parseRanges fuel chunk1 ((lo, lo) :: acc)

/-- The terms of a pattern; `none` is `ErrBadPattern`. Each round consumes at least one
rune, so the length of the pattern is enough fuel. -/
def parseGlob : Nat → Str → Option (List GlobTerm)
  | _, [] => some []
  | 0, _ :: _ => none
  | fuel + 1, c :: rest =>
    if c = '*' then (parseGlob fuel rest).map (fun ts => GlobTerm.star :: ts)
    else if c = '?' then (parseGlob fuel rest).map (fun ts => GlobTerm.anyRune :: ts)
    else if c = '\\' then
      match rest with
      | [] => none
      | r :: rest1 => (parseGlob fuel rest1).map (fun ts => GlobTerm.rune r :: ts)
    else if c = '[' then
      let negated := rest.head? = some '^'
      match parseRanges rest.length (if negated then rest.tail else rest) [] with
      | none => none
      | some (ranges, rest1) =>
        (parseGlob fuel rest1).map (fun ts => GlobTerm.cls negated ranges :: ts)
    else (parseGlob fuel rest).map (fun ts => GlobTerm.rune c :: ts)

/-- A star followed by the terms that `k` matches: the star takes any run of runes other
than the separator. -/
def starMatch (k : Str → Bool) : Str → Bool
  | [] => k []
  | c :: cs => k (c :: cs) || (c != '/' && starMatch k cs)

/-- Whether the terms match the whole name. -/
def matchTerms : List GlobTerm → Str → Bool
  | [], name => name.isEmpty
  | .star :: ts, name => starMatch (matchTerms ts) name
  | .anyRune :: ts, name =>
    match name with
    | [] => false
    | c :: cs => c != '/' && matchTerms ts cs
  | .rune r :: ts, name =>
    match name with
    | [] => false
    | c :: cs => c = r && matchTerms ts cs
  | .cls negated ranges :: ts, name =>
    match name with
    | [] => false
    | c :: cs =>
      (ranges.any (fun range => range.1 ≤ c && c ≤ range.2) != negated) && matchTerms ts cs

/-- Go `filepath.Match`. -/
def Match (pattern name : Str) : Except String Bool :=
  match parseGlob pattern.length pattern with
  | none => .error "syntax error in pattern"
  | some ts => .ok (matchTerms ts name)

/-- Go `hasMeta` of `filepath.Glob`. -/
def hasMeta (path : Str) : Bool := path.any (fun c => c = '*' || c = '?' || c = '[' || c = '\\')

/-- The helper `glob` of `filepath.Glob`: the entries of the directory `dir` whose name
matches the pattern, added to `found`. -/
def globDir (fs : FS) (dir pattern : Str) (found : List Str) : Except String (List Str) :=
  if fs.isDir dir then
    match parseGlob pattern.length pattern with
    | none => if (fs.readDirNames dir).isEmpty then .ok found else .error "syntax error in pattern"
    | some ts =>
      .ok (found ++ ((fs.readDirNames dir).filter (matchTerms ts)).map (fun n => Join [dir, n]))
  else .ok found

/-- Go `filepath.Glob`; the pattern of a recursive call is shorter, so the length of the
pattern is enough fuel. -/
def globFuel (fs : FS) : Nat → Str → Except String (List Str)
  | 0, _ => .error "syntax error in pattern"
  | fuel + 1, pattern =>
    match parseGlob pattern.length pattern with
    | none => .error "syntax error in pattern"
    | some _ =>
      if !hasMeta pattern then
        match GoMap.get fs pattern with
        | some _ => .ok [pattern]
        | none => .ok []
      else
        let file := (pattern.reverse.takeWhile (fun c => c != '/')).reverse
        let dir0 := (pattern.reverse.dropWhile (fun c => c != '/')).reverse
        let dir := if dir0.isEmpty then ['.'] else if dir0 = ['/'] then dir0 else dir0.dropLast
        if !hasMeta dir then globDir fs dir file []
        else if dir = pattern then .error "syntax error in pattern"
        else
          match globFuel fs fuel dir with
          | .error err => .error err
          | .ok dirs =>
            dirs.foldl (fun acc d =>
              match acc with
              | .error err => .error err
              | .ok found => globDir fs d file found) (.ok [])

/-- Go `filepath.Glob`. -/
def Glob (fs : FS) (pattern : Str) : Except String (List Str) :=
  globFuel fs (pattern.length + 1) pattern

/-! ## The `regexp` package, for the patterns this program compiles -/

/-- The regular expressions of the program, all compiled with the `(?i)` flag: literals,
`[^c]+`, concatenation and alternation. -/
inductive Re where
  | lit : Str → Re
  | notRunePlus : Char → Re
  | seq : Re → Re → Re
  | alt : Re → Re → Re

/-- The input left after the literal `p` matched at the start of `s` under case folding. -/
def litRest : Str → Str → Option Str
  | [], s => some s
  | _ :: _, [] => none
  | c :: p, r :: s => if foldsTo r c then litRest p s else none

/-- The inputs left after one, two, ... leading runes other than `c` were consumed. -/
def notRuneRests (c : Char) : Str → List Str
  | [] => []
  | r :: s => if r = c then [] else s :: notRuneRests c s

namespace Re

/-- Every input that can be left after the expression matched at the start of `s`. -/
def rests : Re → Str → List Str
  | lit p, s => (litRest p s).toList
  | notRunePlus c, s => notRuneRests c s
  | seq a b, s => (rests a s).flatMap (rests b)
  | alt a b, s => rests a s ++ rests b s

/-- Whether the expression matches at the start of `s`. -/
def matchesAt (re : Re) (s : Str) : Bool := !(rests re s).isEmpty

/-- Whether the expression matches somewhere in `s`. -/
def matchesIn (re : Re) : Str → Bool
  | [] => matchesAt re []
  | c :: cs => matchesAt re (c :: cs) || matchesIn re cs

/-- The alternation `(w|w1|w2|...)` of literals. -/
def oneOf (w : String) (ws : List String) : Re :=
  ws.foldl (fun r x => alt r (lit x.toList)) (lit w.toList)

end Re

/-- A compiled `*regexp.Regexp`: its source text, which `String()` returns, and the
expression it denotes. -/
structure Regexp where
  src : String
  re : Re

/-- Go `(*Regexp).MatchString`: whether the input contains any match. -/
def Regexp.MatchString (p : Regexp) (s : Str) : Bool := p.re.matchesIn s

/-! ## security/sandbox.go -/

/-- The list `DangerousCommands`. -/
def DangerousCommands : List Str :=
  ["rm", "del", "delete", "format", "mkfs", "dd",
   "shutdown", "reboot", "halt", "poweroff",
   "chmod", "chown", "chattr",
   "wget", "curl", "nc", "netcat",
   "bash", "sh", "zsh", "powershell",
   "sudo", "su", "doas"].map String.toList

/-- The list `DangerousPatterns`. -/
def DangerousPatterns : List Regexp :=
  [ ⟨"(?i)(exec|system|eval|spawn|fork)", Re.oneOf "exec" ["system", "eval", "spawn", "fork"]⟩,
    ⟨"(?i)(file|directory|path)\\.(delete|remove|unlink)",
      Re.seq (Re.oneOf "file" ["directory", "path"])
        (Re.seq (Re.lit ".".toList) (Re.oneOf "delete" ["remove", "unlink"]))⟩,
    ⟨"(?i)(os|process)\\.(exec|command|run)",
      Re.seq (Re.oneOf "os" ["process"])
        (Re.seq (Re.lit ".".toList) (Re.oneOf "exec" ["command", "run"]))⟩,
    ⟨"(?i)(shell|bash|sh|zsh|powershell)", Re.oneOf "shell" ["bash", "sh", "zsh", "powershell"]⟩,
    ⟨"(?i)(sudo|su|doas)", Re.oneOf "sudo" ["su", "doas"]⟩,
    ⟨"(?i)(wget|curl|nc|netcat)", Re.oneOf "wget" ["curl", "nc", "netcat"]⟩ ]

/-- The list `DangerousPathPatterns`. -/
def DangerousPathPatterns : List Regexp :=
  [ ⟨"(?i)(/etc|/var|/usr|/bin|/sbin|/dev|/proc|/sys)",
      Re.oneOf "/etc" ["/var", "/usr", "/bin", "/sbin", "/dev", "/proc", "/sys"]⟩,
    ⟨"(?i)(\\.\\.|/\\.\\.)", Re.oneOf ".." ["/.."]⟩,
    ⟨"(?i)(/root|/home/[^/]+/\\.)",
      Re.alt (Re.lit "/root".toList)
        (Re.seq (Re.lit "/home/".toList) (Re.seq (Re.notRunePlus '/') (Re.lit "/.".toList)))⟩,
    ⟨"(?i)(/tmp/[^/]+/\\.\\.)",
      Re.seq (Re.lit "/tmp/".toList) (Re.seq (Re.notRunePlus '/') (Re.lit "/..".toList))⟩ ]

/-- Go `ValidateTemplateContent`: the first field that folds to a dangerous command, else
the first dangerous pattern that matches, is reported; `ok` is the nil error. -/
def ValidateTemplateContent (content : Str) : Except String Unit :=
  match (Fields content).findSome? (fun word =>
      DangerousCommands.find? (fun cmd => EqualFold word cmd)) with
  | some cmd => .error ("dangerous command detected: " ++ String.mk cmd)
  | none =>
    match DangerousPatterns.find? (fun pattern => pattern.MatchString content) with
    | some pattern => .error ("dangerous pattern detected: " ++ pattern.src)
    | none => .ok ()

/-- The loop of `ValidateOutputPath` over the allowed directories: a directory whose
absolute form cannot be computed is skipped, and the first one whose absolute form is a
prefix of `absPath` decides, by whether it can be stat-ed. -/
def checkAllowedDirs (cwd : Option Str) (fs : FS) (path absPath : Str) :
    List Str → Except String Unit
  | [] =>
    .error ("output path " ++ String.mk path ++ " is not within allowed directories")
  | dir :: rest =>
    match Abs cwd dir with
    | .error _ => checkAllowedDirs cwd fs path absPath rest
    | .ok absDir =>
      if HasPrefix absPath absDir then
        match fs.stat absDir with
        | .error err => .error ("allowed directory not accessible: " ++ err)
        | .ok _ => .ok ()
      else checkAllowedDirs cwd fs path absPath rest

/-- Go `ValidateOutputPath`, with the working directory `cwd` and the filesystem `fs`. -/
def ValidateOutputPath (cwd : Option Str) (fs : FS) (path : Str) (allowedDirs : List Str) :
    Except String Unit :=
  match Abs cwd path with
  | .error err => .error ("invalid path: " ++ err)
  | .ok absPath =>
    match DangerousPathPatterns.find? (fun pattern => pattern.MatchString absPath) with
    | some pattern => .error ("dangerous path pattern detected: " ++ pattern.src)
    | none => checkAllowedDirs cwd fs path absPath allowedDirs

/-- The elements of a slash-separated path. -/
def pathElements (path : Str) : List Str :=
  (path.splitOn '/').filter (fun e => !e.isEmpty)

/-- Whether `path` is `dir` or lies below it: the elements of `dir` are the first
elements of `path`. -/
def withinDir (path dir : Str) : Bool := (pathElements dir).isPrefixOf (pathElements path)

/-- The absolute forms of the allowed directories that have one, in list order. -/
def absDirs (cwd : Option Str) (allowedDirs : List Str) : List Str :=
  allowedDirs.filterMap (fun dir =>
    match Abs cwd dir with
    | .error _ => none
    | .ok absDir => some absDir)

/-! ### SanitizeData -/

/-- The five replacements `SanitizeData` applies to one value, in source order. -/
def sanitizeValue (v : Str) : Str :=
  let v := ReplaceAll v [Char.ofNat 96] []
  let v := ReplaceAll v "$(".toList []
  let v := ReplaceAll v "&&".toList []
  let v := ReplaceAll v "||".toList []
  let v := ReplaceAll v ";".toList []
  v

/-- Go `SanitizeData`: a fresh map that receives, for every entry of `data`, the key with
the sanitized value. -/
def SanitizeData (data : List (Str × Str)) : List (Str × Str) :=
  data.foldl (fun sanitized e => GoMap.set sanitized e.1 (sanitizeValue e.2)) []

/-! ## engine/template.go: the two caches -/

/-- What the engine needs from outside the repository: the working directory that
`os.Getwd` reports, whether `text/template` parses a text with `TemplateFuncs`, what
executing a parsed text on a data map gives, and the text `time.Format` produces for the
layout `20060102_150405`. -/
structure Host where
  cwd : Option Str
  parseOK : Str → Bool
  execute : Str → List (Str × Str) → Except String Str
  stamp : Int → Str

/-- A parsed `*template.Template`: its name and the text it was parsed from. -/
structure Template where
  name : Str
  text : Str
deriving DecidableEq

/-- The struct `templateInfo`. -/
structure templateInfo where
  template : Template
  lastUsed : Int
  lastModified : Int
deriving DecidableEq

/-- The struct `fileContent`. -/
structure fileContent where
  content : Str
  lastUsed : Int
  lastMod : Int
  accessCount : Int
deriving DecidableEq

/-- The package-level variables of `engine`, and `reads`, the number of `os.ReadFile`
calls `getFileContent` has made. -/
structure Engine where
  templateCache : List (Str × templateInfo)
  fileContentCache : List (Str × fileContent)
  cacheExpiry : Int
  maxCacheSize : Int
  reads : Nat
deriving DecidableEq

/-- The package-level variables as the program initialises them: empty caches, an expiry
of five minutes and a capacity of 100. -/
def Engine.init : Engine :=
  { templateCache := [], fileContentCache := [],
    cacheExpiry := 5 * (60 * 1000000000), maxCacheSize := 100, reads := 0 }

/-- The eviction loop of `getFileContent`: the first entry in iteration order whose
accessCount is below that of every entry before it. -/
def leastAccessed (contents : List (Str × fileContent)) : Option (Str × fileContent) :=
  contents.foldl (fun least e =>
    match least with
    | none => some e
    | some l => if e.2.accessCount < l.2.accessCount then some e else some l) none

/-- The eviction loop of `GetCachedTemplate`: the first entry in iteration order whose
lastUsed is before that of every entry before it. -/
def oldest (templates : List (Str × templateInfo)) : Option (Str × templateInfo) :=
  templates.foldl (fun old e =>
    match old with
    | none => some e
    | some o => if e.2.lastUsed < o.2.lastUsed then some e else some o) none

/-- The cache check of `getFileContent`: the entry for the path when the file can be
stat-ed and its modification time equals the recorded one. -/
def fileContentHit (fs : FS) (st : Engine) (path : Str) : Option fileContent :=
  match GoMap.get st.fileContentCache path with
  | none => none
  | some content =>
    match fs.stat path with
    | .error _ => none
    | .ok modTime => if modTime = content.lastMod then some content else none

/-- The cache update of `getFileContent`: at capacity the least accessed entry is
deleted, then the entry for the path is assigned. -/
def storeFileContent (st : Engine) (now : Int) (path content : Str) (modTime : Int) :
    List (Str × fileContent) :=
  let contents :=
    if (st.fileContentCache.length : Int) ≥ st.maxCacheSize then
      match leastAccessed st.fileContentCache with
      | some least => GoMap.delete st.fileContentCache least.1
      | none => st.fileContentCache
    else st.fileContentCache
  GoMap.set contents path
    { content := content, lastUsed := now, lastMod := modTime, accessCount := 1 }

/-- Go `getFileContent`, on the filesystem `fs` at time `now`. -/
def getFileContent (fs : FS) (now : Int) (st : Engine) (path : Str) :
    Engine × Except String Str :=
  match fileContentHit fs st path with
  | some content =>
    let bumped : fileContent :=
      { content with lastUsed := now, accessCount := content.accessCount + 1 }
    ({ st with fileContentCache := GoMap.set st.fileContentCache path bumped },
     .ok content.content)
  | none =>
    let st := { st with reads := st.reads + 1 }
    match fs.readFile path with
    | .error err => (st, .error ("error reading file: " ++ err))
    | .ok content =>
      match fs.stat path with
      | .error err => (st, .error ("error getting file info: " ++ err))
      | .ok modTime =>
        ({ st with fileContentCache := storeFileContent st now path content modTime },
         .ok content)

/-- The cache check of `GetCachedTemplate`: the entry for the path when it was used less
than `cacheExpiry` ago. -/
def templateHit (now : Int) (st : Engine) (templatePath : Str) : Option templateInfo :=
  match GoMap.get st.templateCache templatePath with
  | none => none
  | some info => if now - info.lastUsed < st.cacheExpiry then some info else none

/-- The cache update of `GetCachedTemplate`: at capacity the oldest entry is deleted, then
the entry for the path is assigned. -/
def storeTemplate (st : Engine) (now : Int) (templatePath : Str) (tmpl : Template)
    (modTime : Int) : List (Str × templateInfo) :=
  let templates :=
    if (st.templateCache.length : Int) ≥ st.maxCacheSize then
      match oldest st.templateCache with
      | some old => GoMap.delete st.templateCache old.1
      | none => st.templateCache
    else st.templateCache
  GoMap.set templates templatePath
    { template := tmpl, lastUsed := now, lastModified := modTime }

/-- Go `GetCachedTemplate`, on the filesystem `fs` at time `now`; the text of the parse
error of the template library is not modelled. -/
def GetCachedTemplate (h : Host) (fs : FS) (now : Int) (st : Engine) (templatePath : Str) :
    Engine × Except String Template :=
  match templateHit now st templatePath with
  | some info =>
    let used : templateInfo := { info with lastUsed := now }
    ({ st with templateCache := GoMap.set st.templateCache templatePath used },
     .ok info.template)
  | none =>
    match getFileContent fs now st templatePath with
    | (st, .error err) => (st, .error err)
    | (st, .ok tmplContent) =>
      match fs.stat templatePath with
      | .error err => (st, .error ("error getting file info: " ++ err))
      | .ok modTime =>
        if h.parseOK tmplContent then
          let tmpl : Template := { name := Base templatePath, text := tmplContent }
          ({ st with templateCache := storeTemplate st now templatePath tmpl modTime },
           .ok tmpl)
        else (st, .error "error parsing template: template: parse error")

/-- Go `RenderTemplate`, on the filesystem `fs` at time `now`. -/
def RenderTemplate (h : Host) (fs : FS) (now : Int) (st : Engine) (templatePath : Str)
    (data : List (Str × Str)) : Engine × Except String Str :=
  match getFileContent fs now st templatePath with
  | (st, .error err) => (st, .error err)
  | (st, .ok tmplContent) =>
    match ValidateTemplateContent tmplContent with
    | .error err => (st, .error ("template validation error: " ++ err))
    | .ok () =>
      let data := SanitizeData data
      match GetCachedTemplate h fs now st templatePath with
      | (st, .error err) => (st, .error err)
      | (st, .ok tmpl) =>
        match h.execute tmpl.text data with
        | .error err => (st, .error ("error executing template: " ++ err))
        | .ok result => (st, .ok result)

/-! ## reliability/backup.go -/

/-- The text of a path inside an error message. -/
def quote (path : Str) : String := String.mk path

/-- The path of the backup directory of a file. -/
def backupDirOf (filePath : Str) : Str := Join [Dir filePath, ".templater_backups".toList]

/-- Go `BackupFile` at time `now`: nothing for a file that does not exist, else its bytes
are copied to `<base>_<timestamp>.bak` in the backup directory. -/
def BackupFile (h : Host) (fs : FS) (now : Int) (filePath : Str) : FS × Except String Unit :=
  match fs.stat filePath with
  | .error _ => (fs, .ok ())
  | .ok _ =>
    let backupDir := backupDirOf filePath
    match fs.mkdirAll backupDir now with
    | .error err => (fs, .error ("error creating backup directory: " ++ err))
    | .ok fs =>
      let timestamp := h.stamp now
      let backupName := Base filePath ++ "_".toList ++ timestamp ++ ".bak".toList
      let backupPath := Join [backupDir, backupName]
      match fs.readFile filePath with
      | .error err => (fs, .error ("error reading file for backup: " ++ err))
      | .ok content =>
        match fs.writeFile backupPath content now with
        | .error err => (fs, .error ("error writing backup file: " ++ err))
        | .ok fs => (fs, .ok ())

/-- The zero `time.Time`, in nanoseconds from the Unix epoch. -/
def zeroTime : Int := -62135596800 * 1000000000

/-- The loop of `RestoreFromBackup`: the first backup in order whose modification time is
after that of every backup before it; a backup that cannot be stat-ed is skipped. -/
def mostRecentBackup (fs : FS) (backups : List Str) : Str × Int :=
  backups.foldl (fun best backup =>
    match fs.stat backup with
    | .error _ => best
    | .ok modTime => if modTime > best.2 then (backup, modTime) else best) ([], zeroTime)

/-- Go `RestoreFromBackup` at time `now`. -/
def RestoreFromBackup (fs : FS) (now : Int) (filePath : Str) : FS × Except String Unit :=
  let backupDir := backupDirOf filePath
  match Glob fs (Join [backupDir, Base filePath ++ "_*.bak".toList]) with
  | .error err => (fs, .error ("error finding backups: " ++ err))
  | .ok backups =>
    if backups.length = 0 then (fs, .error ("no backups found for " ++ quote filePath))
    else
      let mostRecent := (mostRecentBackup fs backups).1
      if mostRecent = [] then (fs, .error ("no valid backups found for " ++ quote filePath))
      else
        match fs.readFile mostRecent with
        | .error err => (fs, .error ("error reading backup file: " ++ err))
        | .ok content =>
          match fs.writeFile filePath content now with
          | .error err => (fs, .error ("error restoring from backup: " ++ err))
          | .ok fs => (fs, .ok ())

/-- The outcomes that the modelled filesystem does not determine (permissions, a full
disk, a failing device): the error of the write of the destination, when it fails and
leaves the destination as it was, and the result of the read of the integrity check, when
it is not the bytes on disk. `none` lets the filesystem decide. -/
structure Faults where
  write : Option String
  readBack : Option (Except String Str)

/-- No fault: the filesystem decides every outcome. -/
def Faults.none : Faults := { write := Option.none, readBack := Option.none }

/-- Go `VerifyFileIntegrity`. -/
def VerifyFileIntegrity (io : Faults) (fs : FS) (filePath expectedContent : Str) :
    Except String Unit :=
  match (match io.readBack with
    | some result => result
    | Option.none => fs.readFile filePath) with
  | .error err => .error ("error reading file for integrity check: " ++ err)
  | .ok actualContent =>
    if actualContent ≠ expectedContent then
      .error "file integrity check failed: content mismatch"
    else .ok ()

/-- Go `CleanupOldBackups` at time `now`. -/
def CleanupOldBackups (fs : FS) (now : Int) (filePath : Str) (maxAge : Int) :
    FS × Except String Unit :=
  let backupDir := backupDirOf filePath
  match Glob fs (Join [backupDir, Base filePath ++ "_*.bak".toList]) with
  | .error err => (fs, .error ("error finding backups: " ++ err))
  | .ok backups =>
    backups.foldl (fun acc backup =>
      match acc with
      | (fs, .error err) => (fs, .error err)
      | (fs, .ok ()) =>
        match fs.stat backup with
        | .error _ => (fs, .ok ())
        | .ok modTime =>
          if now - modTime > maxAge then
            match fs.remove backup with
            | .error err =>
              (fs, .error ("error removing old backup " ++ quote backup ++ ": " ++ err))
            | .ok fs => (fs, .ok ())
          else (fs, .ok ())) (fs, .ok ())

/-! ## engine/template.go: WriteToFile -/

/-- The end of `WriteToFile` after a failed write or check: the restore is attempted and
its failure, if any, is added to the error. -/
def restoreAfter (fs : FS) (now : Int) (filePath : Str) (what err : String) :
    FS × Except String Unit :=
  match RestoreFromBackup fs now filePath with
  | (fs, .error restoreErr) =>
    (fs, .error (what ++ err ++ " (restore failed: " ++ restoreErr ++ ")"))
  | (fs, .ok ()) => (fs, .error (what ++ err ++ " (restored from backup)"))

/-- Go `WriteToFile` at time `now`; the warning it prints when the cleanup fails is not
part of the result. -/
def WriteToFile (h : Host) (io : Faults) (fs : FS) (now : Int) (filePath content : Str) :
    FS × Except String Unit :=
  let allowedDirs := [Dir filePath]
  match ValidateOutputPath h.cwd fs filePath allowedDirs with
  | .error err => (fs, .error ("security error: " ++ err))
  | .ok () =>
    match BackupFile h fs now filePath with
    | (fs, .error err) => (fs, .error ("backup error: " ++ err))
    | (fs, .ok ()) =>
      match (match io.write with
        | some err => Except.error err
        | Option.none => fs.writeFile filePath content now) with
      | .error err => restoreAfter fs now filePath "write error: " err
      | .ok fs =>
        match VerifyFileIntegrity io fs filePath content with
        | .error err => restoreAfter fs now filePath "integrity check failed: " err
        | .ok () =>
          ((CleanupOldBackups fs now filePath (7 * 24 * (3600 * 1000000000))).1, .ok ())

/-- A device that returns other bytes than the ones on disk to the integrity check. -/
def garbledRead : Faults := { write := none, readBack := some (.ok "garbled".toList) }

/-- The invariant of the caches: the capacity is positive and neither cache has more
entries than `maxCacheSize`. -/
def Engine.Bounded (st : Engine) : Prop :=
  1 ≤ st.maxCacheSize
    ∧ (st.fileContentCache.length : Int) ≤ st.maxCacheSize
    ∧ (st.templateCache.length : Int) ≤ st.maxCacheSize

/-- One call on the caches, with the filesystem and the time it runs at. -/
inductive Call where
  | getFileContent (fs : FS) (now : Int) (path : Str)
  | GetCachedTemplate (h : Host) (fs : FS) (now : Int) (templatePath : Str)

/-- The state of the engine after the call. -/
def Call.run (c : Call) (st : Engine) : Engine :=
  match c with
  | .getFileContent fs now path => (Templater.getFileContent fs now st path).1
  | .GetCachedTemplate h fs now templatePath =>
    (Templater.GetCachedTemplate h fs now st templatePath).1

/-- The state of the engine after a series of calls, made one after the other. -/
def runCalls (calls : List Call) (st : Engine) : Engine :=
  calls.foldl (fun st c => c.run st) st

/-- A host whose template library parses every text and renders it unchanged. -/
def plainHost : Host :=
  { cwd := some ['/'], parseOK := fun _ => true, execute := fun text _ => .ok text,
    stamp := fun _ => [] }

/-- A filesystem with one template, written at time 1000. -/
def diskV1 : FS := [("/t.tmpl".toList, .file "Hello v1".toList 1000)]

/-- The same filesystem after the template was rewritten at time 2000. -/
def diskV2 : FS := [("/t.tmpl".toList, .file "Hello v2".toList 2000)]

/-- The same filesystem after the template was touched at time 2000: same bytes, new
modification time. -/
def diskTouched : FS := [("/t.tmpl".toList, .file "Hello v1".toList 2000)]

/-- A filesystem whose one template calls `exec`. -/
def diskExec : FS := [("/t.tmpl".toList, .file "\x7b\x7bexec\x7d\x7d".toList 1000)]

/-- An engine with a capacity of two and a full Template Cache. -/
def fullEngine : Engine :=
  { Engine.init with
    maxCacheSize := 2
    templateCache :=
      [ ("/a.tmpl".toList,
          { template := ⟨"a.tmpl".toList, "A".toList⟩, lastUsed := 50, lastModified := 10 }),
        ("/b.tmpl".toList,
          { template := ⟨"b.tmpl".toList, "B".toList⟩, lastUsed := 40, lastModified := 10 }) ] }

/-- A filesystem with the directory `/srv` and, in it, the directory `/srv/out`. -/
def diskSrv : FS := [("/srv".toList, .dir 100), ("/srv/out".toList, .dir 100)]

/-- The plain host with a clock that formats every time as `20240101_000000`. -/
def stampHost : Host := { plainHost with stamp := fun _ => "20240101_000000".toList }

/-- A filesystem with the directory `/srv` and, in it, the file `/srv/out.txt`. -/
def diskOut : FS := [("/srv".toList, .dir 100), ("/srv/out.txt".toList, .file "old".toList 200)]

/-- The runes that occur in the five substrings `SanitizeData` strips. -/
def strippedRune (c : Char) : Bool :=
  c = Char.ofNat 96 || c = '$' || c = '(' || c = '&' || c = '|' || c = ';'

/-! ## performance/processor.go -/

/-- The struct `ProcessingStats`. -/
structure ProcessingStats where
  StartTime : Int
  EndTime : Int
  TemplateCount : Int
  ErrorCount : Int
  MemoryUsage : Nat
  ProcessingTime : Int
  WorkerCount : Int
  CacheHits : Int
  CacheMisses : Int
deriving DecidableEq

/-- A buffered channel of `struct{}`: its capacity and the number of elements queued. -/
structure SlotChan where
  cap : Nat
  len : Nat
deriving DecidableEq

/-- The struct `ConcurrentProcessor`; `stopChan` tells whether the channel is closed. -/
structure ConcurrentProcessor where
  MaxWorkers : Int
  Stats : ProcessingStats
  workerPool : SlotChan
  stopChan : Bool
deriving DecidableEq

/-- Go `NewConcurrentProcessor`, on a machine with `cpus` logical CPUs at time `now`. -/
def NewConcurrentProcessor (cpus : Nat) (now : Int) : ConcurrentProcessor :=
  let numCPU : Int := cpus
  let numCPU : Int := if numCPU > 8 then 8 else numCPU
  { MaxWorkers := numCPU
    Stats :=
      { StartTime := now, EndTime := zeroTime, TemplateCount := 0, ErrorCount := 0,
        MemoryUsage := 0, ProcessingTime := 0, WorkerCount := numCPU, CacheHits := 0,
        CacheMisses := 0 }
    workerPool := { cap := numCPU.toNat, len := 0 }
    stopChan := false }

namespace ConcurrentProcessor

/-- Go `SetMaxWorkers`: the count is clamped and a new, empty worker pool replaces the
old one. -/
def SetMaxWorkers (p : ConcurrentProcessor) (count : Int) : ConcurrentProcessor :=
  let count := if count < 1 then 1 else count
  let count := if count > 16 then 16 else count
  { p with
    MaxWorkers := count
    workerPool := { cap := count.toNat, len := 0 }
    Stats := { p.Stats with WorkerCount := count } }

/-- Go `Stop`: the stop channel is closed; closing it a second time panics (`none`). -/
def Stop (p : ConcurrentProcessor) : Option ConcurrentProcessor :=
  if p.stopChan then none else some { p with stopChan := true }

end ConcurrentProcessor

/-- One `ProcessTemplates` call in progress. `templates` are the paths the loop has not
submitted yet; `selecting` tells whether the loop waits in its select and on which worker
pool (`none` inside: the pool of the processor; `some c`: a pool that `SetMaxWorkers`
has replaced since, which nobody else uses any more); `running` are the paths whose
render is in progress; `releasing` counts the goroutines whose render has returned and
that wait to take an element out of the worker pool; `rendered` records every render
that has returned, with its result; `returned` is what the call returned. -/
structure Batch where
  p : ConcurrentProcessor
  templates : List Str
  selecting : Option (Option SlotChan)
  running : List Str
  releasing : Nat
  wg : Nat
  errors : List String
  resultChan : List (Str × Str)
  rendered : List (Str × Except String Str)
  returned : Option (List (Str × Str) × Option String)
deriving DecidableEq

/-- What can happen next in a `ProcessTemplates` call: the steps of its loop (entering
the select, the select taking the send on the worker pool and starting a goroutine, the
select taking the receive on the stop channel), the steps of a goroutine (its
`RenderTemplate` call returns `r`, it takes an element out of the worker pool and is
done), the end of the call after `wg.Wait`, at time `now` with `alloc` bytes allocated,
and the calls another goroutine can make on the processor meanwhile. -/
inductive Event where
  | enterSelect
  | acquire
  | stopCase
  | renderReturns (i : Nat) (r : Except String Str)
  | release
  | collect (now : Int) (alloc : Nat)
  | SetMaxWorkers (count : Int)
  | Stop

/-- The events of the call itself, as opposed to calls made on the processor by others. -/
def Event.own : Event → Bool
  | .SetMaxWorkers _ => false
  | .Stop => false
  | _ => true

/-- The texts joined by single spaces. -/
def joinSpace : List String → String
  | [] => ""
  | [a] => a
  | a :: b :: rest => a ++ " " ++ joinSpace (b :: rest)

/-- The text `%v` gives for a slice of errors or of strings. -/
def formatErrors (errs : List String) : String := "[" ++ joinSpace errs ++ "]"

/-- Whether the text `part` occurs in the message `msg`. -/
def carries (msg part : String) : Prop := part.data <:+: msg.data

/-- The error a goroutine sends for a failed render. -/
def processingError (templatePath : Str) (err : String) : String :=
  "error processing " ++ String.mk templatePath ++ ": " ++ err

namespace Batch

/-- The start of `ProcessTemplates(templates, data)` on the processor `p`. -/
def start (p : ConcurrentProcessor) (templates : List Str) : Batch :=
  { p := p, templates := templates, selecting := none, running := [], releasing := 0,
    wg := 0, errors := [], resultChan := [], rendered := [], returned := none }

/-- The number of renders in progress. -/
def concurrency (b : Batch) : Nat := b.running.length

/-- One step of the call; `none` when the event cannot happen in this state. -/
def step (b : Batch) : Event → Option Batch
  | .enterSelect =>
    if b.returned.isNone ∧ b.selecting = none ∧ b.templates ≠ [] then
      some { b with selecting := some none }
    else none
  | .acquire =>
    match b.selecting, b.templates with
    | some none, tmpl :: rest =>
      if b.p.workerPool.len < b.p.workerPool.cap then
        some { b with
          p := { b.p with workerPool := { b.p.workerPool with len := b.p.workerPool.len + 1 } }
          wg := b.wg + 1, running := b.running ++ [tmpl], selecting := none
          templates := rest }
      else none
    | some (some old), tmpl :: rest =>
      if old.len < old.cap then
        some { b with
          wg := b.wg + 1, running := b.running ++ [tmpl], selecting := none
          templates := rest }
      else none
    | _, _ => none
  | .stopCase =>
    if b.selecting.isSome ∧ b.p.stopChan = true then
      some { b with selecting := none, returned := some ([], some "processing stopped") }
    else none
  | .renderReturns i r =>
    match b.running[i]? with
    | none => none
    | some templatePath =>
      let b := { b with
        running := b.running.eraseIdx i
        rendered := b.rendered ++ [(templatePath, r)]
        releasing := b.releasing + 1 }
      match r with
      | .error err =>
        some { b with
          errors := b.errors ++ [processingError templatePath err]
          p := { b.p with Stats := { b.p.Stats with ErrorCount := b.p.Stats.ErrorCount + 1 } } }
      | .ok result =>
        some { b with
          resultChan := b.resultChan ++ [(templatePath, result)]
          p := { b.p with
            Stats := { b.p.Stats with TemplateCount := b.p.Stats.TemplateCount + 1 } } }
  | .release =>
    if 0 < b.releasing ∧ 0 < b.p.workerPool.len then
      some { b with
        releasing := b.releasing - 1, wg := b.wg - 1
        p := { b.p with workerPool := { b.p.workerPool with len := b.p.workerPool.len - 1 } } }
    else none
  | .collect now alloc =>
    if b.returned.isNone ∧ b.templates = [] ∧ b.selecting = none ∧ b.wg = 0 then
      let results : List (Str × Str) :=
        b.resultChan.foldl (fun results result => GoMap.set results result.1 result.2) []
      let errs := b.errors
      some { b with
        p := { b.p with
          Stats := { b.p.Stats with
            EndTime := now, ProcessingTime := now - b.p.Stats.StartTime,
            MemoryUsage := alloc } }
        returned := some (results,
          if errs.length > 0 then some ("processing errors: " ++ formatErrors errs)
          else none) }
    else none
  | .SetMaxWorkers count =>
    some { b with
      p := b.p.SetMaxWorkers count
      selecting :=
        match b.selecting with
        | some none => some (some b.p.workerPool)
        | s => s }
  | .Stop =>
    match b.p.Stop with
    | none => none
    | some p => some { b with p := p }

/-- The state after a series of events, when each of them can happen in its turn. -/
def run (b : Batch) : List Event → Option Batch
  | [] => some b
  | e :: es =>
    match b.step e with
    | none => none
    | some b => run b es

end Batch

/-- The schedule that runs the paths one after the other, each render returning what
`render` gives for its path. -/
def sequentialSchedule (render : Str → Except String Str) : List Str → List Event
  | [] => [.collect 0 0]
  | t :: ts =>
    [.enterSelect, .acquire, .renderReturns 0 (render t), .release]
      ++ sequentialSchedule render ts

/-- Ten template paths, `/t0.tmpl` to `/t9.tmpl`. -/
def tenPaths : List Str :=
  (List.range 10).map (fun i => "/t".toList ++ [Char.ofNat (48 + i)] ++ ".tmpl".toList)

/-- A render that fails on `/t3.tmpl` and `/t7.tmpl` and returns the path otherwise. -/
def renderButTwo (templatePath : Str) : Except String Str :=
  if templatePath = "/t3.tmpl".toList ∨ templatePath = "/t7.tmpl".toList then
    .error "broken"
  else .ok templatePath

/-- The element a goroutine sends on the result channel for a render, if it succeeded. -/
def okEntry : Str × Except String Str → Option (Str × Str)
  | (templatePath, .ok result) => some (templatePath, result)
  | (_, .error _) => none

/-- The element a goroutine sends on the error channel for a render, if it failed. -/
def errEntry : Str × Except String Str → Option String
  | (templatePath, .error err) => some (processingError templatePath err)
  | (_, .ok _) => none

/-- The result map that the end of `ProcessTemplates` collects from the result channel. -/
def collectResults (resultChan : List (Str × Str)) : List (Str × Str) :=
  resultChan.foldl (fun results result => GoMap.set results result.1 result.2) []

/-- The invariant of a `ProcessTemplates` call on the paths `ts` that nobody interferes
with, on a processor that is not stopped and whose worker pool has capacity `cap`. -/
structure Batch.Quiet (ts : List Str) (cap : Nat) (b : Batch) : Prop where
  notStopped : b.p.stopChan = false
  capEq : b.p.workerPool.cap = cap
  poolLen : b.p.workerPool.len = b.running.length + b.releasing
  poolLe : b.p.workerPool.len ≤ cap
  wgEq : b.wg = b.running.length + b.releasing
  sel : b.selecting = none ∨ (b.selecting = some none ∧ b.templates ≠ [] ∧ b.returned = none)
  results : b.resultChan = b.rendered.filterMap okEntry
  errs : b.errors = b.rendered.filterMap errEntry
  perm : List.Perm ts (b.rendered.map Prod.fst ++ (b.running ++ b.templates))
  ret : ∀ r, b.returned = some r →
    b.templates = [] ∧ b.running = [] ∧ b.releasing = 0 ∧ b.selecting = none
      ∧ r = (collectResults b.resultChan,
          if b.errors.length > 0 then some ("processing errors: " ++ formatErrors b.errors)
          else none)

/-- The number of steps a call that nobody interferes with still has to make. -/
def Batch.stepsLeft (b : Batch) : Nat :=
  4 * b.templates.length + 2 * b.running.length + b.releasing
    + (if b.returned.isNone then 1 else 0) + (if b.selecting.isNone then 1 else 0)

/-- A schedule that runs the paths two at a time, the second render of each pair
returning before the first. -/
def pairedSchedule (render : Str → Except String Str) : List Str → List Event
  | a :: b :: ts =>
    [.enterSelect, .acquire, .enterSelect, .acquire, .renderReturns 1 (render b),
      .renderReturns 0 (render a), .release, .release] ++ pairedSchedule render ts
  | [a] => [.enterSelect, .acquire, .renderReturns 0 (render a), .release, .collect 0 0]
  | [] => [.collect 0 0]

/-- The ten paths on a processor with two workers, run by the paired schedule. -/
def tenBatch : Batch :=
  ((Batch.start (NewConcurrentProcessor 2 0) tenPaths).run
    (pairedSchedule renderButTwo tenPaths)).getD (Batch.start (NewConcurrentProcessor 2 0) [])

/-- The eight paths of `tenPaths` that `renderButTwo` renders, in the order in which the
paired schedule completes them. -/
def eightPaths : List Str :=
  [1, 0, 2, 5, 4, 6, 9, 8].map
    (fun i => "/t".toList ++ [Char.ofNat (48 + i)] ++ ".tmpl".toList)

/-- A processor with one worker. -/
def oneWorker : ConcurrentProcessor := NewConcurrentProcessor 1 0

/-- The processor with one worker after `Stop` was called on it. -/
def stoppedWorker : ConcurrentProcessor := { oneWorker with stopChan := true }

/-! ## engine/template.go: LoadData -/

/-- Go `filepath.Ext`: the suffix of the last element that starts at its last dot. -/
def Ext (path : Str) : Str :=
  let tail := path.reverse.takeWhile (fun c => c != '/' && c != '.')
  match (path.reverse.drop tail.length).head? with
  | some '.' => '.' :: tail.reverse
  | _ => []

/-- Go `strings.ToLower`, on the ASCII letters. -/
def ToLower (s : Str) : Str := s.map Char.toLower

/-- The two decoders `LoadData` uses, `yaml.Unmarshal` and `json.Unmarshal`, into a map
from strings to strings. -/
structure Codec where
  yaml : Str → Except String (List (Str × Str))
  json : Str → Except String (List (Str × Str))

/-- Go `LoadData`. -/
def LoadData (codec : Codec) (fs : FS) (dataPath : Str) : Except String (List (Str × Str)) :=
  if dataPath = [] then .ok []
  else
    match fs.readFile dataPath with
    | .error err => .error ("error reading data file: " ++ err)
    | .ok data =>
      let ext := ToLower (Ext dataPath)
      if ext = ".yaml".toList ∨ ext = ".yml".toList then
        match codec.yaml data with
        | .error err => .error ("error parsing YAML data: " ++ err)
        | .ok result => .ok result
      else
        match codec.json data with
        | .error err => .error ("error parsing JSON data: " ++ err)
        | .ok result => .ok result

/-! ## watch/watcher.go -/

/-- The struct `Status`. -/
structure Status where
  TemplatePath : Str
  DataPath : Str
  OutputPath : Str
  LastUpdate : Int
  IsWatching : Bool
deriving DecidableEq

/-- The struct `Watcher`, without the notification handle and the stop channel; each of
the two channels has capacity one and holds at most one element. -/
structure Watcher where
  template : Str
  data : Str
  output : Str
  interval : Int
  lastUpdate : Int
  statusChan : Option Status
  errorChan : Option String
deriving DecidableEq

/-- An `fsnotify.Event`: the path and the bit set of operations. -/
structure FsEvent where
  Name : Str
  Op : Nat
deriving DecidableEq

/-- The operation `fsnotify.Create`. -/
def opCreate : Nat := 1

/-- The operation `fsnotify.Write`. -/
def opWrite : Nat := 2

/-- Go `NewWatcher`, at the zero time. -/
def NewWatcher (template data output : Str) (interval : Int) : Watcher :=
  { template := template, data := data, output := output, interval := interval,
    lastUpdate := zeroTime, statusChan := none, errorChan := none }

namespace Watcher

/-- Go `isRelevantEvent`. -/
def isRelevantEvent (w : Watcher) (event : FsEvent) : Bool :=
  (event.Name = w.template || event.Name = w.data)
    && (event.Op &&& opWrite = opWrite || event.Op &&& opCreate = opCreate)

end Watcher

/-- The state of the loop `watch` and of what it works on: the watcher, the filesystem,
the caches of the engine, the clock, the number of `processChange` calls made so far, the
error the loop is blocked sending on the full error channel, if any, and whether the loop
has returned. -/
structure WatchLoop where
  w : Watcher
  fs : FS
  engine : Engine
  now : Int
  cycles : Nat
  blocked : Option String
  done : Bool

/-- What the loop and the readers of its channels can do next: the select of the loop
receives an event that arrived at time `arrived`, finds the event channel closed,
receives an error of the notification library, finds its error channel closed, or sees
the stop channel closed; a reader takes the element out of the error channel or out of
the status channel. -/
inductive Delivery where
  | event (arrived : Int) (e : FsEvent)
  | eventsClosed
  | watcherError (err : String)
  | errorsClosed
  | stop
  | readError
  | readStatus

namespace WatchLoop

/-- Go `processChange` at the current time. -/
def processChange (h : Host) (codec : Codec) (io : Faults) (l : WatchLoop) :
    WatchLoop × Except String Unit :=
  match (if l.w.data ≠ [] then LoadData codec l.fs l.w.data else .ok []) with
  | .error err => (l, .error ("error loading data: " ++ err))
  | .ok data =>
    match RenderTemplate h l.fs l.now l.engine l.w.template data with
    | (engine, .error err) =>
      ({ l with engine := engine }, .error ("error rendering template: " ++ err))
    | (engine, .ok result) =>
      match WriteToFile h io l.fs l.now l.w.output result with
      | (fs, .error err) =>
        ({ l with engine := engine, fs := fs }, .error ("error writing output: " ++ err))
      | (fs, .ok ()) =>
        ({ l with engine := engine, fs := fs, w := { l.w with lastUpdate := l.now } }, .ok ())

/-- The send `w.errorChan <- err`: it completes when the channel is empty and blocks the
loop when the channel is full. -/
def sendError (l : WatchLoop) (err : String) : WatchLoop :=
  match l.w.errorChan with
  | none => { l with w := { l.w with errorChan := some err } }
  | some _ => { l with blocked := some err }

/-- Go `updateStatus`: the status is sent when the status channel is empty and skipped
when it is full. -/
def updateStatus (l : WatchLoop) : WatchLoop :=
  let status : Status :=
    { TemplatePath := l.w.template, DataPath := l.w.data, OutputPath := l.w.output,
      LastUpdate := l.w.lastUpdate, IsWatching := true }
  match l.w.statusChan with
  | none => { l with w := { l.w with statusChan := some status } }
  | some _ => l

/-- One round of the loop `watch`, or one read of a channel; `none` when it cannot happen
in this state: the loop receives nothing while it is blocked or after it has returned. -/
def step (h : Host) (codec : Codec) (io : Faults) (l : WatchLoop) :
    Delivery → Option WatchLoop
  | .readError =>
    match l.w.errorChan with
    | none => none
    | some _ =>
      some { l with w := { l.w with errorChan := l.blocked }, blocked := none }
  | .readStatus =>
    match l.w.statusChan with
    | none => none
    | some _ => some { l with w := { l.w with statusChan := none } }
  | .event arrived e =>
    if l.done ∨ l.blocked.isSome then none
    else
      let l := { l with now := max l.now arrived }
      if l.w.isRelevantEvent e then
        let l := { l with now := l.now + l.w.interval, cycles := l.cycles + 1 }
        match processChange h codec io l with
        | (l, .error err) => some (sendError l err)
        | (l, .ok ()) => some (updateStatus l)
      else some l
  | .watcherError err =>
    if l.done ∨ l.blocked.isSome then none
    else some (sendError l ("watcher error: " ++ err))
  | .eventsClosed => if l.done ∨ l.blocked.isSome then none else some { l with done := true }
  | .errorsClosed => if l.done ∨ l.blocked.isSome then none else some { l with done := true }
  | .stop => if l.done ∨ l.blocked.isSome then none else some { l with done := true }

/-- The state after a series of rounds and reads, when each can happen in its turn. -/
def run (h : Host) (codec : Codec) (io : Faults) (l : WatchLoop) :
    List Delivery → Option WatchLoop
  | [] => some l
  | d :: ds =>
    match step h codec io l d with
    | none => none
    | some l => run h codec io l ds

end WatchLoop

/-- Decoders that are never reached when no data file is configured. -/
def noCodec : Codec := { yaml := fun _ => .ok [], json := fun _ => .ok [] }

/-- A filesystem with the directory `/srv` and the template `/srv/t.tmpl`. -/
def diskWatch : FS :=
  [("/srv".toList, .dir 100), ("/srv/t.tmpl".toList, .file "Hi".toList 200)]

/-- A watch loop on the template `/srv/t.tmpl`, without data file, writing to
`/srv/out.txt` with a debounce interval of one second. -/
def watchStart : WatchLoop :=
  { w := NewWatcher "/srv/t.tmpl".toList [] "/srv/out.txt".toList 1000000000
    fs := diskWatch, engine := Engine.init, now := 1000, cycles := 0, blocked := none,
    done := false }

/-- Five write events on the template that arrive within five nanoseconds. -/
def fiveWrites : List Delivery :=
  (List.range 5).map (fun i => Delivery.event (1000 + i) ⟨"/srv/t.tmpl".toList, opWrite⟩)

/-- Whether the delivery is an event that is relevant for the watcher. -/
def Delivery.relevant (w : Watcher) : Delivery → Bool
  | .event _ e => w.isRelevantEvent e
  | _ => false

/-- The write step of `WriteToFile`: `os.WriteFile` on the destination, or its fault. -/
def writeDestination (io : Faults) (fs : FS) (now : Int) (filePath content : Str) :
    Except String FS :=
  match io.write with
  | some err => Except.error err
  | Option.none => fs.writeFile filePath content now

/-- A destination that cannot be opened for writing. -/
def deniedWrite : Faults := { write := some "permission denied", readBack := none }

/-! ## engine/template.go: the keys of a template -/

/-- Go `strings.Index(s, sub)`: where `sub` first occurs in `s`; `none` is -1. -/
def Index : Str → Str → Option Nat
  | [], sub => if sub.isEmpty then some 0 else none
  | c :: cs, sub =>
    if sub.isPrefixOf (c :: cs) then some 0 else (Index cs sub).map (fun i => i + 1)

/-- The loop of `strings.Split` for a non-empty separator: the text before the first
separator, then the split of the text after it; every round consumes at least one rune,
so the length of the text is enough fuel. -/
def splitLoop (sep : Str) : Nat → Str → List Str
  | 0, s => [s]
  | fuel + 1, s =>
    match Index s sep with
    | none => [s]
    | some m => s.take m :: splitLoop sep fuel (s.drop (m + sep.length))

/-- Go `strings.Split(s, sep)`; with an empty separator the text is split into its
runes. -/
def Split (s sep : Str) : List Str :=
  if sep.isEmpty then s.map (fun c => [c]) else splitLoop sep s.length s

/-- Go `strings.TrimSpace`. -/
def TrimSpace (s : Str) : Str := ((s.dropWhile isSpace).reverse.dropWhile isSpace).reverse

/-- The scan of `ExtractTemplateKeys` over the content of the template: the set `keys`
after the loop over the parts that follow a `{{.`, then its keys in iteration order. -/
def extractKeys (content : Str) : List Str :=
  let parts := Split content "\x7b\x7b.".toList
  let keys : List (Str × Bool) :=
    parts.tail.foldl (fun keys part =>
      match Index part "\x7d\x7d".toList with
      | some idx => GoMap.set keys (TrimSpace (part.take idx)) true
      | none => keys) []
  GoMap.keys keys

/-- Go `ExtractTemplateKeys`. -/
def ExtractTemplateKeys (fs : FS) (templatePath : Str) : Except String (List Str) :=
  match fs.readFile templatePath with
  | .error err => .error ("error reading template file: " ++ err)
  | .ok content => .ok (extractKeys content)

/-- Go `ValidateTemplateData`; the missing keys are printed as `%v` prints a slice. -/
def ValidateTemplateData (fs : FS) (templatePath : Str) (data : List (Str × Str)) :
    Except String Unit :=
  match ExtractTemplateKeys fs templatePath with
  | .error err => .error ("error extracting template keys: " ++ err)
  | .ok keys =>
    let missing := keys.filter (fun k => (GoMap.get data k).isNone)
    if missing.length > 0 then
      .error ("missing required data keys: " ++ formatErrors (missing.map String.mk))
    else .ok ()

/-- The names of the references of a text as the claim on `ExtractTemplateKeys` words
them: for each `{{.` in the text, the text between it and the first `}}` after it,
trimmed. -/
def referenceNames : Str → List Str
  | [] => []
  | c :: cs =>
    (if "\x7b\x7b.".toList.isPrefixOf (c :: cs) then
      match Index ((c :: cs).drop 3) "\x7d\x7d".toList with
      | some idx => [TrimSpace (((c :: cs).drop 3).take idx)]
      | none => []
    else []) ++ referenceNames cs

/-- Two occurrences of the separator in a text never overlap. -/
def NoOverlap (sep : Str) : Prop :=
  ∀ A B A' B' : Str, A ++ sep ++ B = A' ++ sep ++ B' → A.length < A'.length →
    A.length + sep.length ≤ A'.length

/-- The marker `{{.` that opens a reference. -/
def openRef : Str := "\x7b\x7b.".toList

/-- The marker `}}` that closes a reference. -/
def closeRef : Str := "\x7d\x7d".toList

/-- A filesystem with the greeting template `/srv/hi.tmpl`. -/
def diskGreeting : FS :=
  [("/srv/hi.tmpl".toList,
    .file "Hi \x7b\x7b.name\x7d\x7d, you are \x7b\x7b.age\x7d\x7d".toList 200)]

/-- The runes of a path after its last slash. -/
def lastElem (path : Str) : Str := (path.reverse.takeWhile (fun c => c != '/')).reverse

/-- A name that `filepath.Clean` keeps as an element: not empty, without a slash, and
neither `.` nor `..`. -/
def NormalElem (n : Str) : Prop := n ≠ [] ∧ '/' ∉ n ∧ n ≠ ['.'] ∧ n ≠ ['.', '.']

/-- The invariant of the buffer of `filepath.Clean` on a rooted path: backtracking stops
after the leading slash, which the buffer, held last rune first, ends with. -/
def CleanInv (rooted : Bool) (out : Str) (dotdot : Nat) : Prop :=
  rooted = true → dotdot = 1 ∧ out.getLast? = some '/'

/-- A buffer, held last rune first, whose last element is `n`. -/
def EndsWithElem (res n : Str) : Prop :=
  ∃ o, res = n.reverse ++ o ∧ (o = [] ∨ ∃ o', o = '/' :: o')

/-! ## security/sandbox.go: SanitizePath -/

/-- Go `SanitizePath`: the path is cleaned, the three substrings are removed one after
the other, and `strings.Map` then drops the control characters. -/
def SanitizePath (path : Str) : Str :=
  let path := Clean path
  let path := ReplaceAll path "..".toList []
  let path := ReplaceAll path "./".toList []
  let path := ReplaceAll path "/.".toList []
  path.filter (fun r => !(r.toNat < 32 || r.toNat = 127))

/-! ## engine/template.go: ParseTemplateMetadata -/

/-- The struct `TemplateMetadata`. -/
structure TemplateMetadata where
  Name : Str
  Description : Str
  Author : Str
  Version : Str
  DependsOn : List Str
  RequiredKeys : List Str
deriving DecidableEq

/-- What a call does: it returns a value, or it panics with a run-time error. -/
inductive Outcome (α : Type) where
  | returns (value : α)
  | panics (err : String)
deriving DecidableEq

/-- The slice expression `s[lo:hi]` of Go on a string: bounds out of range are a run-time
panic. The positions count runes here and bytes in Go, which is the same for ASCII text. -/
def sliceStr (s : Str) (lo hi : Nat) : Except String Str :=
  if hi > s.length then
    .error ("slice bounds out of range [:" ++ toString hi ++ "] with length "
      ++ toString s.length)
  else if lo > hi then
    .error ("slice bounds out of range [" ++ toString lo ++ ":" ++ toString hi ++ "]")
  else .ok ((s.take hi).drop lo)

/-- Go `ParseTemplateMetadata`, given `yaml.Unmarshal` into the struct; the pair is the
metadata (`none` is nil) and the error (`none` is nil). -/
def ParseTemplateMetadata (unmarshal : Str → Except String TemplateMetadata)
    (content : Str) : Outcome (Option TemplateMetadata × Option String) :=
  let metadataStart := "\x7b\x7b/*".toList
  let metadataEnd := "*/\x7d\x7d".toList
  match Index content metadataStart with
  | none => .returns (none, none)
  | some startIdx =>
    match Index (content.drop startIdx) metadataEnd with
    | none => .returns (none, some "unclosed metadata block")
    | some endIdx =>
      match sliceStr content (startIdx + metadataStart.length) (startIdx + endIdx) with
      | .error err => .panics err
      | .ok metadataContent =>
        match unmarshal metadataContent with
        | .error err => .returns (none, some ("error parsing template metadata: " ++ err))
        | .ok metadata => .returns (some metadata, none)

/-- A filesystem with the directory `/srv` and, in it, the files `/srv/out.txt` and
`/srv/out.txt_v2`. -/
def diskTwo : FS :=
  [("/srv".toList, .dir 100), ("/srv/out.txt".toList, .file "mine".toList 200),
    ("/srv/out.txt_v2".toList, .file "other".toList 300)]

/-- The same filesystem after `BackupFile` was called for `/srv/out.txt_v2` at time 5000. -/
def diskTwoBackedUp : FS := (BackupFile stampHost diskTwo 5000 "/srv/out.txt_v2".toList).1

/-- Seven days, the retention window of `WriteToFile`, in nanoseconds. -/
def sevenDays : Int := 7 * 24 * (3600 * 1000000000)

/-- A write event on the template `/srv/t.tmpl` that arrives at time 1000. -/
def templateWrite : Delivery := .event 1000 ⟨"/srv/t.tmpl".toList, opWrite⟩

/-! ## engine/docx.go: conditional paragraphs -/

/-- The class `\s` of the `regexp` package: tab, newline, form feed, carriage return and
space. -/
def isReSpace (c : Char) : Bool :=
  let n := c.toNat
  n = 9 || n = 10 || n = 12 || n = 13 || n = 32

/-- The class `\w` of the `regexp` package: the digits, the ASCII letters and `_`. -/
def isWordRune (c : Char) : Bool :=
  let n := c.toNat
  (48 ≤ n && n ≤ 57) || (65 ≤ n && n ≤ 90) || n = 95 || (97 ≤ n && n ≤ 122)

/-- The input after the literal `p`, when the input starts with it. -/
def afterLit (p s : Str) : Option Str :=
  if p.isPrefixOf s then some (s.drop p.length) else none

/-- The match of `\s+(\w+)}}` at the start of `s`: the submatch of the group. The two
repetitions are greedy, and nothing that they could give back can be taken by what
follows them (no space is a word rune and `}` is none), so the longest runs decide. -/
def conditionKeyAt (s : Str) : Option Str :=
  let rest := s.dropWhile isReSpace
  let key := rest.takeWhile isWordRune
  if s.takeWhile isReSpace ≠ [] ∧ key ≠ []
      ∧ "\x7d\x7d".toList.isPrefixOf (rest.dropWhile isWordRune) then some key
  else none

/-- The match of the pattern `{{#(if|unless)\s+(\w+)}}` at the start of `s`: the
submatches of its two groups. -/
def conditionAt (s : Str) : Option (Str × Str) :=
  match afterLit "\x7b\x7b#".toList s with
  | none => none
  | some s1 =>
    match afterLit "if".toList s1 with
    | some s2 => (conditionKeyAt s2).map (fun key => ("if".toList, key))
    | none =>
      match afterLit "unless".toList s1 with
      | some s2 => (conditionKeyAt s2).map (fun key => ("unless".toList, key))
      | none => none

/-- Go `FindStringSubmatch` for the pattern `{{#(if|unless)\s+(\w+)}}`: the two
submatches of the leftmost match; `none` is the nil slice. -/
def findCondition : Str → Option (Str × Str)
  | [] => none
  | c :: s =>
    match conditionAt (c :: s) with
    | some m => some m
    | none => findCondition s

/-- The text of a paragraph: the texts of its runs, one after the other. -/
def paragraphText (runs : List Str) : Str := runs.foldl (fun text run => text ++ run) []

/-- Go `isConditionalParagraph`. -/
def isConditionalParagraph (runs : List Str) : Bool :=
  Contains (paragraphText runs) "\x7b\x7b#if".toList
    || Contains (paragraphText runs) "\x7b\x7b#unless".toList

/-- Go `shouldKeepParagraph`, on the run texts of the paragraph. -/
def shouldKeepParagraph (runs : List Str) (data : List (Str × Str)) : Bool :=
  match findCondition (paragraphText runs) with
  | none => true
  | some (conditionType, conditionKey) =>
    let value := (GoMap.get data conditionKey).getD []
    let found := (GoMap.get data conditionKey).isSome
    if conditionType = "if".toList then
      found && value != [] && value != "false".toList && value != "0".toList
    else !found || value == [] || value == "false".toList || value == "0".toList

/-- Truthiness in the words of the specification: the key is present in the data and its
value is not empty, not `false` and not `0`. -/
def truthy (data : List (Str × Str)) (k : Str) : Bool :=
  match GoMap.get data k with
  | some v => v != [] && v != "false".toList && v != "0".toList
  | none => false

/-- The text of a condition marker in the words of the specification: `{{#`, the type,
the white space, the key and `}}`. -/
def conditionMarker (t ws k : Str) : Str :=
  "\x7b\x7b#".toList ++ t ++ ws ++ k ++ "\x7d\x7d".toList

/-- The text `s` starts with a recognised condition marker of type `t` and key `k`: the
type is `if` or `unless`, the white space is one or more characters of the class `\s`,
and the key is one or more word characters. -/
def Recognised (s t k : Str) : Prop :=
  ∃ ws post, s = conditionMarker t ws k ++ post
    ∧ (t = "if".toList ∨ t = "unless".toList)
    ∧ ws ≠ [] ∧ (∀ c ∈ ws, isReSpace c = true)
    ∧ k ≠ [] ∧ (∀ c ∈ k, isWordRune c = true)

/-! ## Theorems -/

/-- C1: on the data mapping with the one entry x = `$;(`, the value SanitizeData returns
for x is `$(`, one of the injection substrings the function is meant to strip: removing
the semicolon last joins the dollar sign and the parenthesis. -/
theorem SanitizeData_leaves_dollar_paren :
    GoMap.get (SanitizeData [("x".toList, "$;(".toList)]) "x".toList = some "$(".toList
      ∧ Contains (sanitizeValue "$;(".toList) "$(".toList = true := by
  decide

/-- C2: ValidateTemplateContent returns an error exactly when some whitespace-delimited
field of the content equals a dangerous command under case folding or some dangerous
pattern matches the content, and nil otherwise; the greeting template is accepted and the
exec template is rejected with the detected-pattern error of the first pattern. -/
theorem ValidateTemplateContent_fails_iff (content : Str) :
    (ValidateTemplateContent content ≠ .ok () ↔
        (∃ word ∈ Fields content, ∃ cmd ∈ DangerousCommands, EqualFold word cmd = true)
          ∨ (∃ pattern ∈ DangerousPatterns, pattern.MatchString content = true))
      ∧ ValidateTemplateContent "Hello \x7b\x7bname\x7d\x7d".toList = .ok ()
      ∧ ValidateTemplateContent "\x7b\x7bexec \x27rm -rf /\x27\x7d\x7d".toList
          = .error "dangerous pattern detected: (?i)(exec|system|eval|spawn|fork)" := by
  refine ⟨?_, by decide, by decide⟩
  unfold ValidateTemplateContent
  constructor
  · intro h
    cases hc : (Fields content).findSome? (fun word =>
        DangerousCommands.find? (fun cmd => EqualFold word cmd)) with
    | some cmd =>
      obtain ⟨word, hw, hf⟩ := List.exists_of_findSome?_eq_some hc
      have he := List.find?_some hf
      exact Or.inl ⟨word, hw, cmd, List.mem_of_find?_eq_some hf, he⟩
    | none =>
      rw [hc] at h
      cases hp : DangerousPatterns.find? (fun pattern => pattern.MatchString content) with
      | some pattern =>
        have hm := List.find?_some hp
        exact Or.inr ⟨pattern, List.mem_of_find?_eq_some hp, hm⟩
      | none => rw [hp] at h; exact absurd rfl h
  · rintro (⟨word, hw, cmd, hcmd, he⟩ | ⟨pattern, hp, hm⟩)
    · cases hc : (Fields content).findSome? (fun word =>
          DangerousCommands.find? (fun cmd => EqualFold word cmd)) with
      | some cmd => simp
      | none =>
        rw [List.findSome?_eq_none_iff] at hc
        have h1 := hc word hw
        rw [List.find?_eq_none] at h1
        exact absurd he (by simpa using h1 cmd hcmd)
    · cases hc : (Fields content).findSome? (fun word =>
          DangerousCommands.find? (fun cmd => EqualFold word cmd)) with
      | some cmd => simp
      | none =>
        cases hq : DangerousPatterns.find? (fun pattern => pattern.MatchString content) with
        | some pattern => simp
        | none =>
          rw [List.find?_eq_none] at hq
          exact absurd hm (by simpa using hq pattern hp)

/-! ### Go maps: lookups after updates -/

theorem GoMap.get_set_self {V : Type} (m : List (Str × V)) (k : Str) (v : V) :
    GoMap.get (GoMap.set m k v) k = some v := by
  induction m with
  | nil => simp [GoMap.set, GoMap.get]
  | cons e rest ih =>
    obtain ⟨k', v'⟩ := e
    by_cases hk : k' = k
    · simp [GoMap.set, GoMap.get, hk]
    · simp [GoMap.set, GoMap.get, hk, ih]

theorem GoMap.get_set_other {V : Type} (m : List (Str × V)) (k k' : Str) (v : V)
    (h : k' ≠ k) : GoMap.get (GoMap.set m k v) k' = GoMap.get m k' := by
  induction m with
  | nil => simp [GoMap.set, GoMap.get, Ne.symm h]
  | cons e rest ih =>
    obtain ⟨k0, v0⟩ := e
    by_cases hk : k0 = k
    · subst hk
      simp [GoMap.set, GoMap.get, Ne.symm h]
    · by_cases hk' : k0 = k'
      · subst hk'
        simp [GoMap.set, GoMap.get, hk]
      · simp [GoMap.set, GoMap.get, hk, hk', ih]

theorem GoMap.length_set_le {V : Type} (m : List (Str × V)) (k : Str) (v : V) :
    (GoMap.set m k v).length ≤ m.length + 1 := by
  induction m with
  | nil => simp [GoMap.set]
  | cons e rest ih =>
    obtain ⟨k', v'⟩ := e
    by_cases hk : k' = k
    · simp [GoMap.set, hk]
    · simp [GoMap.set, hk]; omega

theorem GoMap.length_set_of_get {V : Type} (m : List (Str × V)) (k : Str) (v v0 : V)
    (h : GoMap.get m k = some v0) : (GoMap.set m k v).length = m.length := by
  induction m with
  | nil => simp [GoMap.get] at h
  | cons e rest ih =>
    obtain ⟨k', v'⟩ := e
    by_cases hk : k' = k
    · simp [GoMap.set, hk]
    · simp [GoMap.get, hk] at h
      simp [GoMap.set, hk, ih h]

theorem GoMap.set_of_get_none {V : Type} (m : List (Str × V)) (k : Str) (v : V)
    (h : GoMap.get m k = none) : GoMap.set m k v = m ++ [(k, v)] := by
  induction m with
  | nil => simp [GoMap.set]
  | cons e rest ih =>
    obtain ⟨k', v'⟩ := e
    by_cases hk : k' = k
    · simp [GoMap.get, hk] at h
    · simp [GoMap.get, hk] at h
      simp [GoMap.set, hk, ih h]

theorem GoMap.mem_keys_of_mem {V : Type} (m : List (Str × V)) (k : Str) (v : V)
    (h : (k, v) ∈ m) : k ∈ GoMap.keys m :=
  List.mem_map.mpr ⟨(k, v), h, rfl⟩

theorem GoMap.get_eq_none_iff {V : Type} (m : List (Str × V)) (k : Str) :
    GoMap.get m k = none ↔ k ∉ GoMap.keys m := by
  induction m with
  | nil => simp [GoMap.get, GoMap.keys]
  | cons e rest ih =>
    obtain ⟨k', v'⟩ := e
    have hkeys : GoMap.keys ((k', v') :: rest) = k' :: GoMap.keys rest := rfl
    rw [hkeys, List.mem_cons]
    by_cases hk : k' = k
    · subst hk
      constructor
      · intro h
        simp [GoMap.get] at h
      · intro h
        exact absurd (Or.inl rfl) h
    · have hget : GoMap.get ((k', v') :: rest) k = GoMap.get rest k := by
        simp [GoMap.get, hk]
      rw [hget, ih]
      constructor
      · rintro h (h1 | h1)
        · exact hk h1.symm
        · exact h h1
      · intro h h1
        exact h (Or.inr h1)

theorem GoMap.get_of_mem {V : Type} (m : List (Str × V)) (k : Str) (v : V)
    (hnd : (GoMap.keys m).Nodup) (h : (k, v) ∈ m) : GoMap.get m k = some v := by
  induction m with
  | nil => simp at h
  | cons e rest ih =>
    obtain ⟨k', v'⟩ := e
    simp only [GoMap.keys, List.map_cons, List.nodup_cons] at hnd
    rcases List.mem_cons.mp h with heq | hin
    · cases heq
      simp [GoMap.get]
    · have hne : k' ≠ k := by
        intro hk
        apply hnd.1
        rw [hk]
        exact GoMap.mem_keys_of_mem rest k v hin
      simp [GoMap.get, hne, ih hnd.2 hin]

theorem GoMap.mem_of_get {V : Type} (m : List (Str × V)) (k : Str) (v : V)
    (h : GoMap.get m k = some v) : (k, v) ∈ m := by
  induction m with
  | nil => simp [GoMap.get] at h
  | cons e rest ih =>
    obtain ⟨k', v'⟩ := e
    by_cases hk : k' = k
    · simp [GoMap.get, hk] at h
      simp [hk, h]
    · simp [GoMap.get, hk] at h
      exact List.mem_cons_of_mem _ (ih h)

theorem GoMap.length_delete_le {V : Type} (m : List (Str × V)) (k : Str) :
    (GoMap.delete m k).length ≤ m.length := by
  induction m with
  | nil => simp [GoMap.delete]
  | cons e rest ih =>
    obtain ⟨k', v'⟩ := e
    by_cases hk : k' = k
    · simp [GoMap.delete, hk]; omega
    · simp [GoMap.delete, hk]; omega

theorem GoMap.length_delete_lt {V : Type} (m : List (Str × V)) (k : Str) (v : V)
    (h : (k, v) ∈ m) : (GoMap.delete m k).length < m.length := by
  induction m with
  | nil => simp at h
  | cons e rest ih =>
    obtain ⟨k', v'⟩ := e
    by_cases hk : k' = k
    · have := GoMap.length_delete_le rest k
      simp [GoMap.delete, hk]
      omega
    · rcases List.mem_cons.mp h with heq | hin
      · cases heq
        exact absurd rfl hk
      · have := ih hin
        simp [GoMap.delete, hk]
        omega

theorem GoMap.delete_of_not_mem {V : Type} (m : List (Str × V)) (k : Str)
    (h : k ∉ GoMap.keys m) : GoMap.delete m k = m := by
  induction m with
  | nil => simp [GoMap.delete]
  | cons e rest ih =>
    obtain ⟨k', v'⟩ := e
    simp only [GoMap.keys, List.map_cons, List.mem_cons, not_or] at h
    have hk : ¬ k' = k := fun hk => h.1 hk.symm
    simp only [GoMap.delete, hk, if_false]
    rw [ih h.2]

theorem GoMap.delete_eq_erase {V : Type} [DecidableEq V] (m : List (Str × V)) (k : Str)
    (v : V) (hnd : (GoMap.keys m).Nodup) (h : (k, v) ∈ m) :
    GoMap.delete m k = m.erase (k, v) := by
  induction m with
  | nil => simp at h
  | cons e rest ih =>
    obtain ⟨k', v'⟩ := e
    simp only [GoMap.keys, List.map_cons, List.nodup_cons] at hnd
    rcases List.mem_cons.mp h with heq | hin
    · cases heq
      simp [GoMap.delete, GoMap.delete_of_not_mem rest k hnd.1]
    · have hne : k' ≠ k := by
        intro hk
        apply hnd.1
        rw [hk]
        exact GoMap.mem_keys_of_mem rest k v hin
      have hne2 : ¬ ((k', v') == (k, v)) = true := by
        simp [hne]
      rw [List.erase_cons_tail hne2]
      simp [GoMap.delete, hne, ih hnd.2 hin]

theorem GoMap.get_delete_other {V : Type} (m : List (Str × V)) (k k' : Str)
    (h : k' ≠ k) : GoMap.get (GoMap.delete m k) k' = GoMap.get m k' := by
  induction m with
  | nil => simp [GoMap.delete]
  | cons e rest ih =>
    obtain ⟨k0, v0⟩ := e
    by_cases hk : k0 = k
    · subst hk
      simp [GoMap.delete, GoMap.get, Ne.symm h, ih]
    · by_cases hk' : k0 = k'
      · subst hk'
        simp [GoMap.delete, GoMap.get, hk]
      · simp [GoMap.delete, GoMap.get, hk, hk', ih]

theorem GoMap.get_delete_self {V : Type} (m : List (Str × V)) (k : Str) :
    GoMap.get (GoMap.delete m k) k = none := by
  induction m with
  | nil => simp [GoMap.delete, GoMap.get]
  | cons e rest ih =>
    obtain ⟨k0, v0⟩ := e
    by_cases hk : k0 = k
    · simp [GoMap.delete, hk, ih]
    · simp [GoMap.delete, GoMap.get, hk, ih]

/-! ### The eviction loops pick a minimal entry -/

theorem oldest_from (l : List (Str × templateInfo)) (b : Str × templateInfo) :
    ∃ e ∈ b :: l,
      l.foldl (fun old e =>
        match old with
        | none => some e
        | some o => if e.2.lastUsed < o.2.lastUsed then some e else some o) (some b) = some e
      ∧ ∀ x ∈ b :: l, e.2.lastUsed ≤ x.2.lastUsed := by
  induction l generalizing b with
  | nil => exact ⟨b, List.mem_cons_self _ _, rfl, by simp⟩
  | cons a rest ih =>
    by_cases hlt : a.2.lastUsed < b.2.lastUsed
    · obtain ⟨e, he, hfold, hmin⟩ := ih a
      refine ⟨e, List.mem_cons_of_mem _ he, by simpa [List.foldl, hlt] using hfold, ?_⟩
      intro x hx
      rcases List.mem_cons.mp hx with hxb | hx'
      · subst hxb
        have := hmin a (List.mem_cons_self _ _)
        omega
      · exact hmin x hx'
    · obtain ⟨e, he, hfold, hmin⟩ := ih b
      refine ⟨e, ?_, by simpa [List.foldl, hlt] using hfold, ?_⟩
      · rcases List.mem_cons.mp he with h1 | h1
        · exact h1 ▸ List.mem_cons_self _ _
        · exact List.mem_cons_of_mem _ (List.mem_cons_of_mem _ h1)
      · intro x hx
        rcases List.mem_cons.mp hx with hxb | hx'
        · subst hxb
          exact hmin x (List.mem_cons_self _ _)
        · rcases List.mem_cons.mp hx' with hxa | hx''
          · subst hxa
            have := hmin b (List.mem_cons_self _ _)
            omega
          · exact hmin x (List.mem_cons_of_mem _ hx'')

theorem oldest_spec (l : List (Str × templateInfo)) (hne : l ≠ []) :
    ∃ e ∈ l, oldest l = some e ∧ ∀ x ∈ l, e.2.lastUsed ≤ x.2.lastUsed := by
  cases l with
  | nil => exact absurd rfl hne
  | cons b rest => exact oldest_from rest b

theorem leastAccessed_from (l : List (Str × fileContent)) (b : Str × fileContent) :
    ∃ e ∈ b :: l,
      l.foldl (fun least e =>
        match least with
        | none => some e
        | some o => if e.2.accessCount < o.2.accessCount then some e else some o) (some b)
        = some e
      ∧ ∀ x ∈ b :: l, e.2.accessCount ≤ x.2.accessCount := by
  induction l generalizing b with
  | nil => exact ⟨b, List.mem_cons_self _ _, rfl, by simp⟩
  | cons a rest ih =>
    by_cases hlt : a.2.accessCount < b.2.accessCount
    · obtain ⟨e, he, hfold, hmin⟩ := ih a
      refine ⟨e, List.mem_cons_of_mem _ he, by simpa [List.foldl, hlt] using hfold, ?_⟩
      intro x hx
      rcases List.mem_cons.mp hx with hxb | hx'
      · subst hxb
        have := hmin a (List.mem_cons_self _ _)
        omega
      · exact hmin x hx'
    · obtain ⟨e, he, hfold, hmin⟩ := ih b
      refine ⟨e, ?_, by simpa [List.foldl, hlt] using hfold, ?_⟩
      · rcases List.mem_cons.mp he with h1 | h1
        · exact h1 ▸ List.mem_cons_self _ _
        · exact List.mem_cons_of_mem _ (List.mem_cons_of_mem _ h1)
      · intro x hx
        rcases List.mem_cons.mp hx with hxb | hx'
        · subst hxb
          exact hmin x (List.mem_cons_self _ _)
        · rcases List.mem_cons.mp hx' with hxa | hx''
          · subst hxa
            have := hmin b (List.mem_cons_self _ _)
            omega
          · exact hmin x (List.mem_cons_of_mem _ hx'')

theorem leastAccessed_spec (l : List (Str × fileContent)) (hne : l ≠ []) :
    ∃ e ∈ l, leastAccessed l = some e ∧ ∀ x ∈ l, e.2.accessCount ≤ x.2.accessCount := by
  cases l with
  | nil => exact absurd rfl hne
  | cons b rest => exact leastAccessed_from rest b

/-! ### The size of the caches -/

theorem storeFileContent_length (st : Engine) (now : Int) (path content : Str)
    (modTime : Int) (hcap : 1 ≤ st.maxCacheSize)
    (hlen : (st.fileContentCache.length : Int) ≤ st.maxCacheSize) :
    ((storeFileContent st now path content modTime).length : Int) ≤ st.maxCacheSize := by
  unfold storeFileContent
  by_cases hfull : (st.fileContentCache.length : Int) ≥ st.maxCacheSize
  · have hne : st.fileContentCache ≠ [] := by
      intro h
      rw [h] at hfull
      simp at hfull
      omega
    obtain ⟨e, he, hsome, _⟩ := leastAccessed_spec st.fileContentCache hne
    have hlt := GoMap.length_delete_lt st.fileContentCache e.1 e.2 he
    simp only [hfull, if_true, hsome]
    have hset := GoMap.length_set_le (GoMap.delete st.fileContentCache e.1) path
      { content := content, lastUsed := now, lastMod := modTime, accessCount := 1 }
    omega
  · simp only [hfull, if_false]
    have hset := GoMap.length_set_le st.fileContentCache path
      { content := content, lastUsed := now, lastMod := modTime, accessCount := 1 }
    omega

theorem storeTemplate_length (st : Engine) (now : Int) (path : Str) (tmpl : Template)
    (modTime : Int) (hcap : 1 ≤ st.maxCacheSize)
    (hlen : (st.templateCache.length : Int) ≤ st.maxCacheSize) :
    ((storeTemplate st now path tmpl modTime).length : Int) ≤ st.maxCacheSize := by
  unfold storeTemplate
  by_cases hfull : (st.templateCache.length : Int) ≥ st.maxCacheSize
  · have hne : st.templateCache ≠ [] := by
      intro h
      rw [h] at hfull
      simp at hfull
      omega
    obtain ⟨e, he, hsome, _⟩ := oldest_spec st.templateCache hne
    have hlt := GoMap.length_delete_lt st.templateCache e.1 e.2 he
    simp only [hfull, if_true, hsome]
    have hset := GoMap.length_set_le (GoMap.delete st.templateCache e.1) path
      { template := tmpl, lastUsed := now, lastModified := modTime }
    omega
  · simp only [hfull, if_false]
    have hset := GoMap.length_set_le st.templateCache path
      { template := tmpl, lastUsed := now, lastModified := modTime }
    omega

theorem fileContentHit_get (fs : FS) (st : Engine) (path : Str) (c : fileContent)
    (h : fileContentHit fs st path = some c) :
    GoMap.get st.fileContentCache path = some c ∧ fs.stat path = .ok c.lastMod := by
  unfold fileContentHit at h
  cases hg : GoMap.get st.fileContentCache path with
  | none => simp [hg] at h
  | some c' =>
    rw [hg] at h
    cases hs : fs.stat path with
    | error e => simp [hs] at h
    | ok m =>
      simp only [hs] at h
      by_cases hm : m = c'.lastMod
      · simp only [hm, if_true, Option.some.injEq] at h
        subst h
        exact ⟨rfl, by rw [hm]⟩
      · simp [hm] at h

theorem getFileContent_bounded (fs : FS) (now : Int) (st : Engine) (path : Str)
    (hb : st.Bounded) :
    (getFileContent fs now st path).1.Bounded
      ∧ (getFileContent fs now st path).1.templateCache = st.templateCache := by
  obtain ⟨hcap, hf, ht⟩ := hb
  unfold getFileContent
  cases hhit : fileContentHit fs st path with
  | some c =>
    obtain ⟨hg, _⟩ := fileContentHit_get fs st path c hhit
    refine ⟨⟨hcap, ?_, ht⟩, rfl⟩
    simp only
    rw [GoMap.length_set_of_get _ _ _ _ hg]
    exact hf
  | none =>
    simp only
    cases hr : fs.readFile path with
    | error e => exact ⟨⟨hcap, hf, ht⟩, rfl⟩
    | ok content =>
      cases hs : fs.stat path with
      | error e => exact ⟨⟨hcap, hf, ht⟩, rfl⟩
      | ok m =>
        refine ⟨⟨hcap, ?_, ht⟩, rfl⟩
        exact storeFileContent_length { st with reads := st.reads + 1 } now path content m
          hcap hf

theorem templateHit_get (now : Int) (st : Engine) (path : Str) (info : templateInfo)
    (h : templateHit now st path = some info) :
    GoMap.get st.templateCache path = some info ∧ now - info.lastUsed < st.cacheExpiry := by
  unfold templateHit at h
  cases hg : GoMap.get st.templateCache path with
  | none => simp [hg] at h
  | some i =>
    rw [hg] at h
    by_cases hm : now - i.lastUsed < st.cacheExpiry
    · simp only [hm, if_true, Option.some.injEq] at h
      subst h
      exact ⟨rfl, hm⟩
    · simp [hm] at h

theorem GetCachedTemplate_bounded (h : Host) (fs : FS) (now : Int) (st : Engine)
    (path : Str) (hb : st.Bounded) : (GetCachedTemplate h fs now st path).1.Bounded := by
  unfold GetCachedTemplate
  cases hhit : templateHit now st path with
  | some info =>
    obtain ⟨hcap, hf, ht⟩ := hb
    obtain ⟨hg, _⟩ := templateHit_get now st path info hhit
    refine ⟨hcap, hf, ?_⟩
    simp only
    rw [GoMap.length_set_of_get _ _ _ _ hg]
    exact ht
  | none =>
    simp only
    obtain ⟨hb1, htc⟩ := getFileContent_bounded fs now st path hb
    rcases hres : getFileContent fs now st path with ⟨st1, r⟩
    rw [hres] at hb1 htc
    cases r with
    | error e => exact hb1
    | ok content =>
      simp only
      cases hs : fs.stat path with
      | error e => exact hb1
      | ok m =>
        simp only
        by_cases hp : h.parseOK content = true
        · simp only [hp, if_true]
          obtain ⟨hcap, hf, ht⟩ := hb1
          exact ⟨hcap, hf, storeTemplate_length st1 now path _ m hcap ht⟩
        · simp only [hp]
          exact hb1

theorem getFileContent_maxCacheSize (fs : FS) (now : Int) (st : Engine) (path : Str) :
    (getFileContent fs now st path).1.maxCacheSize = st.maxCacheSize := by
  unfold getFileContent
  cases fileContentHit fs st path with
  | some c => rfl
  | none =>
    simp only
    cases fs.readFile path with
    | error e => rfl
    | ok content =>
      cases fs.stat path with
      | error e => rfl
      | ok m => rfl

theorem GetCachedTemplate_maxCacheSize (h : Host) (fs : FS) (now : Int) (st : Engine)
    (path : Str) : (GetCachedTemplate h fs now st path).1.maxCacheSize = st.maxCacheSize := by
  unfold GetCachedTemplate
  cases templateHit now st path with
  | some info => rfl
  | none =>
    simp only
    have hm := getFileContent_maxCacheSize fs now st path
    rcases hres : getFileContent fs now st path with ⟨st1, r⟩
    rw [hres] at hm
    cases r with
    | error e => exact hm
    | ok content =>
      simp only
      cases fs.stat path with
      | error e => exact hm
      | ok m =>
        simp only
        by_cases hp : h.parseOK content = true
        · simp only [hp, if_true]
          exact hm
        · simp only [hp]
          exact hm

theorem Call.run_bounded (c : Call) (st : Engine) (hb : st.Bounded) :
    (c.run st).Bounded ∧ (c.run st).maxCacheSize = st.maxCacheSize := by
  cases c with
  | getFileContent fs now path =>
    exact ⟨(getFileContent_bounded fs now st path hb).1,
      getFileContent_maxCacheSize fs now st path⟩
  | GetCachedTemplate h fs now path =>
    exact ⟨GetCachedTemplate_bounded h fs now st path hb,
      GetCachedTemplate_maxCacheSize h fs now st path⟩

theorem runCalls_bounded (calls : List Call) (st : Engine) (hb : st.Bounded) :
    (runCalls calls st).Bounded ∧ (runCalls calls st).maxCacheSize = st.maxCacheSize := by
  induction calls generalizing st with
  | nil => exact ⟨hb, rfl⟩
  | cons c rest ih =>
    obtain ⟨hb1, hm1⟩ := Call.run_bounded c st hb
    obtain ⟨hb2, hm2⟩ := ih (c.run st) hb1
    exact ⟨hb2, hm2.trans hm1⟩

/-- C8: starting from the empty caches of the initial state, after every series of
getFileContent and GetCachedTemplate calls made one after the other, on any filesystems
and at any times, the File Content Cache and the Template Cache each hold at most
maxCacheSize entries (the series is arbitrary, so this holds after each of its calls). -/
theorem caches_never_exceed_maxCacheSize (calls : List Call) :
    ((runCalls calls Engine.init).fileContentCache.length : Int)
        ≤ (runCalls calls Engine.init).maxCacheSize
      ∧ ((runCalls calls Engine.init).templateCache.length : Int)
        ≤ (runCalls calls Engine.init).maxCacheSize
      ∧ (runCalls calls Engine.init).maxCacheSize = 100 := by
  have hinit : Engine.init.Bounded := by
    refine ⟨?_, ?_, ?_⟩ <;> simp [Engine.init]
  obtain ⟨⟨_, hf, ht⟩, hm⟩ := runCalls_bounded calls Engine.init hinit
  exact ⟨hf, ht, hm⟩

/-! ### Eviction from the Template Cache -/

theorem getFileContent_templateCache (fs : FS) (now : Int) (st : Engine) (path : Str) :
    (getFileContent fs now st path).1.templateCache = st.templateCache := by
  unfold getFileContent
  cases fileContentHit fs st path with
  | some c => rfl
  | none =>
    simp only
    cases fs.readFile path with
    | error e => rfl
    | ok content =>
      cases fs.stat path with
      | error e => rfl
      | ok m => rfl

theorem storeTemplate_full (st : Engine) (now : Int) (path : Str) (tmpl : Template)
    (modTime : Int) (hnd : (GoMap.keys st.templateCache).Nodup)
    (hcap : 0 < st.maxCacheSize)
    (hfull : (st.templateCache.length : Int) = st.maxCacheSize)
    (hmiss : GoMap.get st.templateCache path = none) :
    ∃ victim ∈ st.templateCache,
      (∀ e ∈ st.templateCache, victim.2.lastUsed ≤ e.2.lastUsed)
      ∧ storeTemplate st now path tmpl modTime
          = st.templateCache.erase victim
              ++ [(path, { template := tmpl, lastUsed := now, lastModified := modTime })] := by
  have hne : st.templateCache ≠ [] := by
    intro h
    rw [h] at hfull
    simp at hfull
    omega
  obtain ⟨victim, hin, hsome, hmin⟩ := oldest_spec st.templateCache hne
  refine ⟨victim, hin, hmin, ?_⟩
  have hge : (st.templateCache.length : Int) ≥ st.maxCacheSize := by omega
  have hpath : path ≠ victim.1 := by
    intro hp
    have hk := GoMap.mem_keys_of_mem st.templateCache victim.1 victim.2 hin
    rw [← hp] at hk
    exact (GoMap.get_eq_none_iff st.templateCache path).mp hmiss hk
  have hmiss2 : GoMap.get (GoMap.delete st.templateCache victim.1) path = none := by
    rw [GoMap.get_delete_other _ _ _ hpath]
    exact hmiss
  unfold storeTemplate
  simp only [hge, if_true, hsome]
  rw [GoMap.set_of_get_none _ _ _ hmiss2,
    GoMap.delete_eq_erase st.templateCache victim.1 victim.2 hnd hin]

theorem GetCachedTemplate_miss_ok (h : Host) (fs : FS) (now : Int) (st : Engine)
    (path : Str) (tmpl : Template) (hhit : templateHit now st path = none)
    (hok : (GetCachedTemplate h fs now st path).2 = .ok tmpl) :
    ∃ content modTime,
      (getFileContent fs now st path).2 = .ok content
      ∧ fs.stat path = .ok modTime
      ∧ tmpl = { name := Base path, text := content }
      ∧ (GetCachedTemplate h fs now st path).1.templateCache
          = storeTemplate (getFileContent fs now st path).1 now path tmpl modTime := by
  unfold GetCachedTemplate at hok ⊢
  rw [hhit] at hok ⊢
  simp only at hok ⊢
  generalize getFileContent fs now st path = res at hok ⊢
  obtain ⟨st1, r⟩ := res
  cases r with
  | error e => simp at hok
  | ok content =>
    simp only at hok ⊢
    cases hs : fs.stat path with
    | error e => simp [hs] at hok
    | ok m =>
      simp only [hs] at hok ⊢
      by_cases hp : h.parseOK content = true
      · simp only [hp, if_true] at hok ⊢
        have htm : tmpl = { name := Base path, text := content } := by
          simpa using hok.symm
        exact ⟨content, m, rfl, rfl, htm, by rw [htm]⟩
      · simp [hp] at hok

/-- C9: when the Template Cache holds exactly maxCacheSize entries (a positive number)
and a GetCachedTemplate call on a path that is not in the cache reads, compiles and
returns the template, exactly one existing entry (the victim) is removed, the victim has
the minimal lastUsed among all entries, every other entry stays as it was and in place,
the entry for the new path is added, and the cache again holds exactly maxCacheSize
entries. -/
theorem GetCachedTemplate_evicts_least_recently_used (h : Host) (fs : FS) (now : Int)
    (st : Engine) (path : Str) (tmpl : Template)
    (hnd : (GoMap.keys st.templateCache).Nodup)
    (hcap : 0 < st.maxCacheSize)
    (hfull : (st.templateCache.length : Int) = st.maxCacheSize)
    (hmiss : GoMap.get st.templateCache path = none)
    (hok : (GetCachedTemplate h fs now st path).2 = .ok tmpl) :
    ∃ victim ∈ st.templateCache, ∃ modTime : Int,
      (∀ e ∈ st.templateCache, victim.2.lastUsed ≤ e.2.lastUsed)
      ∧ (GetCachedTemplate h fs now st path).1.templateCache
          = st.templateCache.erase victim
              ++ [(path, { template := tmpl, lastUsed := now, lastModified := modTime })]
      ∧ (st.templateCache.erase victim).length + 1 = st.templateCache.length
      ∧ (∀ k, k ≠ victim.1 → k ≠ path →
          GoMap.get (GetCachedTemplate h fs now st path).1.templateCache k
            = GoMap.get st.templateCache k)
      ∧ GoMap.get (GetCachedTemplate h fs now st path).1.templateCache victim.1 = none
      ∧ GoMap.get (GetCachedTemplate h fs now st path).1.templateCache path
          = some { template := tmpl, lastUsed := now, lastModified := modTime }
      ∧ (((GetCachedTemplate h fs now st path).1.templateCache.length : Int)
          = st.maxCacheSize) := by
  have hhit : templateHit now st path = none := by
    unfold templateHit
    rw [hmiss]
  have htc := getFileContent_templateCache fs now st path
  have hmc := getFileContent_maxCacheSize fs now st path
  obtain ⟨content, m, _, _, _, hcache⟩ := GetCachedTemplate_miss_ok h fs now st path tmpl hhit hok
  obtain ⟨victim, hin, hmin, hstore⟩ :=
    storeTemplate_full (getFileContent fs now st path).1 now path tmpl m
      (by rw [htc]; exact hnd) (by rw [hmc]; exact hcap)
      (by rw [htc, hmc]; exact hfull) (by rw [htc]; exact hmiss)
  rw [htc] at hin hmin hstore
  rw [hstore] at hcache
  have hpath : path ≠ victim.1 := by
    intro hp
    have hk := GoMap.mem_keys_of_mem st.templateCache victim.1 victim.2 hin
    rw [← hp] at hk
    exact (GoMap.get_eq_none_iff st.templateCache path).mp hmiss hk
  have hlen : (st.templateCache.erase victim).length + 1 = st.templateCache.length := by
    rw [List.length_erase_of_mem hin]
    have : 0 < st.templateCache.length := List.length_pos_of_mem hin
    omega
  have hdel := GoMap.delete_eq_erase st.templateCache victim.1 victim.2 hnd hin
  have hmiss2 : GoMap.get (GoMap.delete st.templateCache victim.1) path = none := by
    rw [GoMap.get_delete_other _ _ _ hpath]
    exact hmiss
  have hset := GoMap.set_of_get_none (GoMap.delete st.templateCache victim.1) path
    ({ template := tmpl, lastUsed := now, lastModified := m } : templateInfo) hmiss2
  rw [hdel] at hset
  refine ⟨victim, hin, m, hmin, hcache, hlen, ?_, ?_, ?_, ?_⟩
  · intro k hk1 hk2
    rw [hcache, ← hset, ← hdel, GoMap.get_set_other _ _ _ _ hk2,
      GoMap.get_delete_other _ _ _ hk1]
  · rw [hcache, ← hset, ← hdel, GoMap.get_set_other _ _ _ _ (Ne.symm hpath),
      GoMap.get_delete_self]
  · rw [hcache, ← hset, GoMap.get_set_self]
  · rw [hcache, List.length_append, List.length_singleton, ← hfull]
    omega

/-- The eviction theorem applied to a full cache of capacity two: the hypotheses hold
and the entry for the new path takes the place of a victim of minimal lastUsed. -/
theorem GetCachedTemplate_evicts_least_recently_used_witness :
    (GoMap.keys fullEngine.templateCache).Nodup
      ∧ 0 < fullEngine.maxCacheSize
      ∧ (fullEngine.templateCache.length : Int) = fullEngine.maxCacheSize
      ∧ GoMap.get fullEngine.templateCache "/t.tmpl".toList = none
      ∧ ∃ victim ∈ fullEngine.templateCache, ∃ modTime : Int,
          (∀ e ∈ fullEngine.templateCache, victim.2.lastUsed ≤ e.2.lastUsed)
          ∧ (GetCachedTemplate plainHost diskV1 60 fullEngine "/t.tmpl".toList).1.templateCache
              = fullEngine.templateCache.erase victim
                  ++ [("/t.tmpl".toList,
                      { template := ⟨"t.tmpl".toList, "Hello v1".toList⟩, lastUsed := 60,
                        lastModified := modTime })] := by
  have hnd : (GoMap.keys fullEngine.templateCache).Nodup := by decide
  have hcap : 0 < fullEngine.maxCacheSize := by decide
  have hfull : (fullEngine.templateCache.length : Int) = fullEngine.maxCacheSize := by decide
  have hmiss : GoMap.get fullEngine.templateCache "/t.tmpl".toList = none := by decide
  obtain ⟨victim, hin, m, hmin, hcache, _⟩ :=
    GetCachedTemplate_evicts_least_recently_used plainHost diskV1 60 fullEngine
      "/t.tmpl".toList ⟨"t.tmpl".toList, "Hello v1".toList⟩ hnd hcap hfull hmiss (by decide)
  exact ⟨hnd, hcap, hfull, hmiss, victim, hin, m, hmin, hcache⟩

/-! ### Reads and hits of the File Content Cache -/

theorem FS.stat_of_readFile (fs : FS) (path content : Str)
    (h : fs.readFile path = .ok content) : ∃ m, fs.stat path = .ok m := by
  unfold FS.readFile at h
  unfold FS.stat
  cases hg : GoMap.get fs path with
  | none => simp [hg] at h
  | some n => exact ⟨n.modTime, rfl⟩

/-- C10: over an explicit filesystem and cache state, (1) getFileContent on a path that
is not cached, whose file can be read, performs exactly one file read, returns the bytes
of the file and caches them with accessCount 1; (2) a call on a cached path whose file
has the recorded modification time performs no file read, returns the cached bytes and
raises the accessCount of the entry by one; (3) a call on a cached path whose file has
another modification time performs one new read, returns the bytes read and replaces the
entry, whatever the bytes are. -/
theorem getFileContent_reads_and_hits (fs : FS) (now : Int) (st : Engine) (path : Str) :
    (∀ bytes, GoMap.get st.fileContentCache path = none → fs.readFile path = .ok bytes →
        (getFileContent fs now st path).2 = .ok bytes
        ∧ (getFileContent fs now st path).1.reads = st.reads + 1
        ∧ ∃ m, fs.stat path = .ok m
          ∧ GoMap.get (getFileContent fs now st path).1.fileContentCache path
            = some { content := bytes, lastUsed := now, lastMod := m, accessCount := 1 })
    ∧ (∀ c : fileContent, GoMap.get st.fileContentCache path = some c →
        fs.stat path = .ok c.lastMod →
        (getFileContent fs now st path).2 = .ok c.content
        ∧ (getFileContent fs now st path).1.reads = st.reads
        ∧ GoMap.get (getFileContent fs now st path).1.fileContentCache path
            = some { c with lastUsed := now, accessCount := c.accessCount + 1 })
    ∧ (∀ (c : fileContent) (bytes : Str) (m : Int),
        GoMap.get st.fileContentCache path = some c →
        fs.stat path = .ok m → m ≠ c.lastMod → fs.readFile path = .ok bytes →
        (getFileContent fs now st path).2 = .ok bytes
        ∧ (getFileContent fs now st path).1.reads = st.reads + 1
        ∧ GoMap.get (getFileContent fs now st path).1.fileContentCache path
            = some { content := bytes, lastUsed := now, lastMod := m, accessCount := 1 }) := by
  refine ⟨?_, ?_, ?_⟩
  · intro bytes hfresh hread
    obtain ⟨m, hstat⟩ := FS.stat_of_readFile fs path bytes hread
    have hhit : fileContentHit fs st path = none := by
      unfold fileContentHit
      rw [hfresh]
    unfold getFileContent
    rw [hhit]
    simp only [hread, hstat]
    refine ⟨by trivial, by trivial, m, by trivial, ?_⟩
    unfold storeFileContent
    rw [GoMap.get_set_self]
  · intro c hget hstat
    have hhit : fileContentHit fs st path = some c := by
      unfold fileContentHit
      rw [hget]
      simp [hstat]
    unfold getFileContent
    rw [hhit]
    simp only
    refine ⟨by trivial, by trivial, ?_⟩
    rw [GoMap.get_set_self]
  · intro c bytes m hget hstat hne hread
    have hhit : fileContentHit fs st path = none := by
      unfold fileContentHit
      rw [hget]
      simp [hstat, hne]
    unfold getFileContent
    rw [hhit]
    simp only [hread, hstat]
    refine ⟨by trivial, by trivial, ?_⟩
    unfold storeFileContent
    rw [GoMap.get_set_self]

/-- The read theorem applied to one template: a first call reads the file once, an
immediate second call reads nothing, and a call after the file was touched reads it again
and replaces the entry although the bytes are the same. -/
theorem getFileContent_reads_and_hits_witness :
    (getFileContent diskV1 5000 Engine.init "/t.tmpl".toList).2 = .ok "Hello v1".toList
      ∧ (getFileContent diskV1 5000 Engine.init "/t.tmpl".toList).1.reads = 1
      ∧ (getFileContent diskV1 6000
          (getFileContent diskV1 5000 Engine.init "/t.tmpl".toList).1 "/t.tmpl".toList).2
          = .ok "Hello v1".toList
      ∧ (getFileContent diskV1 6000
          (getFileContent diskV1 5000 Engine.init "/t.tmpl".toList).1 "/t.tmpl".toList).1.reads
          = 1
      ∧ (getFileContent diskTouched 7000
          (getFileContent diskV1 5000 Engine.init "/t.tmpl".toList).1 "/t.tmpl".toList).1.reads
          = 2
      ∧ GoMap.get (getFileContent diskTouched 7000
          (getFileContent diskV1 5000 Engine.init "/t.tmpl".toList).1
            "/t.tmpl".toList).1.fileContentCache "/t.tmpl".toList
          = some { content := "Hello v1".toList, lastUsed := 7000, lastMod := 2000,
                   accessCount := 1 } := by
  have h1 := (getFileContent_reads_and_hits diskV1 5000 Engine.init "/t.tmpl".toList).1
    "Hello v1".toList (by decide) (by decide)
  have h2 := (getFileContent_reads_and_hits diskV1 6000
    (getFileContent diskV1 5000 Engine.init "/t.tmpl".toList).1 "/t.tmpl".toList).2.1
    { content := "Hello v1".toList, lastUsed := 5000, lastMod := 1000, accessCount := 1 }
    (by decide) (by decide)
  have h3 := (getFileContent_reads_and_hits diskTouched 7000
    (getFileContent diskV1 5000 Engine.init "/t.tmpl".toList).1 "/t.tmpl".toList).2.2
    { content := "Hello v1".toList, lastUsed := 5000, lastMod := 1000, accessCount := 1 }
    "Hello v1".toList 2000 (by decide) (by decide) (by decide) (by decide)
  refine ⟨h1.1, h1.2.1, h2.1, ?_, ?_, h3.2.2⟩
  · rw [h2.2.1, h1.2.1]
    rfl
  · rw [h3.2.1, h1.2.1]
    rfl

/-! ### Staleness of the Template Cache -/

/-- C3: after the template was cached from the file written at time 1000, and the file
was rewritten at time 2000, a GetCachedTemplate call made within the expiry is a hit: it
serves the template compiled from the old bytes, from an entry whose recorded
modification time 1000 differs from the current modification time 2000 of the file. -/
theorem GetCachedTemplate_serves_stale_entry :
    templateHit 6000 (GetCachedTemplate plainHost diskV1 5000 Engine.init "/t.tmpl".toList).1
        "/t.tmpl".toList
      = some { template := ⟨"t.tmpl".toList, "Hello v1".toList⟩, lastUsed := 5000,
               lastModified := 1000 }
    ∧ diskV2.stat "/t.tmpl".toList = .ok 2000
    ∧ diskV2.readFile "/t.tmpl".toList = .ok "Hello v2".toList
    ∧ (GetCachedTemplate plainHost diskV2 6000
        (GetCachedTemplate plainHost diskV1 5000 Engine.init "/t.tmpl".toList).1
        "/t.tmpl".toList).2 = .ok ⟨"t.tmpl".toList, "Hello v1".toList⟩ := by
  decide

/-! ### A rejected template -/

/-- C5, as stated, fails: with empty caches and a template that calls exec, RenderTemplate
returns the validation error, and the File Content Cache, empty before the call, holds
the entry for the template after it. -/
theorem RenderTemplate_rejected_fills_fileContentCache :
    ValidateTemplateContent "\x7b\x7bexec\x7d\x7d".toList ≠ .ok ()
    ∧ (RenderTemplate plainHost diskExec 5000 Engine.init "/t.tmpl".toList []).2
        = .error ("template validation error: "
            ++ "dangerous pattern detected: (?i)(exec|system|eval|spawn|fork)")
    ∧ Engine.init.fileContentCache = []
    ∧ (RenderTemplate plainHost diskExec 5000 Engine.init "/t.tmpl".toList []).1.fileContentCache
        = [("/t.tmpl".toList,
            { content := "\x7b\x7bexec\x7d\x7d".toList, lastUsed := 5000, lastMod := 1000,
              accessCount := 1 })] := by
  decide

/-- C5, amended: if ValidateTemplateContent rejects the content that getFileContent
returns for the path, RenderTemplate returns an error and leaves the Template Cache
exactly as it was; the engine is left as that one getFileContent call leaves it, which
is the only change to the File Content Cache. -/
theorem RenderTemplate_rejected_keeps_templateCache (h : Host) (fs : FS) (now : Int)
    (st : Engine) (path : Str) (data : List (Str × Str)) (content : Str)
    (hget : (getFileContent fs now st path).2 = .ok content)
    (hrej : ValidateTemplateContent content ≠ .ok ()) :
    (∃ err, (RenderTemplate h fs now st path data).2 = .error err)
    ∧ (RenderTemplate h fs now st path data).1.templateCache = st.templateCache
    ∧ (RenderTemplate h fs now st path data).1 = (getFileContent fs now st path).1 := by
  have htc := getFileContent_templateCache fs now st path
  unfold RenderTemplate
  generalize getFileContent fs now st path = res at hget htc ⊢
  obtain ⟨st1, r⟩ := res
  simp only at hget htc
  subst hget
  simp only
  cases hv : ValidateTemplateContent content with
  | error e => exact ⟨⟨_, rfl⟩, htc, rfl⟩
  | ok u => exact absurd hv hrej

/-- The rejection theorem applied to a template that calls exec, with a full Template
Cache: the render fails and the Template Cache is as before. -/
theorem RenderTemplate_rejected_keeps_templateCache_witness :
    (getFileContent diskExec 5000 fullEngine "/t.tmpl".toList).2
        = .ok "\x7b\x7bexec\x7d\x7d".toList
    ∧ ValidateTemplateContent "\x7b\x7bexec\x7d\x7d".toList ≠ .ok ()
    ∧ (∃ err, (RenderTemplate plainHost diskExec 5000 fullEngine "/t.tmpl".toList []).2
        = .error err)
    ∧ (RenderTemplate plainHost diskExec 5000 fullEngine "/t.tmpl".toList []).1.templateCache
        = fullEngine.templateCache :=
  ⟨by decide, by decide,
    (RenderTemplate_rejected_keeps_templateCache plainHost diskExec 5000 fullEngine
      "/t.tmpl".toList [] "\x7b\x7bexec\x7d\x7d".toList (by decide) (by decide)).1,
    (RenderTemplate_rejected_keeps_templateCache plainHost diskExec 5000 fullEngine
      "/t.tmpl".toList [] "\x7b\x7bexec\x7d\x7d".toList (by decide) (by decide)).2.1⟩

/-! ### The output path -/

/-- C6: with the one allowed directory `/srv/out`, which exists, ValidateOutputPath
accepts the output path `/srv/outside.txt`, a sibling of the allowed directory whose name
starts with the same runes: the path is neither the directory nor below it. -/
theorem ValidateOutputPath_accepts_sibling :
    ValidateOutputPath (some "/".toList) diskSrv "/srv/outside.txt".toList ["/srv/out".toList]
        = .ok ()
    ∧ Abs (some "/".toList) "/srv/outside.txt".toList = .ok "/srv/outside.txt".toList
    ∧ Abs (some "/".toList) "/srv/out".toList = .ok "/srv/out".toList
    ∧ withinDir "/srv/outside.txt".toList "/srv/out".toList = false
    ∧ withinDir "/srv/out/side.txt".toList "/srv/out".toList = true := by
  decide

/-- C7, as stated, fails: the path `/srv/a/out.txt` matches no dangerous pattern and the
allowed directory `/srv` is a prefix of it and can be stat-ed, yet with the allow-list
`/srv/a`, `/srv` the call fails, because `/srv/a`, the first prefix, does not exist; with
the same directories in the other order the call succeeds. -/
theorem ValidateOutputPath_depends_on_order :
    ValidateOutputPath (some "/".toList) diskSrv "/srv/a/out.txt".toList
        ["/srv/a".toList, "/srv".toList]
      = .error ("allowed directory not accessible: "
          ++ "stat /srv/a: no such file or directory")
    ∧ ValidateOutputPath (some "/".toList) diskSrv "/srv/a/out.txt".toList
        ["/srv".toList, "/srv/a".toList] = .ok ()
    ∧ Abs (some "/".toList) "/srv/a/out.txt".toList = .ok "/srv/a/out.txt".toList
    ∧ (∀ pattern ∈ DangerousPathPatterns,
        pattern.MatchString "/srv/a/out.txt".toList = false)
    ∧ HasPrefix "/srv/a/out.txt".toList "/srv".toList = true
    ∧ diskSrv.stat "/srv".toList = .ok 100 := by
  decide

theorem checkAllowedDirs_ok_iff (cwd : Option Str) (fs : FS) (path absPath : Str)
    (allowedDirs : List Str) :
    checkAllowedDirs cwd fs path absPath allowedDirs = .ok () ↔
      ∃ absDir, (absDirs cwd allowedDirs).find? (fun d => HasPrefix absPath d) = some absDir
        ∧ ∃ modTime, fs.stat absDir = .ok modTime := by
  induction allowedDirs with
  | nil => simp [checkAllowedDirs, absDirs]
  | cons dir rest ih =>
    unfold checkAllowedDirs
    cases ha : Abs cwd dir with
    | error e =>
      have hstep : absDirs cwd (dir :: rest) = absDirs cwd rest := by
        simp [absDirs, List.filterMap_cons, ha]
      rw [hstep]
      exact ih
    | ok absDir =>
      have hstep : absDirs cwd (dir :: rest) = absDir :: absDirs cwd rest := by
        simp [absDirs, List.filterMap_cons, ha]
      rw [hstep]
      by_cases hp : HasPrefix absPath absDir = true
      · simp only [hp, if_true, List.find?_cons_of_pos]
        cases hs : fs.stat absDir with
        | error e =>
          constructor
          · intro h
            simp at h
          · rintro ⟨d, hd, m, hm⟩
            simp only [Option.some.injEq] at hd
            subst hd
            rw [hs] at hm
            simp at hm
        | ok m =>
          constructor
          · intro _
            exact ⟨absDir, rfl, m, hs⟩
          · intro _
            rfl
      · have hp' : HasPrefix absPath absDir = false := by
          simpa using hp
        simp only [hp', Bool.false_eq_true, if_false]
        rw [List.find?_cons_of_neg _ (by simp [hp'])]
        exact ih

/-- C7, amended: ValidateOutputPath succeeds if and only if the path has an absolute
form, that form matches none of DangerousPathPatterns, and the first allowed directory
in list order whose absolute form is a string prefix of it can be stat-ed; a later
allowed directory that is a prefix and can be stat-ed does not make the call succeed. -/
theorem ValidateOutputPath_ok_iff (cwd : Option Str) (fs : FS) (path : Str)
    (allowedDirs : List Str) :
    ValidateOutputPath cwd fs path allowedDirs = .ok () ↔
      ∃ absPath, Abs cwd path = .ok absPath
        ∧ (∀ pattern ∈ DangerousPathPatterns, pattern.MatchString absPath = false)
        ∧ ∃ absDir,
            (absDirs cwd allowedDirs).find? (fun d => HasPrefix absPath d) = some absDir
            ∧ ∃ modTime, fs.stat absDir = .ok modTime := by
  unfold ValidateOutputPath
  cases ha : Abs cwd path with
  | error e => simp
  | ok absPath =>
    simp only
    cases hf : DangerousPathPatterns.find? (fun pattern => pattern.MatchString absPath) with
    | some pattern =>
      have hmem := List.mem_of_find?_eq_some hf
      have hm := List.find?_some hf
      constructor
      · intro h
        simp at h
      · rintro ⟨a, ha', hall, _⟩
        simp only [Except.ok.injEq] at ha'
        subst ha'
        have := hall pattern hmem
        rw [this] at hm
        simp at hm
    | none =>
      simp only
      rw [checkAllowedDirs_ok_iff]
      rw [List.find?_eq_none] at hf
      constructor
      · rintro ⟨d, hd, hs⟩
        exact ⟨absPath, rfl, fun p hp => by simpa using hf p hp, d, hd, hs⟩
      · rintro ⟨a, ha', _, d, hd, hs⟩
        simp only [Except.ok.injEq] at ha'
        subst ha'
        exact ⟨d, hd, hs⟩

/-! ### A failed integrity check -/

/-- C4: the destination `/srv/out.txt` does not exist before the call and has no backup;
WriteToFile writes it, the integrity check fails, the restore finds no backup, and when
WriteToFile returns (with the integrity error and the restore failure) the destination
exists with the new bytes: it is not in the state it had before the call. -/
theorem WriteToFile_failed_check_leaves_new_file :
    GoMap.get diskSrv "/srv/out.txt".toList = none
    ∧ (WriteToFile plainHost garbledRead diskSrv 5000 "/srv/out.txt".toList "new".toList).2
        = .error ("integrity check failed: file integrity check failed: content mismatch"
            ++ " (restore failed: no backups found for /srv/out.txt)")
    ∧ GoMap.get
        (WriteToFile plainHost garbledRead diskSrv 5000 "/srv/out.txt".toList "new".toList).1
        "/srv/out.txt".toList = some (.file "new".toList 5000) := by
  decide

/-- The same failed check on a destination that exists: the backup taken by the call is
restored and the destination holds its old bytes again. -/
theorem WriteToFile_failed_check_restores_existing :
    (WriteToFile stampHost garbledRead diskOut 5000 "/srv/out.txt".toList "new".toList).2
        = .error ("integrity check failed: file integrity check failed: content mismatch"
            ++ " (restored from backup)")
    ∧ GoMap.get
        (WriteToFile stampHost garbledRead diskOut 5000 "/srv/out.txt".toList "new".toList).1
        "/srv/out.txt".toList = some (.file "old".toList 5000)
    ∧ GoMap.get
        (WriteToFile stampHost garbledRead diskOut 5000 "/srv/out.txt".toList "new".toList).1
        "/srv/.templater_backups/out.txt_20240101_000000.bak".toList
        = some (.file "old".toList 5000) := by
  decide

/-! ### What SanitizeData keeps -/

theorem replaceScan_sublist (old : Str) (skip : Nat) (s : Str) :
    (replaceScan old [] skip s).Sublist s := by
  induction s generalizing skip with
  | nil => cases skip <;> simp [replaceScan]
  | cons c cs ih =>
    cases skip with
    | succ k =>
      simp only [replaceScan]
      exact (ih k).cons c
    | zero =>
      simp only [replaceScan]
      by_cases hp : old.isPrefixOf (c :: cs) = true
      · simp only [hp, if_true, List.nil_append]
        exact (ih _).cons c
      · simp only [hp]
        exact (ih 0).cons₂ c

theorem replaceScan_filter (o : Char) (os : Str) (p : Char → Bool)
    (hold : ∀ c ∈ o :: os, p c = false)
    (skip : Nat) (s : Str) (hskip : ∀ c ∈ s.take skip, p c = false) :
    (replaceScan (o :: os) [] skip s).filter p = s.filter p := by
  induction s generalizing skip with
  | nil => cases skip <;> simp [replaceScan]
  | cons c cs ih =>
    cases skip with
    | succ k =>
      have hc : p c = false := hskip c (by simp)
      have hrest : ∀ x ∈ cs.take k, p x = false := fun x hx => hskip x (by simp [hx])
      simp only [replaceScan]
      rw [ih k hrest, List.filter_cons_of_neg (by simp [hc])]
    | zero =>
      simp only [replaceScan]
      by_cases hp : (o :: os).isPrefixOf (c :: cs) = true
      · simp only [hp, if_true, List.nil_append]
        rw [List.isPrefixOf_iff_prefix] at hp
        obtain ⟨t, ht⟩ := hp
        simp only [List.cons_append, List.cons.injEq] at ht
        obtain ⟨hoc, hcs⟩ := ht
        have hc : p c = false := by
          rw [← hoc]
          exact hold o (by simp)
        have hrest : ∀ x ∈ cs.take ((o :: os).length - 1), p x = false := by
          intro x hx
          rw [← hcs] at hx
          simp only [List.length_cons, Nat.add_sub_cancel, List.take_left'] at hx
          exact hold x (List.mem_cons_of_mem _ hx)
        rw [ih _ hrest, List.filter_cons_of_neg (by simp [hc])]
      · simp only [hp, Bool.false_eq_true, if_false]
        rw [List.filter_cons, List.filter_cons, ih 0 (by simp)]

theorem replaceScan_unchanged (old : Str) (s : Str) (h : Contains s old = false) :
    replaceScan old [] 0 s = s := by
  induction s with
  | nil => simp [replaceScan]
  | cons c cs ih =>
    simp only [Contains, Bool.or_eq_false_iff] at h
    simp only [replaceScan, h.1, Bool.false_eq_true, if_false]
    rw [ih h.2]

theorem sanitizeValue_sublist (v : Str) : (sanitizeValue v).Sublist v := by
  unfold sanitizeValue
  simp only [ReplaceAll, String.toList]
  exact (replaceScan_sublist _ _ _).trans ((replaceScan_sublist _ _ _).trans
    ((replaceScan_sublist _ _ _).trans ((replaceScan_sublist _ _ _).trans
      (replaceScan_sublist _ _ _))))

theorem sanitizeValue_keeps_other_runes (v : Str) :
    (sanitizeValue v).filter (fun c => !strippedRune c)
      = v.filter (fun c => !strippedRune c) := by
  unfold sanitizeValue
  simp only [ReplaceAll, String.toList]
  rw [replaceScan_filter _ _ _ (by decide) 0 _ (by simp),
    replaceScan_filter _ _ _ (by decide) 0 _ (by simp),
    replaceScan_filter _ _ _ (by decide) 0 _ (by simp),
    replaceScan_filter _ _ _ (by decide) 0 _ (by simp),
    replaceScan_filter _ _ _ (by decide) 0 _ (by simp)]

theorem sanitizeValue_unchanged (v : Str)
    (h1 : Contains v [Char.ofNat 96] = false) (h2 : Contains v "$(".toList = false)
    (h3 : Contains v "&&".toList = false) (h4 : Contains v "||".toList = false)
    (h5 : Contains v ";".toList = false) : sanitizeValue v = v := by
  unfold sanitizeValue
  simp only [ReplaceAll, String.toList] at *
  rw [replaceScan_unchanged _ v h1, replaceScan_unchanged _ v h2,
    replaceScan_unchanged _ v h3, replaceScan_unchanged _ v h4,
    replaceScan_unchanged _ v h5]

theorem SanitizeData_fold (acc rest : List (Str × Str))
    (hnd : (GoMap.keys rest).Nodup)
    (hdis : ∀ k ∈ GoMap.keys rest, GoMap.get acc k = none) :
    rest.foldl (fun sanitized e => GoMap.set sanitized e.1 (sanitizeValue e.2)) acc
      = acc ++ rest.map (fun e => (e.1, sanitizeValue e.2)) := by
  induction rest generalizing acc with
  | nil => simp
  | cons e rest ih =>
    have hk : GoMap.keys (e :: rest) = e.1 :: GoMap.keys rest := rfl
    rw [hk, List.nodup_cons] at hnd
    have hget : GoMap.get acc e.1 = none := hdis e.1 (by rw [hk]; exact List.mem_cons_self _ _)
    simp only [List.foldl_cons, List.map_cons]
    rw [GoMap.set_of_get_none _ _ _ hget, ih _ hnd.2]
    · simp
    · intro k hkin
      have hne : k ≠ e.1 := by
        intro heq
        rw [heq] at hkin
        exact hnd.1 hkin
      rw [← GoMap.set_of_get_none _ _ _ hget, GoMap.get_set_other _ _ _ _ hne]
      exact hdis k (by rw [hk]; exact List.mem_cons_of_mem _ hkin)

theorem SanitizeData_eq_map (data : List (Str × Str)) (hnd : (GoMap.keys data).Nodup) :
    SanitizeData data = data.map (fun e => (e.1, sanitizeValue e.2)) := by
  unfold SanitizeData
  rw [SanitizeData_fold [] data hnd (fun _ _ => rfl)]
  simp

theorem GoMap.get_map_values {V W : Type} (f : V → W) (m : List (Str × V)) (k : Str) :
    GoMap.get (m.map (fun e => (e.1, f e.2))) k = (GoMap.get m k).map f := by
  induction m with
  | nil => simp [GoMap.get]
  | cons e rest ih =>
    obtain ⟨k', v'⟩ := e
    by_cases hk : k' = k
    · simp [GoMap.get, hk]
    · simp [GoMap.get, hk, ih]

/-- C15: for every data mapping (its keys distinct, as in a Go map), SanitizeData returns
a mapping with the same keys, built from the input without changing it; the value of each
key is a subsequence of the input value in which every rune other than backtick, `$`,
`(`, `&`, `|` and `;` is kept, and an input value that contains none of the five
substrings is returned unchanged; the mapping x = `a; rm -rf /` gives x = `a rm -rf /`. -/
theorem SanitizeData_keeps_keys_and_other_runes (data : List (Str × Str))
    (hnd : (GoMap.keys data).Nodup) :
    GoMap.keys (SanitizeData data) = GoMap.keys data
    ∧ (∀ k v, GoMap.get data k = some v →
        GoMap.get (SanitizeData data) k = some (sanitizeValue v)
        ∧ (sanitizeValue v).Sublist v
        ∧ (sanitizeValue v).filter (fun c => !strippedRune c)
            = v.filter (fun c => !strippedRune c)
        ∧ (Contains v [Char.ofNat 96] = false → Contains v "$(".toList = false →
            Contains v "&&".toList = false → Contains v "||".toList = false →
            Contains v ";".toList = false → sanitizeValue v = v))
    ∧ SanitizeData [("x".toList, "a; rm -rf /".toList)]
        = [("x".toList, "a rm -rf /".toList)] := by
  refine ⟨?_, ?_, by decide⟩
  · rw [SanitizeData_eq_map data hnd]
    simp [GoMap.keys, List.map_map, Function.comp_def]
  · intro k v hget
    refine ⟨?_, sanitizeValue_sublist v, sanitizeValue_keeps_other_runes v,
      sanitizeValue_unchanged v⟩
    rw [SanitizeData_eq_map data hnd, GoMap.get_map_values, hget]
    rfl

/-- The sanitizing theorem applied to a mapping with two entries: the keys are kept, the
command value loses only its semicolon and the plain value is unchanged. -/
theorem SanitizeData_keeps_keys_and_other_runes_witness :
    (GoMap.keys [("x".toList, "a; rm -rf /".toList), ("y".toList, "plain".toList)]).Nodup
    ∧ GoMap.keys (SanitizeData
        [("x".toList, "a; rm -rf /".toList), ("y".toList, "plain".toList)])
        = ["x".toList, "y".toList]
    ∧ GoMap.get (SanitizeData
        [("x".toList, "a; rm -rf /".toList), ("y".toList, "plain".toList)]) "y".toList
        = some (sanitizeValue "plain".toList)
    ∧ sanitizeValue "plain".toList = "plain".toList :=
  ⟨by decide,
    (SanitizeData_keeps_keys_and_other_runes
      [("x".toList, "a; rm -rf /".toList), ("y".toList, "plain".toList)] (by decide)).1,
    ((SanitizeData_keeps_keys_and_other_runes
      [("x".toList, "a; rm -rf /".toList), ("y".toList, "plain".toList)] (by decide)).2.1
        "y".toList "plain".toList (by decide)).1,
    ((SanitizeData_keeps_keys_and_other_runes
      [("x".toList, "a; rm -rf /".toList), ("y".toList, "plain".toList)] (by decide)).2.1
        "y".toList "plain".toList (by decide)).2.2.2
        (by decide) (by decide) (by decide) (by decide) (by decide)⟩

/-! ### The worker count -/

/-- C19: NewConcurrentProcessor sets MaxWorkers to the minimum of the CPU count and 8;
for every integer c, after SetMaxWorkers(c) MaxWorkers is 1 if c < 1, 16 if c > 16 and c
otherwise; after either call Stats.WorkerCount and the capacity of the worker pool both
equal MaxWorkers. -/
theorem MaxWorkers_default_and_clamp (cpus : Nat) (now : Int) (p : ConcurrentProcessor)
    (c : Int) :
    (NewConcurrentProcessor cpus now).MaxWorkers = min (cpus : Int) 8
    ∧ (NewConcurrentProcessor cpus now).Stats.WorkerCount
        = (NewConcurrentProcessor cpus now).MaxWorkers
    ∧ ((NewConcurrentProcessor cpus now).workerPool.cap : Int)
        = (NewConcurrentProcessor cpus now).MaxWorkers
    ∧ (p.SetMaxWorkers c).MaxWorkers = (if c < 1 then 1 else if c > 16 then 16 else c)
    ∧ 1 ≤ (p.SetMaxWorkers c).MaxWorkers ∧ (p.SetMaxWorkers c).MaxWorkers ≤ 16
    ∧ (p.SetMaxWorkers c).Stats.WorkerCount = (p.SetMaxWorkers c).MaxWorkers
    ∧ ((p.SetMaxWorkers c).workerPool.cap : Int) = (p.SetMaxWorkers c).MaxWorkers := by
  simp only [NewConcurrentProcessor, ConcurrentProcessor.SetMaxWorkers]
  refine ⟨?_, trivial, ?_, ?_, ?_, ?_, trivial, ?_⟩
  · split <;> omega
  · split <;> omega
  · split <;> split <;> omega
  · split <;> split <;> omega
  · split <;> split <;> omega
  · split <;> split <;> omega

/-! ### A batch that nobody interferes with -/

theorem eraseIdx_perm {α : Type} (l : List α) (i : Nat) (x : α) (h : l[i]? = some x) :
    l.Perm (x :: l.eraseIdx i) ∧ (l.eraseIdx i).length + 1 = l.length := by
  induction l generalizing i with
  | nil => simp at h
  | cons a l ih =>
    cases i with
    | zero =>
      simp only [List.getElem?_cons_zero, Option.some.injEq] at h
      subst h
      exact ⟨List.Perm.refl _, by simp⟩
    | succ i =>
      simp only [List.getElem?_cons_succ] at h
      obtain ⟨hp, hl⟩ := ih i h
      refine ⟨?_, by simp [List.eraseIdx_cons_succ, hl]⟩
      rw [List.eraseIdx_cons_succ]
      exact (List.Perm.cons a hp).trans (List.Perm.swap x a _)

theorem Batch.Quiet.start (p : ConcurrentProcessor) (ts : List Str)
    (hstop : p.stopChan = false) (hlen : p.workerPool.len = 0) :
    Batch.Quiet ts p.workerPool.cap (Batch.start p ts) where
  notStopped := hstop
  capEq := rfl
  poolLen := by simp [Batch.start, hlen]
  poolLe := by simp [Batch.start, hlen]
  wgEq := by simp [Batch.start]
  sel := Or.inl rfl
  results := rfl
  errs := rfl
  perm := by simp [Batch.start]
  ret := by intro r h; simp [Batch.start] at h

theorem Batch.Quiet.step {ts : List Str} {cap : Nat} {b b' : Batch} {e : Event}
    (hq : Batch.Quiet ts cap b) (hown : e.own = true) (hs : b.step e = some b') :
    Batch.Quiet ts cap b' ∧ b'.stepsLeft + 1 = b.stepsLeft := by
  cases e with
  | SetMaxWorkers c => simp [Event.own] at hown
  | Stop => simp [Event.own] at hown
  | enterSelect =>
    simp only [Batch.step] at hs
    split at hs
    · rename_i hc
      obtain ⟨hret, hsel, hne⟩ := hc
      simp only [Option.some.injEq] at hs
      subst hs
      have hret' : b.returned = none := by simpa using hret
      refine ⟨⟨hq.notStopped, hq.capEq, hq.poolLen, hq.poolLe, hq.wgEq,
        Or.inr ⟨rfl, hne, hret'⟩, hq.results, hq.errs, hq.perm, ?_⟩, ?_⟩
      · intro r h
        simp [hret'] at h
      · simp [Batch.stepsLeft, hsel]
    · simp at hs
  | stopCase =>
    simp only [Batch.step] at hs
    split at hs
    · rename_i hc
      rw [hq.notStopped] at hc
      simp at hc
    · simp at hs
  | acquire =>
    rcases hq.sel with hsel | ⟨hsel, hne, hret⟩
    · simp [Batch.step, hsel] at hs
    · cases hts : b.templates with
      | nil => exact absurd hts hne
      | cons tmpl rest =>
        simp only [Batch.step, hsel, hts] at hs
        split at hs
        · rename_i hroom
          simp only [Option.some.injEq] at hs
          subst hs
          refine ⟨⟨hq.notStopped, hq.capEq, ?_, ?_, ?_, Or.inl rfl, hq.results, hq.errs,
            ?_, ?_⟩, ?_⟩
          · simp [hq.poolLen]; omega
          · have := hq.capEq
            simp only
            omega
          · simp [hq.wgEq]; omega
          · have := hq.perm
            rw [hts] at this
            simpa using this
          · intro r h
            simp [hret] at h
          · simp [Batch.stepsLeft, hsel, hts]
            omega
        · simp at hs
  | renderReturns i r =>
    simp only [Batch.step] at hs
    cases hget : b.running[i]? with
    | none => simp [hget] at hs
    | some templatePath =>
      obtain ⟨hperm, hlen⟩ := eraseIdx_perm b.running i templatePath hget
      have hnotret : b.returned = none := by
        cases hr : b.returned with
        | none => rfl
        | some r0 =>
          have := (hq.ret r0 hr).2.1
          rw [this] at hget
          simp at hget
      have hp : List.Perm ts ((b.rendered ++ [(templatePath, r)]).map Prod.fst
          ++ (b.running.eraseIdx i ++ b.templates)) := by
        refine hq.perm.trans ?_
        simp only [List.map_append, List.map_cons, List.map_nil, List.append_assoc,
          List.singleton_append]
        refine List.Perm.append_left _ ?_
        exact List.Perm.append_right _ hperm
      simp only [hget] at hs
      cases r with
      | error err =>
        simp only [Option.some.injEq] at hs
        subst hs
        refine ⟨⟨hq.notStopped, hq.capEq, ?_, hq.poolLe, ?_, ?_, ?_, ?_, hp, ?_⟩, ?_⟩
        · simp only
          rw [hq.poolLen]
          omega
        · simp only
          rw [hq.wgEq]
          omega
        · exact hq.sel
        · simp only
          rw [List.filterMap_append, ← hq.results]
          simp [okEntry]
        · simp only
          rw [List.filterMap_append, ← hq.errs]
          simp [errEntry]
        · intro r0 h
          simp [hnotret] at h
        · simp only [Batch.stepsLeft]
          omega
      | ok result =>
        simp only [Option.some.injEq] at hs
        subst hs
        refine ⟨⟨hq.notStopped, hq.capEq, ?_, hq.poolLe, ?_, ?_, ?_, ?_, hp, ?_⟩, ?_⟩
        · simp only
          rw [hq.poolLen]
          omega
        · simp only
          rw [hq.wgEq]
          omega
        · exact hq.sel
        · simp only
          rw [List.filterMap_append, ← hq.results]
          simp [okEntry]
        · simp only
          rw [List.filterMap_append, ← hq.errs]
          simp [errEntry]
        · intro r0 h
          simp [hnotret] at h
        · simp only [Batch.stepsLeft]
          omega
  | release =>
    simp only [Batch.step] at hs
    split at hs
    · rename_i hc
      obtain ⟨hrel, hpool⟩ := hc
      simp only [Option.some.injEq] at hs
      subst hs
      have hnotret : b.returned = none := by
        cases hr : b.returned with
        | none => rfl
        | some r0 =>
          have := (hq.ret r0 hr).2.2.1
          omega
      refine ⟨⟨hq.notStopped, hq.capEq, ?_, ?_, ?_, hq.sel, hq.results, hq.errs, hq.perm,
        ?_⟩, ?_⟩
      · simp only
        rw [hq.poolLen]
        omega
      · have := hq.poolLe
        simp only
        omega
      · simp only
        rw [hq.wgEq]
        omega
      · intro r0 h
        simp [hnotret] at h
      · simp only [Batch.stepsLeft]
        omega
    · simp at hs
  | collect now alloc =>
    simp only [Batch.step] at hs
    split at hs
    · rename_i hc
      obtain ⟨hret, hts, hsel, hwg⟩ := hc
      simp only [Option.some.injEq] at hs
      subst hs
      have hret' : b.returned = none := by simpa using hret
      have hzero := hq.wgEq
      rw [hwg] at hzero
      have hrun : b.running = [] := List.length_eq_zero.mp (by omega)
      refine ⟨⟨hq.notStopped, hq.capEq, hq.poolLen, hq.poolLe, hq.wgEq, Or.inl hsel,
        hq.results, hq.errs, hq.perm, ?_⟩, ?_⟩
      · intro r0 h
        simp only [Option.some.injEq] at h
        have hrel : b.releasing = 0 := by omega
        refine ⟨hts, hrun, hrel, hsel, ?_⟩
        rw [← h]
        rfl
      · simp [Batch.stepsLeft, hret', hsel]
    · simp at hs

theorem Batch.Quiet.run {ts : List Str} {cap : Nat} (sched : List Event) {b b' : Batch}
    (hq : Batch.Quiet ts cap b) (hown : ∀ e ∈ sched, e.own = true)
    (hrun : b.run sched = some b') :
    Batch.Quiet ts cap b' ∧ sched.length + b'.stepsLeft = b.stepsLeft := by
  induction sched generalizing b with
  | nil =>
    simp only [Batch.run, Option.some.injEq] at hrun
    subst hrun
    exact ⟨hq, by simp⟩
  | cons e es ih =>
    simp only [Batch.run] at hrun
    cases hstep : b.step e with
    | none => simp [hstep] at hrun
    | some b1 =>
      rw [hstep] at hrun
      obtain ⟨hq1, hfuel⟩ := hq.step (hown e (List.mem_cons_self _ _)) hstep
      obtain ⟨hq', hlen⟩ := ih hq1 (fun x hx => hown x (List.mem_cons_of_mem _ hx)) hrun
      refine ⟨hq', ?_⟩
      simp only [List.length_cons]
      omega

theorem Batch.Quiet.progress {ts : List Str} {cap : Nat} {b : Batch}
    (hq : Batch.Quiet ts cap b) (hcap : 0 < cap) (hret : b.returned = none) :
    ∃ e : Event, e.own = true ∧ (b.step e).isSome = true := by
  cases hrun : b.running with
  | cons t rest =>
    refine ⟨.renderReturns 0 (.ok []), rfl, ?_⟩
    simp [Batch.step, hrun]
  | nil =>
    by_cases hrel : 0 < b.releasing
    · refine ⟨.release, rfl, ?_⟩
      have hp := hq.poolLen
      have : 0 < b.p.workerPool.len := by omega
      simp [Batch.step, hrel, this]
    · have hrel0 : b.releasing = 0 := by omega
      have hp := hq.poolLen
      have hw := hq.wgEq
      rw [hrun, hrel0] at hp hw
      simp only [List.length_nil, Nat.add_zero] at hp hw
      cases hts : b.templates with
      | nil =>
        rcases hq.sel with hsel | ⟨_, hne, _⟩
        · refine ⟨.collect 0 0, rfl, ?_⟩
          simp [Batch.step, hret, hts, hsel, hw]
        · exact absurd hts hne
      | cons tmpl rest =>
        rcases hq.sel with hsel | ⟨hsel, _, _⟩
        · refine ⟨.enterSelect, rfl, ?_⟩
          simp [Batch.step, hret, hts, hsel]
        · refine ⟨.acquire, rfl, ?_⟩
          have hc := hq.capEq
          have : b.p.workerPool.len < b.p.workerPool.cap := by omega
          simp [Batch.step, hts, hsel, this]

/-! ### The collected results and the aggregate error -/

theorem collect_fold_isSome (l acc : List (Str × Str)) (k : Str) :
    (GoMap.get (l.foldl (fun results result => GoMap.set results result.1 result.2) acc)
        k).isSome = true
      ↔ (GoMap.get acc k).isSome = true ∨ k ∈ l.map Prod.fst := by
  induction l generalizing acc with
  | nil => simp
  | cons e rest ih =>
    simp only [List.foldl_cons, List.map_cons, List.mem_cons]
    rw [ih]
    by_cases hk : k = e.1
    · subst hk
      simp [GoMap.get_set_self]
    · rw [GoMap.get_set_other _ _ _ _ hk]
      simp [hk]

theorem collect_fold_get (l acc : List (Str × Str)) (k v : Str)
    (h : GoMap.get (l.foldl (fun results result => GoMap.set results result.1 result.2) acc)
        k = some v) :
    GoMap.get acc k = some v ∨ (k, v) ∈ l := by
  induction l generalizing acc with
  | nil => exact Or.inl h
  | cons e rest ih =>
    simp only [List.foldl_cons] at h
    rcases ih _ h with h1 | h1
    · by_cases hk : k = e.1
      · subst hk
        rw [GoMap.get_set_self] at h1
        simp only [Option.some.injEq] at h1
        subst h1
        exact Or.inr (List.mem_cons_self _ _)
      · rw [GoMap.get_set_other _ _ _ _ hk] at h1
        exact Or.inl h1
    · exact Or.inr (List.mem_cons_of_mem _ h1)

theorem collect_fold_nodup (l acc : List (Str × Str)) (hnd : (GoMap.keys l).Nodup)
    (hdis : ∀ k ∈ GoMap.keys l, GoMap.get acc k = none) :
    l.foldl (fun results result => GoMap.set results result.1 result.2) acc = acc ++ l := by
  induction l generalizing acc with
  | nil => simp
  | cons e rest ih =>
    have hk : GoMap.keys (e :: rest) = e.1 :: GoMap.keys rest := rfl
    rw [hk, List.nodup_cons] at hnd
    have hget : GoMap.get acc e.1 = none := hdis e.1 (by rw [hk]; exact List.mem_cons_self _ _)
    simp only [List.foldl_cons]
    rw [GoMap.set_of_get_none _ _ _ hget, ih _ hnd.2]
    · simp
    · intro k hkin
      have hne : k ≠ e.1 := by
        intro heq
        rw [heq] at hkin
        exact hnd.1 hkin
      rw [← GoMap.set_of_get_none _ _ _ hget, GoMap.get_set_other _ _ _ _ hne]
      exact hdis k (by rw [hk]; exact List.mem_cons_of_mem _ hkin)

theorem mem_filterMap_okEntry (l : List (Str × Except String Str)) (path text : Str) :
    (path, text) ∈ l.filterMap okEntry ↔ (path, Except.ok text) ∈ l := by
  rw [List.mem_filterMap]
  constructor
  · rintro ⟨⟨q, r⟩, hin, hok⟩
    cases r with
    | error e => simp [okEntry] at hok
    | ok t =>
      simp only [okEntry, Option.some.injEq, Prod.mk.injEq] at hok
      obtain ⟨h1, h2⟩ := hok
      subst h1 h2
      exact hin
  · intro h
    exact ⟨_, h, rfl⟩

theorem mem_filterMap_errEntry (l : List (Str × Except String Str)) (msg : String) :
    msg ∈ l.filterMap errEntry
      ↔ ∃ path err, (path, Except.error err) ∈ l ∧ msg = processingError path err := by
  rw [List.mem_filterMap]
  constructor
  · rintro ⟨⟨q, r⟩, hin, hok⟩
    cases r with
    | ok t => simp [errEntry] at hok
    | error e =>
      simp only [errEntry, Option.some.injEq] at hok
      exact ⟨q, e, hin, hok.symm⟩
  · rintro ⟨path, err, hin, rfl⟩
    exact ⟨_, hin, rfl⟩

theorem carries_refl (a : String) : carries a a := List.infix_refl _

theorem carries_append_left (a b x : String) (h : carries b x) : carries (a ++ b) x := by
  unfold carries at *
  rw [String.data_append]
  obtain ⟨s, t, hst⟩ := h
  exact ⟨a.data ++ s, t, by simp [← hst]⟩

theorem carries_append_right (a b x : String) (h : carries a x) : carries (a ++ b) x := by
  unfold carries at *
  rw [String.data_append]
  obtain ⟨s, t, hst⟩ := h
  exact ⟨s, t ++ b.data, by simp [← hst]⟩

theorem carries_trans (a b c : String) (h1 : carries a b) (h2 : carries b c) : carries a c :=
  List.IsInfix.trans h2 h1

theorem carries_joinSpace (l : List String) (x : String) (h : x ∈ l) :
    carries (joinSpace l) x := by
  induction l with
  | nil => simp at h
  | cons a rest ih =>
    cases rest with
    | nil =>
      simp only [List.mem_singleton] at h
      subst h
      exact carries_refl _
    | cons b rest' =>
      simp only [joinSpace]
      rcases List.mem_cons.mp h with h1 | h1
      · subst h1
        exact carries_append_right _ _ _ (carries_append_right _ _ _ (carries_refl _))
      · exact carries_append_left _ _ _ (ih h1)

theorem carries_formatErrors (l : List String) (x : String) (h : x ∈ l) :
    carries ("processing errors: " ++ formatErrors l) x := by
  unfold formatErrors
  exact carries_append_left _ _ _
    (carries_append_right _ _ _ (carries_append_left _ _ _ (carries_joinSpace l x h)))

theorem processingError_carries_path (path : Str) (err : String) :
    carries (processingError path err) (String.mk path) := by
  unfold processingError
  exact carries_append_right _ _ _ (carries_append_right _ _ _
    (carries_append_left _ _ _ (carries_refl _)))

/-- C16: on a processor that is not stopped, whose worker pool has room and is empty, and
that nobody else touches during the call, every run of ProcessTemplates can go on until
the call returns, which it does after exactly 4n+1 of its own steps for n paths; when it
returns, every path has been rendered exactly once, the keys of the result mapping are
exactly the paths with a successful render, each mapped to a text rendered for it (to its
rendered text when the paths are distinct), the aggregate error is non-nil exactly when
some render failed, and it carries the error and the path of every failed render. -/
theorem ProcessTemplates_aggregates (p : ConcurrentProcessor) (templates : List Str)
    (sched : List Event) (b : Batch)
    (hstop : p.stopChan = false) (hlen : p.workerPool.len = 0) (hcap : 0 < p.workerPool.cap)
    (hown : ∀ e ∈ sched, e.own = true)
    (hrun : (Batch.start p templates).run sched = some b) :
    (b.returned = none → ∃ e : Event, e.own = true ∧ (b.step e).isSome = true)
    ∧ sched.length + b.stepsLeft = 4 * templates.length + 2
    ∧ (b.returned.isSome = true ↔ sched.length = 4 * templates.length + 1)
    ∧ b.concurrency ≤ p.workerPool.cap
    ∧ ∀ results err, b.returned = some (results, err) →
        (b.rendered.map Prod.fst).Perm templates
        ∧ (∀ path, (GoMap.get results path).isSome = true
            ↔ ∃ text, (path, Except.ok text) ∈ b.rendered)
        ∧ (∀ path text, GoMap.get results path = some text →
            (path, Except.ok text) ∈ b.rendered)
        ∧ (templates.Nodup → ∀ path text, (path, Except.ok text) ∈ b.rendered →
            GoMap.get results path = some text)
        ∧ (err.isSome = true ↔ ∃ path e, (path, Except.error e) ∈ b.rendered)
        ∧ (∀ path e, (path, Except.error e) ∈ b.rendered →
            ∃ msg, err = some msg ∧ carries msg (processingError path e)
              ∧ carries msg (String.mk path)) := by
  obtain ⟨hq, hsteps⟩ := (Batch.Quiet.start p templates hstop hlen).run sched hown hrun
  have hstart : (Batch.start p templates).stepsLeft = 4 * templates.length + 2 := by
    simp [Batch.stepsLeft, Batch.start]
  rw [hstart] at hsteps
  refine ⟨hq.progress hcap, hsteps, ?_, ?_, ?_⟩
  · constructor
    · intro hret
      obtain ⟨r, hr⟩ := Option.isSome_iff_exists.mp hret
      obtain ⟨h1, h2, h3, h4, _⟩ := hq.ret r hr
      have : b.stepsLeft = 1 := by
        simp [Batch.stepsLeft, h1, h2, h3, h4, hr]
      omega
    · intro hl
      have hone : b.stepsLeft = 1 := by omega
      cases hr : b.returned with
      | some r => rfl
      | none =>
        exfalso
        rcases hq.sel with hsel | ⟨hsel, hne, _⟩
        · simp [Batch.stepsLeft, hr, hsel] at hone
        · have : 0 < b.templates.length := List.length_pos.mpr hne
          simp only [Batch.stepsLeft] at hone
          omega
  · have h1 := hq.poolLen
    have h2 := hq.poolLe
    unfold Batch.concurrency
    omega
  · intro results err hret
    obtain ⟨h1, h2, _, _, hr⟩ := hq.ret _ hret
    simp only [Prod.mk.injEq] at hr
    obtain ⟨hres, herr⟩ := hr
    have hperm : (b.rendered.map Prod.fst).Perm templates := by
      have := hq.perm
      rw [h1, h2] at this
      simpa using this.symm
    have hkeys : ∀ path, path ∈ b.resultChan.map Prod.fst
        ↔ ∃ text, (path, Except.ok text) ∈ b.rendered := by
      intro path
      rw [hq.results, List.mem_map]
      constructor
      · rintro ⟨⟨q, t⟩, hin, rfl⟩
        exact ⟨t, (mem_filterMap_okEntry _ _ _).mp hin⟩
      · rintro ⟨t, hin⟩
        exact ⟨(path, t), (mem_filterMap_okEntry _ _ _).mpr hin, rfl⟩
    refine ⟨hperm, ?_, ?_, ?_, ?_, ?_⟩
    · intro path
      rw [hres, collectResults, collect_fold_isSome]
      simp only [GoMap.get, Option.isSome_none, Bool.false_eq_true, false_or]
      exact hkeys path
    · intro path text hget
      rw [hres, collectResults] at hget
      rcases collect_fold_get _ _ _ _ hget with h | h
      · simp [GoMap.get] at h
      · rw [hq.results] at h
        exact (mem_filterMap_okEntry _ _ _).mp h
    · intro hnd path text hin
      have hsub : (GoMap.keys b.resultChan).Sublist (b.rendered.map Prod.fst) := by
        rw [hq.results]
        unfold GoMap.keys
        clear hin hkeys hperm hres hret
        induction b.rendered with
        | nil => simp
        | cons e rest ih =>
          obtain ⟨q, r⟩ := e
          cases r with
          | error x =>
            simp only [List.filterMap_cons, okEntry, List.map_cons]
            exact ih.cons _
          | ok x =>
            simp only [List.filterMap_cons, okEntry, List.map_cons]
            exact ih.cons₂ _
      have hnd2 : (GoMap.keys b.resultChan).Nodup :=
        hsub.nodup ((List.Perm.nodup_iff hperm).mpr hnd)
      rw [hres, collectResults, collect_fold_nodup b.resultChan [] hnd2 (fun _ _ => rfl)]
      simp only [List.nil_append]
      apply GoMap.get_of_mem _ _ _ hnd2
      rw [hq.results]
      exact (mem_filterMap_okEntry _ _ _).mpr hin
    · rw [herr]
      constructor
      · intro hsome
        by_cases hpos : b.errors.length > 0
        · obtain ⟨m, hm⟩ := List.exists_mem_of_length_pos hpos
          rw [hq.errs] at hm
          obtain ⟨path, e, hin, _⟩ := (mem_filterMap_errEntry _ _).mp hm
          exact ⟨path, e, hin⟩
        · simp [hpos] at hsome
      · rintro ⟨path, e, hin⟩
        have hm : processingError path e ∈ b.errors := by
          rw [hq.errs]
          exact (mem_filterMap_errEntry _ _).mpr ⟨path, e, hin, rfl⟩
        have hpos : b.errors.length > 0 := List.length_pos_of_mem hm
        simp [hpos]
    · intro path e hin
      have hm : processingError path e ∈ b.errors := by
        rw [hq.errs]
        exact (mem_filterMap_errEntry _ _).mpr ⟨path, e, hin, rfl⟩
      have hpos : b.errors.length > 0 := List.length_pos_of_mem hm
      refine ⟨"processing errors: " ++ formatErrors b.errors, ?_, ?_, ?_⟩
      · rw [herr]
        simp [hpos]
      · exact carries_formatErrors _ _ hm
      · exact carries_trans _ _ _ (carries_formatErrors _ _ hm)
          (processingError_carries_path path e)

/-- The aggregation theorem applied to ten paths of which two fail, on a processor with
two workers that renders them two at a time: the call returns exactly the eight
successful paths with the aggregate error of the two failures. -/
theorem ProcessTemplates_aggregates_witness :
    (NewConcurrentProcessor 2 0).stopChan = false
    ∧ (NewConcurrentProcessor 2 0).workerPool.len = 0
    ∧ 0 < (NewConcurrentProcessor 2 0).workerPool.cap
    ∧ (∀ e ∈ pairedSchedule renderButTwo tenPaths, e.own = true)
    ∧ (Batch.start (NewConcurrentProcessor 2 0) tenPaths).run
        (pairedSchedule renderButTwo tenPaths) = some tenBatch
    ∧ tenBatch.returned = some (eightPaths.map (fun t => (t, t)),
        some ("processing errors: [error processing /t3.tmpl: broken "
          ++ "error processing /t7.tmpl: broken]"))
    ∧ eightPaths.length = 8
    ∧ (tenBatch.rendered.map Prod.fst).Perm tenPaths
    ∧ (∀ path text, (path, Except.ok text) ∈ tenBatch.rendered →
        GoMap.get (eightPaths.map (fun t => (t, t))) path = some text) := by
  have hret : tenBatch.returned = some (eightPaths.map (fun t => (t, t)),
      some ("processing errors: [error processing /t3.tmpl: broken "
        ++ "error processing /t7.tmpl: broken]")) := by decide
  have h := (ProcessTemplates_aggregates (NewConcurrentProcessor 2 0) tenPaths
    (pairedSchedule renderButTwo tenPaths) tenBatch (by decide) (by decide) (by decide)
    (by decide) (by decide)).2.2.2.2 _ _ hret
  exact ⟨by decide, by decide, by decide, by decide, by decide, hret, by decide, h.1,
    h.2.2.2.1 (by decide)⟩

/-! ### Interference with a batch -/

/-- C17: on a processor with one worker and the paths `/a`, `/b`: (1) the render of `/a`
starts, SetMaxWorkers(1) is called, and the loop starts the render of `/b` through the
new worker pool, so two renders run with a worker count of one; (2) the render of `/a`
starts, Stop is called while the loop waits for a slot, and ProcessTemplates returns
'processing stopped' while the render of `/a` is still running. -/
theorem ProcessTemplates_exceeds_worker_count :
    ((Batch.start oneWorker ["/a".toList, "/b".toList]).run
        [.enterSelect, .acquire, .SetMaxWorkers 1, .enterSelect, .acquire]).map
        (fun b => (b.p.MaxWorkers, b.concurrency)) = some (1, 2)
    ∧ ((Batch.start oneWorker ["/a".toList, "/b".toList]).run
        [.enterSelect, .acquire, .SetMaxWorkers 1, .enterSelect, .acquire]).map
        (fun b => (b.p.workerPool.cap, b.running))
      = some (1, ["/a".toList, "/b".toList])
    ∧ ((Batch.start oneWorker ["/a".toList, "/b".toList]).run
        [.enterSelect, .acquire, .enterSelect, .Stop, .stopCase]).map
        (fun b => b.returned) = some (some ([], some "processing stopped"))
    ∧ ((Batch.start oneWorker ["/a".toList, "/b".toList]).run
        [.enterSelect, .acquire, .enterSelect, .Stop, .stopCase]).map
        (fun b => (b.running, b.wg)) = some (["/a".toList], 1) := by
  refine ⟨by decide, by decide, by decide, by decide⟩

/-- C18: Stop has been called on the processor, then ProcessTemplates is called with the
one path `/a`: in the select both the stop case and the send on the empty worker pool can
be taken; when the send is taken the render of `/a` starts, and the call returns its
result and no error instead of 'processing stopped'. -/
theorem ProcessTemplates_submits_after_Stop :
    oneWorker.Stop = some stoppedWorker
    ∧ (((Batch.start stoppedWorker ["/a".toList]).run [.enterSelect, .stopCase]).map
        (fun b => b.returned)) = some (some ([], some "processing stopped"))
    ∧ (((Batch.start stoppedWorker ["/a".toList]).run [.enterSelect, .acquire]).map
        (fun b => b.running)) = some ["/a".toList]
    ∧ (((Batch.start stoppedWorker ["/a".toList]).run
        [.enterSelect, .acquire, .renderReturns 0 (.ok "text".toList), .release,
          .collect 5 0]).map (fun b => b.returned))
      = some (some ([("/a".toList, "text".toList)], none))
    ∧ (((Batch.start stoppedWorker ["/a".toList]).run
        [.enterSelect, .acquire, .renderReturns 0 (.ok "text".toList), .release,
          .collect 5 0]).map (fun b => b.rendered))
      = some [("/a".toList, .ok "text".toList)] := by
  refine ⟨by decide, by decide, by decide, by decide, by decide⟩

/-! ### The rounds of the watcher -/

theorem WatchLoop.processChange_frame (h : Host) (codec : Codec) (io : Faults)
    (l : WatchLoop) :
    (l.processChange h codec io).1.w.template = l.w.template
    ∧ (l.processChange h codec io).1.w.data = l.w.data
    ∧ (l.processChange h codec io).1.cycles = l.cycles := by
  unfold WatchLoop.processChange
  split
  · exact ⟨rfl, rfl, rfl⟩
  · split
    · exact ⟨rfl, rfl, rfl⟩
    · split <;> exact ⟨rfl, rfl, rfl⟩

theorem WatchLoop.sendError_frame (l : WatchLoop) (err : String) :
    (l.sendError err).w.template = l.w.template ∧ (l.sendError err).w.data = l.w.data
    ∧ (l.sendError err).cycles = l.cycles := by
  unfold WatchLoop.sendError
  split <;> exact ⟨rfl, rfl, rfl⟩

theorem WatchLoop.updateStatus_frame (l : WatchLoop) :
    l.updateStatus.w.template = l.w.template ∧ l.updateStatus.w.data = l.w.data
    ∧ l.updateStatus.cycles = l.cycles := by
  unfold WatchLoop.updateStatus
  split <;> exact ⟨rfl, rfl, rfl⟩

theorem WatchLoop.step_cycles (h : Host) (codec : Codec) (io : Faults) (l l' : WatchLoop)
    (d : Delivery) (hs : l.step h codec io d = some l') :
    l'.w.template = l.w.template ∧ l'.w.data = l.w.data
    ∧ l'.cycles = l.cycles + (if d.relevant l.w then 1 else 0) := by
  cases d with
  | readError =>
    simp only [WatchLoop.step] at hs
    split at hs
    · simp at hs
    · simp only [Option.some.injEq] at hs
      subst hs
      exact ⟨rfl, rfl, by simp [Delivery.relevant]⟩
  | readStatus =>
    simp only [WatchLoop.step] at hs
    split at hs
    · simp at hs
    · simp only [Option.some.injEq] at hs
      subst hs
      exact ⟨rfl, rfl, by simp [Delivery.relevant]⟩
  | eventsClosed =>
    simp only [WatchLoop.step] at hs
    split at hs
    · simp at hs
    · simp only [Option.some.injEq] at hs
      subst hs
      exact ⟨rfl, rfl, by simp [Delivery.relevant]⟩
  | errorsClosed =>
    simp only [WatchLoop.step] at hs
    split at hs
    · simp at hs
    · simp only [Option.some.injEq] at hs
      subst hs
      exact ⟨rfl, rfl, by simp [Delivery.relevant]⟩
  | stop =>
    simp only [WatchLoop.step] at hs
    split at hs
    · simp at hs
    · simp only [Option.some.injEq] at hs
      subst hs
      exact ⟨rfl, rfl, by simp [Delivery.relevant]⟩
  | watcherError err =>
    simp only [WatchLoop.step] at hs
    split at hs
    · simp at hs
    · simp only [Option.some.injEq] at hs
      subst hs
      obtain ⟨h1, h2, h3⟩ := WatchLoop.sendError_frame l ("watcher error: " ++ err)
      exact ⟨h1, h2, by simp [Delivery.relevant, h3]⟩
  | event arrived e =>
    simp only [WatchLoop.step] at hs
    split at hs
    · simp at hs
    · by_cases hrel : l.w.isRelevantEvent e = true
      · simp only [hrel, if_true] at hs
        obtain ⟨h1, h2, h3⟩ := WatchLoop.processChange_frame h codec io
          { l with now := max l.now arrived + l.w.interval, cycles := l.cycles + 1 }
        generalize WatchLoop.processChange h codec io
          { l with now := max l.now arrived + l.w.interval, cycles := l.cycles + 1 } = res
          at hs h1 h2 h3
        obtain ⟨l1, r⟩ := res
        cases r with
        | error err =>
          simp only [Option.some.injEq] at hs
          subst hs
          obtain ⟨g1, g2, g3⟩ := WatchLoop.sendError_frame l1 err
          simp only at h1 h2 h3
          exact ⟨g1.trans h1, g2.trans h2, by simp [Delivery.relevant, hrel, g3, h3]⟩
        | ok u =>
          simp only [Option.some.injEq] at hs
          subst hs
          obtain ⟨g1, g2, g3⟩ := WatchLoop.updateStatus_frame l1
          simp only at h1 h2 h3
          exact ⟨g1.trans h1, g2.trans h2, by simp [Delivery.relevant, hrel, g3, h3]⟩
      · simp only [hrel, Bool.false_eq_true, if_false, Option.some.injEq] at hs
        subst hs
        exact ⟨rfl, rfl, by simp [Delivery.relevant, hrel]⟩

theorem WatchLoop.run_cycles (h : Host) (codec : Codec) (io : Faults) (ds : List Delivery)
    (l l' : WatchLoop) (hr : l.run h codec io ds = some l') :
    l'.cycles = l.cycles + ds.countP (Delivery.relevant l.w) := by
  induction ds generalizing l with
  | nil =>
    simp only [WatchLoop.run, Option.some.injEq] at hr
    subst hr
    simp
  | cons d rest ih =>
    simp only [WatchLoop.run] at hr
    cases hs : l.step h codec io d with
    | none => simp [hs] at hr
    | some l1 =>
      rw [hs] at hr
      obtain ⟨h1, h2, h3⟩ := WatchLoop.step_cycles h codec io l l1 d hs
      have hrel : Delivery.relevant l1.w = Delivery.relevant l.w := by
        funext x
        cases x <;> simp [Delivery.relevant, Watcher.isRelevantEvent, h1, h2]
      rw [ih l1 hr, h3, hrel, List.countP_cons]
      omega

/-- C20: five write events on the watched template arrive within five nanoseconds, far
inside the debounce interval of one second; the loop sleeps and runs one render and write
cycle for each of them, five cycles in all, the last of them five seconds after the
first event. -/
theorem watch_runs_a_cycle_per_event :
    fiveWrites.length = 5
    ∧ (∀ d ∈ fiveWrites, d.relevant watchStart.w = true)
    ∧ (WatchLoop.run stampHost noCodec Faults.none watchStart fiveWrites).map
        (fun l => (l.cycles, l.w.lastUpdate)) = some (5, 5000001000) := by
  refine ⟨by decide, by decide, by decide⟩

/-! ### Failures of the write and of the check -/

theorem restoreAfter_spec (fs : FS) (now : Int) (filePath : Str) (what err : String) :
    (restoreAfter fs now filePath what err).1 = (RestoreFromBackup fs now filePath).1
    ∧ ∃ msg, (restoreAfter fs now filePath what err).2 = .error msg
        ∧ carries msg err
        ∧ ((RestoreFromBackup fs now filePath).2 = .ok () →
            msg = what ++ err ++ " (restored from backup)")
        ∧ (∀ restoreErr, (RestoreFromBackup fs now filePath).2 = .error restoreErr →
            msg = what ++ err ++ " (restore failed: " ++ restoreErr ++ ")"
              ∧ carries msg restoreErr) := by
  unfold restoreAfter
  generalize RestoreFromBackup fs now filePath = res
  obtain ⟨fs', r⟩ := res
  cases r with
  | error restoreErr =>
    refine ⟨rfl, _, rfl, ?_, ?_, ?_⟩
    · exact carries_append_right _ _ _ (carries_append_right _ _ _
        (carries_append_right _ _ _ (carries_append_left _ _ _ (carries_refl _))))
    · intro h
      simp at h
    · intro e he
      simp only [Except.error.injEq] at he
      subst he
      exact ⟨rfl, carries_append_right _ _ _ (carries_append_left _ _ _ (carries_refl _))⟩
  | ok u =>
    refine ⟨rfl, _, rfl, ?_, ?_, ?_⟩
    · exact carries_append_right _ _ _ (carries_append_left _ _ _ (carries_refl _))
    · intro _
      rfl
    · intro e he
      simp at he

/-- C12: once the path is validated and the backup step has passed, when the write of
the destination fails, or it succeeds and the integrity check fails, WriteToFile runs
RestoreFromBackup (the filesystem it returns is the one the restore leaves), and the
error it returns carries the error of the write or of the check; when the restore fails
too, the returned error carries the error of the restore as well, after the original
one; when the restore succeeds it says 'restored from backup'. -/
theorem WriteToFile_failure_attempts_restore (h : Host) (io : Faults) (fs fs1 : FS)
    (now : Int) (filePath content : Str)
    (hval : ValidateOutputPath h.cwd fs filePath [Dir filePath] = .ok ())
    (hbak : BackupFile h fs now filePath = (fs1, .ok ())) :
    (∀ err, writeDestination io fs1 now filePath content = .error err →
      (WriteToFile h io fs now filePath content).1 = (RestoreFromBackup fs1 now filePath).1
      ∧ ∃ msg, (WriteToFile h io fs now filePath content).2 = .error msg
          ∧ carries msg err
          ∧ ((RestoreFromBackup fs1 now filePath).2 = .ok () →
              msg = "write error: " ++ err ++ " (restored from backup)")
          ∧ (∀ restoreErr, (RestoreFromBackup fs1 now filePath).2 = .error restoreErr →
              msg = "write error: " ++ err ++ " (restore failed: " ++ restoreErr ++ ")"
                ∧ carries msg restoreErr))
    ∧ (∀ fs2 err, writeDestination io fs1 now filePath content = .ok fs2 →
      VerifyFileIntegrity io fs2 filePath content = .error err →
      (WriteToFile h io fs now filePath content).1 = (RestoreFromBackup fs2 now filePath).1
      ∧ ∃ msg, (WriteToFile h io fs now filePath content).2 = .error msg
          ∧ carries msg err
          ∧ ((RestoreFromBackup fs2 now filePath).2 = .ok () →
              msg = "integrity check failed: " ++ err ++ " (restored from backup)")
          ∧ (∀ restoreErr, (RestoreFromBackup fs2 now filePath).2 = .error restoreErr →
              msg = "integrity check failed: " ++ err ++ " (restore failed: "
                ++ restoreErr ++ ")"
                ∧ carries msg restoreErr)) := by
  constructor
  · intro err hw
    unfold writeDestination at hw
    unfold WriteToFile
    simp only [hval, hbak, hw]
    exact restoreAfter_spec fs1 now filePath "write error: " err
  · intro fs2 err hw hv
    unfold writeDestination at hw
    unfold WriteToFile
    simp only [hval, hbak, hw, hv]
    exact restoreAfter_spec fs2 now filePath "integrity check failed: " err

/-- The restore theorem applied to a new destination that cannot be written: the backup
step passes without a backup, the write fails, the restore is attempted and fails, and
the returned error carries the write error followed by the restore error. -/
theorem WriteToFile_failure_attempts_restore_witness :
    ValidateOutputPath plainHost.cwd diskSrv "/srv/out.txt".toList [Dir "/srv/out.txt".toList]
        = .ok ()
    ∧ BackupFile plainHost diskSrv 5000 "/srv/out.txt".toList = (diskSrv, .ok ())
    ∧ writeDestination deniedWrite diskSrv 5000 "/srv/out.txt".toList "new".toList
        = .error "permission denied"
    ∧ (WriteToFile plainHost deniedWrite diskSrv 5000 "/srv/out.txt".toList "new".toList).2
        = .error ("write error: permission denied"
            ++ " (restore failed: no backups found for /srv/out.txt)") := by
  have hval : ValidateOutputPath plainHost.cwd diskSrv "/srv/out.txt".toList
      [Dir "/srv/out.txt".toList] = .ok () := by decide
  have hbak : BackupFile plainHost diskSrv 5000 "/srv/out.txt".toList = (diskSrv, .ok ()) := by
    decide
  have hw : writeDestination deniedWrite diskSrv 5000 "/srv/out.txt".toList "new".toList
      = .error "permission denied" := by decide
  obtain ⟨_, msg, hm, _, _, hr⟩ :=
    (WriteToFile_failure_attempts_restore plainHost deniedWrite diskSrv diskSrv 5000
      "/srv/out.txt".toList "new".toList hval hbak).1 "permission denied" hw
  refine ⟨hval, hbak, hw, ?_⟩
  rw [hm, (hr "no backups found for /srv/out.txt" (by decide)).1]
  rfl

/-! ### First occurrences and splits -/

theorem Index_some {s sub : Str} {m : Nat} (h : Index s sub = some m) :
    s = s.take m ++ sub ++ s.drop (m + sub.length)
    ∧ m + sub.length ≤ s.length
    ∧ (∀ A B : Str, s = A ++ sub ++ B → m ≤ A.length) := by
  induction s generalizing m with
  | nil =>
    simp only [Index] at h
    split at h
    · rename_i he
      simp only [Option.some.injEq] at h
      subst h
      have : sub = [] := by simpa using he
      subst this
      exact ⟨by simp, by simp, fun _ _ _ => Nat.zero_le _⟩
    · simp at h
  | cons c cs ih =>
    simp only [Index] at h
    split at h
    · rename_i hp
      simp only [Option.some.injEq] at h
      subst h
      rw [List.isPrefixOf_iff_prefix] at hp
      have hlen := List.IsPrefix.length_le hp
      obtain ⟨t, ht⟩ := hp
      refine ⟨?_, by omega, fun _ _ _ => Nat.zero_le _⟩
      rw [← ht]
      simp
    · rename_i hp
      cases hi : Index cs sub with
      | none => simp [hi] at h
      | some m' =>
        simp only [hi, Option.map_some', Option.some.injEq] at h
        subst h
        obtain ⟨h1, h3, h2⟩ := ih hi
        refine ⟨?_, by simp only [List.length_cons]; omega, ?_⟩
        · have : (c :: cs).drop (m' + 1 + sub.length) = cs.drop (m' + sub.length) := by
            rw [show m' + 1 + sub.length = (m' + sub.length) + 1 by omega]
            rfl
          rw [this, List.take_succ_cons, List.cons_append, List.cons_append, ← h1]
        · intro A B hAB
          cases A with
          | nil =>
            exfalso
            apply hp
            rw [List.isPrefixOf_iff_prefix]
            exact ⟨B, by simpa using hAB.symm⟩
          | cons a A' =>
            simp only [List.cons_append, List.cons.injEq] at hAB
            have := h2 A' B hAB.2
            simp only [List.length_cons]
            omega

theorem Index_none {s sub : Str} (h : Index s sub = none) : ¬ sub <:+: s := by
  induction s with
  | nil =>
    simp only [Index] at h
    split at h
    · simp at h
    · rename_i he
      intro hin
      have : sub = [] := List.eq_nil_of_infix_nil hin
      simp [this] at he
  | cons c cs ih =>
    simp only [Index] at h
    split at h
    · simp at h
    · rename_i hp
      cases hi : Index cs sub with
      | some m' => simp [hi] at h
      | none =>
        intro hin
        rcases List.infix_cons_iff.mp hin with h1 | h1
        · exact hp (List.isPrefixOf_iff_prefix.mpr h1)
        · exact ih hi h1

theorem Index_of_occurrence (A sub B : Str) :
    ∃ m, Index (A ++ sub ++ B) sub = some m ∧ m ≤ A.length := by
  cases hi : Index (A ++ sub ++ B) sub with
  | none =>
    exact absurd ⟨A, B, rfl⟩ (Index_none hi)
  | some m => exact ⟨m, rfl, (Index_some hi).2.2 A B rfl⟩

theorem Index_length {s sub : Str} {m : Nat} (h : Index s sub = some m) :
    m + sub.length ≤ s.length := (Index_some h).2.1

theorem NoOverlap_aab (a b : Char) (hab : a ≠ b) : NoOverlap [a, a, b] := by
  intro A
  induction A with
  | nil =>
    intro B A' B' h hlt
    match A', h, hlt with
    | [x], h, _ =>
      simp only [List.nil_append, List.cons_append, List.cons.injEq] at h
      exact absurd h.2.2.1.symm hab
    | [x, y], h, _ =>
      simp only [List.nil_append, List.cons_append, List.cons.injEq] at h
      exact absurd h.2.2.1.symm hab
    | x :: y :: z :: rest, _, _ => simp
  | cons c A ih =>
    intro B A' B' h hlt
    cases A' with
    | nil => simp at hlt
    | cons c' A'' =>
      simp only [List.cons_append, List.cons.injEq] at h
      have := ih B A'' B' (by simpa using h.2) (by simpa using hlt)
      simp only [List.length_cons] at this ⊢
      omega

theorem NoOverlap_openRef : NoOverlap openRef :=
  NoOverlap_aab (Char.ofNat 123) '.' (by decide)

theorem splitLoop_head (sep : Str) (hno : NoOverlap sep) (fuel : Nat)
    (part post : Str) (hfuel : (part ++ post).length ≤ fuel)
    (hpost : post = [] ∨ sep <+: post) (hpart : ¬ sep <:+: part) :
    ∃ t, splitLoop sep fuel (part ++ post) = part :: t := by
  cases fuel with
  | zero =>
    have hnil : part ++ post = [] := List.length_eq_zero.mp (by omega)
    have hp : part = [] := (List.append_eq_nil.mp hnil).1
    have hq : post = [] := (List.append_eq_nil.mp hnil).2
    exact ⟨[], by simp [splitLoop, hp, hq]⟩
  | succ fuel =>
    simp only [splitLoop]
    cases hi : Index (part ++ post) sep with
    | none =>
      rcases hpost with hp | ⟨p', hp⟩
      · exact ⟨[], by simp [hp]⟩
      · exfalso
        apply Index_none hi
        exact ⟨part, p', by rw [← hp]; simp⟩
    | some m =>
      simp only
      obtain ⟨hdec, hml, hmin⟩ := Index_some hi
      rcases hpost with hp | ⟨p', hp⟩
      · exfalso
        apply hpart
        subst hp
        rw [List.append_nil] at hdec
        exact ⟨_, _, hdec.symm⟩
      · have hle : m ≤ part.length := hmin part p' (by rw [← hp]; simp)
        by_cases hlt : m < part.length
        · exfalso
          have hocc : (part ++ post).take m ++ sep ++ (part ++ post).drop (m + sep.length)
              = part ++ sep ++ p' := by
            rw [← hdec, ← hp]
            simp
          have hno' := hno _ _ _ _ hocc (by simp; omega)
          simp only [List.length_take, List.length_append] at hno'
          have hm : min m (part.length + post.length) = m := by omega
          rw [hm] at hno'
          apply hpart
          have hpre1 : (part ++ post).take m ++ sep <+: part ++ post :=
            ⟨(part ++ post).drop (m + sep.length), hdec.symm⟩
          have hpre2 : part <+: part ++ post := List.prefix_append _ _
          have hpre : (part ++ post).take m ++ sep <+: part :=
            List.prefix_of_prefix_length_le hpre1 hpre2 (by
              simp only [List.length_append, List.length_take]
              omega)
          obtain ⟨t, ht⟩ := hpre
          exact ⟨(part ++ post).take m, t, ht⟩
        · have hm : m = part.length := by omega
          subst hm
          refine ⟨splitLoop sep fuel ((part ++ post).drop (part.length + sep.length)), ?_⟩
          rw [List.take_left' rfl]

theorem splitLoop_first (sep : Str) (hsep : sep ≠ []) (fuel : Nat) (s : Str)
    (hfuel : s.length ≤ fuel) :
    ∃ first t post, splitLoop sep fuel s = first :: t ∧ s = first ++ post
      ∧ (post = [] ∨ sep <+: post) ∧ ¬ sep <:+: first := by
  have hnil : ¬ sep <:+: [] := fun h => hsep (List.eq_nil_of_infix_nil h)
  cases fuel with
  | zero =>
    have hs : s = [] := List.length_eq_zero.mp (by omega)
    subst hs
    exact ⟨[], [], [], rfl, rfl, Or.inl rfl, hnil⟩
  | succ fuel =>
    simp only [splitLoop]
    cases hi : Index s sep with
    | none => exact ⟨s, [], [], rfl, by simp, Or.inl rfl, Index_none hi⟩
    | some m =>
      obtain ⟨hdec, hml, hmin⟩ := Index_some hi
      refine ⟨s.take m, _, sep ++ s.drop (m + sep.length), rfl, ?_, Or.inr ⟨_, rfl⟩, ?_⟩
      · rw [← List.append_assoc]
        exact hdec
      · rintro ⟨A, B, hAB⟩
        have h1 : s = A ++ sep ++ (B ++ sep ++ s.drop (m + sep.length)) := by
          conv_lhs => rw [hdec, ← hAB]
          simp
        have h2 := hmin _ _ h1
        have h3 := congrArg List.length hAB
        simp only [List.length_append, List.length_take] at h3
        have h4 : 0 < sep.length := List.length_pos.mpr hsep
        omega

theorem splitLoop_tail_sound (sep : Str) (hsep : sep ≠ []) (fuel : Nat) (s part : Str)
    (hfuel : s.length ≤ fuel) (hin : part ∈ (splitLoop sep fuel s).tail) :
    ∃ pre post, s = pre ++ sep ++ part ++ post ∧ (post = [] ∨ sep <+: post)
      ∧ ¬ sep <:+: part := by
  induction fuel generalizing s with
  | zero => simp [splitLoop] at hin
  | succ fuel ih =>
    simp only [splitLoop] at hin
    cases hi : Index s sep with
    | none => simp [hi] at hin
    | some m =>
      simp only [hi, List.tail_cons] at hin
      obtain ⟨hdec, hml, _⟩ := Index_some hi
      have h4 : 0 < sep.length := List.length_pos.mpr hsep
      have hrest : (s.drop (m + sep.length)).length ≤ fuel := by
        simp only [List.length_drop]
        omega
      obtain ⟨first, t, post, hsplit, hfirst, hpost, hno⟩ :=
        splitLoop_first sep hsep fuel (s.drop (m + sep.length)) hrest
      rw [hsplit] at hin
      rcases List.mem_cons.mp hin with heq | hmem
      · subst heq
        refine ⟨s.take m, post, ?_, hpost, hno⟩
        conv_lhs => rw [hdec, hfirst]
        simp
      · have hmem' : part ∈ (splitLoop sep fuel (s.drop (m + sep.length))).tail := by
          rw [hsplit]
          exact hmem
        obtain ⟨pre', post', hdec', hpost', hno'⟩ := ih _ hrest hmem'
        refine ⟨s.take m ++ sep ++ pre', post', ?_, hpost', hno'⟩
        conv_lhs => rw [hdec, hdec']
        simp

theorem splitLoop_tail_complete (sep : Str) (hsep : sep ≠ []) (hno : NoOverlap sep)
    (fuel : Nat) (s pre part post : Str) (hfuel : s.length ≤ fuel)
    (hs : s = pre ++ sep ++ part ++ post) (hpost : post = [] ∨ sep <+: post)
    (hpart : ¬ sep <:+: part) : part ∈ (splitLoop sep fuel s).tail := by
  have h4 : 0 < sep.length := List.length_pos.mpr hsep
  induction fuel generalizing s pre with
  | zero =>
    have := congrArg List.length hs
    simp only [List.length_append] at this
    omega
  | succ fuel ih =>
    simp only [splitLoop]
    have hs' : s = pre ++ sep ++ (part ++ post) := by rw [hs]; simp
    obtain ⟨m, hi, hle⟩ : ∃ m, Index s sep = some m ∧ m ≤ pre.length := by
      rw [hs']
      exact Index_of_occurrence pre sep (part ++ post)
    obtain ⟨hdec, hml, _⟩ := Index_some hi
    simp only [hi, List.tail_cons]
    have hrest : (s.drop (m + sep.length)).length ≤ fuel := by
      simp only [List.length_drop]
      omega
    by_cases hlt : m < pre.length
    · have hocc : s.take m ++ sep ++ s.drop (m + sep.length) = pre ++ sep ++ (part ++ post) := by
        rw [← hdec, ← hs']
      have hlen := hno _ _ _ _ hocc (by
        simp only [List.length_take]
        omega)
      simp only [List.length_take] at hlen
      have hm : min m s.length = m := by omega
      rw [hm] at hlen
      have hdrop : s.drop (m + sep.length)
          = pre.drop (m + sep.length) ++ sep ++ part ++ post := by
        rw [hs]
        simp only [List.append_assoc]
        rw [List.drop_append_of_le_length hlen]
      exact List.mem_of_mem_tail (ih _ _ hrest hdrop)
    · have hm : m = pre.length := by omega
      have hdrop : s.drop (m + sep.length) = part ++ post := by
        rw [hs', hm, ← List.length_append, List.drop_left']
        rfl
      rw [hdrop]
      rw [hdrop] at hrest
      obtain ⟨t, ht⟩ := splitLoop_head sep hno fuel part post hrest hpost hpart
      rw [ht]
      exact List.mem_cons_self _ _

/-! ### The keys of a template -/

theorem GoMap.mem_keys_set {V : Type} (m : List (Str × V)) (k k' : Str) (v : V) :
    k' ∈ GoMap.keys (GoMap.set m k v) ↔ k' = k ∨ k' ∈ GoMap.keys m := by
  induction m with
  | nil => simp [GoMap.set, GoMap.keys]
  | cons e rest ih =>
    obtain ⟨k0, v0⟩ := e
    have hkeys : ∀ (x : Str × V) (l : List (Str × V)),
        GoMap.keys (x :: l) = x.1 :: GoMap.keys l := fun _ _ => rfl
    by_cases hk : k0 = k
    · subst hk
      simp only [GoMap.set, if_true, hkeys, List.mem_cons]
      tauto
    · simp only [GoMap.set, hk, if_false, hkeys, List.mem_cons, ih]
      tauto

theorem GoMap.nodup_keys_set {V : Type} (m : List (Str × V)) (k : Str) (v : V)
    (h : (GoMap.keys m).Nodup) : (GoMap.keys (GoMap.set m k v)).Nodup := by
  induction m with
  | nil => simp [GoMap.set, GoMap.keys]
  | cons e rest ih =>
    obtain ⟨k0, v0⟩ := e
    have hkeys : ∀ (x : Str × V) (l : List (Str × V)),
        GoMap.keys (x :: l) = x.1 :: GoMap.keys l := fun _ _ => rfl
    rw [hkeys, List.nodup_cons] at h
    by_cases hk : k0 = k
    · subst hk
      simp only [GoMap.set, if_true, hkeys, List.nodup_cons]
      exact h
    · simp only [GoMap.set, hk, if_false, hkeys, List.nodup_cons]
      refine ⟨?_, ih h.2⟩
      rw [GoMap.mem_keys_set]
      rintro (h1 | h1)
      · exact hk h1
      · exact h.1 h1

theorem extract_fold (parts : List Str) (acc : List (Str × Bool))
    (hnd : (GoMap.keys acc).Nodup) :
    (GoMap.keys (parts.foldl (fun keys part =>
        match Index part "\x7d\x7d".toList with
        | some idx => GoMap.set keys (TrimSpace (part.take idx)) true
        | none => keys) acc)).Nodup
    ∧ ∀ k, k ∈ GoMap.keys (parts.foldl (fun keys part =>
        match Index part "\x7d\x7d".toList with
        | some idx => GoMap.set keys (TrimSpace (part.take idx)) true
        | none => keys) acc)
      ↔ k ∈ GoMap.keys acc
        ∨ ∃ part ∈ parts, ∃ idx, Index part closeRef = some idx
            ∧ k = TrimSpace (part.take idx) := by
  induction parts generalizing acc with
  | nil => exact ⟨hnd, fun k => by simp⟩
  | cons p rest ih =>
    simp only [List.foldl_cons]
    cases hi : Index p "\x7d\x7d".toList with
    | none =>
      obtain ⟨h1, h2⟩ := ih acc hnd
      refine ⟨h1, fun k => ?_⟩
      rw [h2 k]
      constructor
      · rintro (h | ⟨part, hp, idx, hidx, hk⟩)
        · exact Or.inl h
        · exact Or.inr ⟨part, List.mem_cons_of_mem _ hp, idx, hidx, hk⟩
      · rintro (h | ⟨part, hp, idx, hidx, hk⟩)
        · exact Or.inl h
        · rcases List.mem_cons.mp hp with heq | hp'
          · subst heq
            have : Index part closeRef = none := hi
            rw [this] at hidx
            simp at hidx
          · exact Or.inr ⟨part, hp', idx, hidx, hk⟩
    | some i =>
      obtain ⟨h1, h2⟩ := ih (GoMap.set acc (TrimSpace (p.take i)) true)
        (GoMap.nodup_keys_set _ _ _ hnd)
      refine ⟨h1, fun k => ?_⟩
      rw [h2 k, GoMap.mem_keys_set]
      constructor
      · rintro ((h | h) | ⟨part, hp, idx, hidx, hk⟩)
        · exact Or.inr ⟨p, List.mem_cons_self _ _, i, hi, h⟩
        · exact Or.inl h
        · exact Or.inr ⟨part, List.mem_cons_of_mem _ hp, idx, hidx, hk⟩
      · rintro (h | ⟨part, hp, idx, hidx, hk⟩)
        · exact Or.inl (Or.inr h)
        · rcases List.mem_cons.mp hp with heq | hp'
          · subst heq
            have : Index part closeRef = some i := hi
            rw [this] at hidx
            simp only [Option.some.injEq] at hidx
            subst hidx
            exact Or.inl (Or.inl hk)
          · exact Or.inr ⟨part, hp', idx, hidx, hk⟩

theorem closed_name_iff (part : Str) (k : Str) :
    (∃ idx, Index part closeRef = some idx ∧ k = TrimSpace (part.take idx))
      ↔ ∃ name rest, part = name ++ closeRef ++ rest
          ∧ ¬ closeRef <:+: name ++ [Char.ofNat 125] ∧ k = TrimSpace name := by
  have hclose : closeRef = [Char.ofNat 125, Char.ofNat 125] := by decide
  constructor
  · rintro ⟨idx, hidx, hk⟩
    obtain ⟨hdec, hlen, hmin⟩ := Index_some hidx
    refine ⟨part.take idx, part.drop (idx + closeRef.length), hdec, ?_, hk⟩
    rintro ⟨A, B, hAB⟩
    have h1 : part = A ++ closeRef ++ (B ++ [Char.ofNat 125]
        ++ part.drop (idx + closeRef.length)) := by
      conv_lhs => rw [hdec]
      have : part.take idx ++ closeRef
          = (part.take idx ++ [Char.ofNat 125]) ++ [Char.ofNat 125] := by
        rw [hclose]
        simp
      rw [this, ← hAB]
      simp
    have h2 := hmin _ _ h1
    have h3 := congrArg List.length hAB
    simp only [List.length_append, List.length_take, List.length_singleton, hclose,
      List.length_cons, List.length_nil] at h3 hlen
    omega
  · rintro ⟨name, rest, hdec, hfirst, hk⟩
    obtain ⟨m, hi, hle⟩ : ∃ m, Index part closeRef = some m ∧ m ≤ name.length := by
      rw [hdec]
      exact Index_of_occurrence name closeRef rest
    refine ⟨m, hi, ?_⟩
    obtain ⟨hdec', hlen, _⟩ := Index_some hi
    by_cases hlt : m < name.length
    · exfalso
      apply hfirst
      have hpre1 : part.take m ++ closeRef <+: part :=
        ⟨part.drop (m + closeRef.length), hdec'.symm⟩
      have hpre2 : name ++ [Char.ofNat 125] <+: part := by
        refine ⟨Char.ofNat 125 :: rest, ?_⟩
        rw [hdec, hclose]
        simp
      have hpre : part.take m ++ closeRef <+: name ++ [Char.ofNat 125] :=
        List.prefix_of_prefix_length_le hpre1 hpre2 (by
          simp only [List.length_append, List.length_take, List.length_singleton, hclose,
            List.length_cons, List.length_nil] at hlen ⊢
          omega)
      obtain ⟨t, ht⟩ := hpre
      exact ⟨part.take m, t, ht⟩
    · have hm : m = name.length := by omega
      rw [hk, hm, hdec, List.append_assoc, List.take_left' rfl]

/-- C13, as stated, fails: in the text `{{.a {{.b}} }}` the first `{{.` is followed by
a `}}`, so the text between them, `a {{.b`, is the name of a reference in the words of
the claim, yet ExtractTemplateKeys returns only `b`: a `{{.` that is followed by another
`{{.` before any `}}` is skipped. -/
theorem extractKeys_skips_reopened_reference :
    extractKeys "\x7b\x7b.a \x7b\x7b.b\x7d\x7d \x7d\x7d".toList = ["b".toList]
    ∧ referenceNames "\x7b\x7b.a \x7b\x7b.b\x7d\x7d \x7d\x7d".toList
        = ["a \x7b\x7b.b".toList, "b".toList]
    ∧ "a \x7b\x7b.b".toList ∉ extractKeys "\x7b\x7b.a \x7b\x7b.b\x7d\x7d \x7d\x7d".toList := by
  decide

/-- C13, amended: for every template text the result of ExtractTemplateKeys has no
duplicate and, as a set, is the set of the trimmed names of the references whose `}}`
comes before the next `{{.`: a key is the trimmed text between a `{{.` and the first
`}}` in the part of the text that runs from this `{{.` to the next `{{.` or to the end;
the greeting text gives the keys name and age, and a text without `{{.` gives no key. -/
theorem extractKeys_closed_references (text : Str) :
    (extractKeys text).Nodup
    ∧ (∀ k, k ∈ extractKeys text ↔
        ∃ pre part post name rest, text = pre ++ openRef ++ part ++ post
          ∧ (post = [] ∨ openRef <+: post) ∧ ¬ openRef <:+: part
          ∧ part = name ++ closeRef ++ rest
          ∧ ¬ closeRef <:+: name ++ [Char.ofNat 125] ∧ k = TrimSpace name)
    ∧ extractKeys "Hi \x7b\x7b.name\x7d\x7d, you are \x7b\x7b.age\x7d\x7d".toList
        = ["name".toList, "age".toList]
    ∧ (¬ openRef <:+: text → extractKeys text = []) := by
  have hsep : openRef ≠ [] := by decide
  have hsplit : Split text "\x7b\x7b.".toList = splitLoop openRef text.length text := by
    simp [Split, openRef]
  have hfold := extract_fold (Split text "\x7b\x7b.".toList).tail [] (by simp [GoMap.keys])
  have hmem : ∀ k, k ∈ extractKeys text ↔
      ∃ part ∈ (splitLoop openRef text.length text).tail, ∃ idx,
        Index part closeRef = some idx ∧ k = TrimSpace (part.take idx) := by
    intro k
    unfold extractKeys
    simp only
    rw [hfold.2 k, hsplit]
    simp [GoMap.keys]
  refine ⟨hfold.1, ?_, by decide, ?_⟩
  · intro k
    rw [hmem k]
    constructor
    · rintro ⟨part, hin, hidx⟩
      obtain ⟨pre, post, hdec, hpost, hno⟩ :=
        splitLoop_tail_sound openRef hsep _ text part (Nat.le_refl _) hin
      obtain ⟨name, rest, h1, h2, h3⟩ := (closed_name_iff part k).mp hidx
      exact ⟨pre, part, post, name, rest, hdec, hpost, hno, h1, h2, h3⟩
    · rintro ⟨pre, part, post, name, rest, hdec, hpost, hno, h1, h2, h3⟩
      refine ⟨part, ?_, (closed_name_iff part k).mpr ⟨name, rest, h1, h2, h3⟩⟩
      exact splitLoop_tail_complete openRef hsep NoOverlap_openRef _ text pre part post
        (Nat.le_refl _) hdec hpost hno
  · intro hnone
    have hall : ∀ k, k ∉ extractKeys text := by
      intro k hk
      obtain ⟨part, hin, _⟩ := (hmem k).mp hk
      obtain ⟨pre, post, hdec, _, _⟩ :=
        splitLoop_tail_sound openRef hsep _ text part (Nat.le_refl _) hin
      apply hnone
      exact ⟨pre, part ++ post, by rw [hdec]; simp⟩
    exact List.eq_nil_iff_forall_not_mem.mpr hall

/-- The key theorem applied to the greeting text: the key name comes from the reference
that follows `Hi `, whose part ends before the second `{{.`. -/
theorem extractKeys_closed_references_witness :
    "name".toList ∈ extractKeys "Hi \x7b\x7b.name\x7d\x7d, you are \x7b\x7b.age\x7d\x7d".toList
    ∧ (¬ openRef <:+: "plain text".toList → extractKeys "plain text".toList = []) :=
  ⟨((extractKeys_closed_references
      "Hi \x7b\x7b.name\x7d\x7d, you are \x7b\x7b.age\x7d\x7d".toList).2.1 "name".toList).mpr
      ⟨"Hi ".toList, "name\x7d\x7d, you are ".toList, "\x7b\x7b.age\x7d\x7d".toList,
        "name".toList, ", you are ".toList, by decide, by decide, by decide, by decide,
        by decide, by decide⟩,
    (extractKeys_closed_references "plain text".toList).2.2.2⟩

theorem extractKeys_nodup (text : Str) : (extractKeys text).Nodup :=
  (extract_fold (Split text "\x7b\x7b.".toList).tail [] (by simp [GoMap.keys])).1

/-- C14: when the template can be read, so that ExtractTemplateKeys returns its keys,
ValidateTemplateData succeeds if and only if every extracted key is a key of the data;
when it fails, the one error it returns lists the missing keys, which are exactly the
extracted keys that are not keys of the data, each once. -/
theorem ValidateTemplateData_reports_missing_keys (fs : FS) (templatePath : Str)
    (data : List (Str × Str)) (keys : List Str)
    (hkeys : ExtractTemplateKeys fs templatePath = .ok keys) :
    (ValidateTemplateData fs templatePath data = .ok ()
      ↔ ∀ k ∈ keys, GoMap.get data k ≠ none)
    ∧ (ValidateTemplateData fs templatePath data ≠ .ok () →
        ∃ missing : List Str,
          ValidateTemplateData fs templatePath data
            = .error ("missing required data keys: " ++ formatErrors (missing.map String.mk))
          ∧ missing.Nodup
          ∧ ∀ k, k ∈ missing ↔ k ∈ keys ∧ GoMap.get data k = none) := by
  have hnd : keys.Nodup := by
    unfold ExtractTemplateKeys at hkeys
    cases hr : fs.readFile templatePath with
    | error e => simp [hr] at hkeys
    | ok content =>
      simp only [hr, Except.ok.injEq] at hkeys
      rw [← hkeys]
      exact extractKeys_nodup content
  have hmem : ∀ k, k ∈ keys.filter (fun k => (GoMap.get data k).isNone)
      ↔ k ∈ keys ∧ GoMap.get data k = none := by
    intro k
    simp [List.mem_filter]
  unfold ValidateTemplateData
  simp only [hkeys]
  by_cases hpos : (keys.filter (fun k => (GoMap.get data k).isNone)).length > 0
  · simp only [hpos, if_true]
    refine ⟨?_, ?_⟩
    · constructor
      · intro h
        simp at h
      · intro hall
        obtain ⟨k, hk⟩ := List.exists_mem_of_length_pos hpos
        obtain ⟨hk1, hk2⟩ := (hmem k).mp hk
        exact absurd hk2 (hall k hk1)
    · intro _
      exact ⟨_, rfl, hnd.filter _, hmem⟩
  · simp only [hpos, if_false]
    refine ⟨?_, fun h => absurd rfl h⟩
    constructor
    · intro _ k hk hnone
      have : k ∈ keys.filter (fun k => (GoMap.get data k).isNone) := (hmem k).mpr ⟨hk, hnone⟩
      exact hpos (List.length_pos_of_mem this)
    · intro _
      trivial

/-- The missing-key theorem applied to the greeting template and data with the key name
only: the validation fails and reports the one missing key, age. -/
theorem ValidateTemplateData_reports_missing_keys_witness :
    ExtractTemplateKeys diskGreeting "/srv/hi.tmpl".toList
        = .ok ["name".toList, "age".toList]
    ∧ ValidateTemplateData diskGreeting "/srv/hi.tmpl".toList [("name".toList, "Ann".toList)]
        = .error "missing required data keys: [age]"
    ∧ ¬ (∀ k ∈ ["name".toList, "age".toList],
        GoMap.get [("name".toList, "Ann".toList)] k ≠ none) := by
  have h := ValidateTemplateData_reports_missing_keys diskGreeting "/srv/hi.tmpl".toList
    [("name".toList, "Ann".toList)] ["name".toList, "age".toList] (by decide)
  have hfail : ValidateTemplateData diskGreeting "/srv/hi.tmpl".toList
      [("name".toList, "Ann".toList)] = .error "missing required data keys: [age]" := by decide
  refine ⟨by decide, hfail, ?_⟩
  intro hall
  have := h.1.mpr hall
  rw [hfail] at this
  simp at this

/-! ### The last element of a cleaned path -/

theorem cleanBacktrack_suffix (dotdot : Nat) (out : Str) (h : out.length > dotdot) :
    ∃ pre, out = pre ++ cleanBacktrack dotdot out
      ∧ dotdot ≤ (cleanBacktrack dotdot out).length := by
  induction out with
  | nil => simp at h
  | cons c out ih =>
    simp only [cleanBacktrack]
    by_cases hc : out.length > dotdot ∧ c ≠ '/'
    · rw [if_pos hc]
      obtain ⟨pre, hpre, hlen⟩ := ih hc.1
      exact ⟨c :: pre, by simp [← hpre], hlen⟩
    · rw [if_neg hc]
      simp only [List.length_cons] at h
      exact ⟨[c], rfl, by omega⟩

theorem getLast?_suffix (pre s : Str) (x : Char) (hs : s ≠ [])
    (h : (pre ++ s).getLast? = some x) : s.getLast? = some x := by
  rw [List.getLast?_append_of_ne_nil _ hs] at h
  exact h

theorem cleanLoop_last_elem (rooted : Bool) (n : Str) (hn : NormalElem n) (fuel : Nat)
    (out : Str) (dotdot : Nat) (hfuel : 1 ≤ fuel) (hinv : CleanInv rooted out dotdot) :
    EndsWithElem (cleanLoop rooted fuel n out dotdot) n := by
  obtain ⟨hne, hslash, hdot, hdotdot⟩ := hn
  cases fuel with
  | zero => omega
  | succ fuel =>
    cases n with
    | nil => exact absurd rfl hne
    | cons c rest =>
      have hc : c ≠ '/' := fun h => hslash (by simp [h])
      have hrest : '/' ∉ rest := fun h => hslash (List.mem_cons_of_mem _ h)
      have h2 : ¬ (c = '.' ∧ (rest = [] ∨ rest.head? = some '/')) := by
        rintro ⟨h, h' | h'⟩
        · exact hdot (by rw [h, h'])
        · cases rest with
          | nil => simp at h'
          | cons d r =>
            simp only [List.head?_cons, Option.some.injEq] at h'
            exact hrest (by simp [h'])
      have h3 : ¬ (c = '.' ∧ rest.head? = some '.'
          ∧ (rest.tail = [] ∨ rest.tail.head? = some '/')) := by
        rintro ⟨h, hh, h' | h'⟩
        · cases rest with
          | nil => simp at hh
          | cons d r =>
            simp only [List.head?_cons, Option.some.injEq] at hh
            simp only [List.tail_cons] at h'
            exact hdotdot (by rw [h, hh, h'])
        · cases rest with
          | nil => simp at hh
          | cons d r =>
            simp only [List.tail_cons] at h'
            cases r with
            | nil => simp at h'
            | cons e r' =>
              simp only [List.head?_cons, Option.some.injEq] at h'
              exact hrest (by simp [h'])
      have htake : (c :: rest).takeWhile (fun x => x != '/') = c :: rest := by
        rw [List.takeWhile_eq_self_iff]
        intro x hx
        have : x ≠ '/' := fun h => hslash (h ▸ hx)
        simpa using this
      have hdrop : (c :: rest).dropWhile (fun x => x != '/') = [] := by
        rw [List.dropWhile_eq_nil_iff]
        intro x hx
        have : x ≠ '/' := fun h => hslash (h ▸ hx)
        simpa using this
      simp only [cleanLoop]
      rw [if_neg hc, if_neg h2, if_neg h3, htake, hdrop]
      have hend : ∀ f o d, cleanLoop rooted f [] o d = o := by
        intro f o d
        cases f <;> simp [cleanLoop]
      rw [hend]
      refine ⟨_, rfl, ?_⟩
      cases rooted with
      | false =>
        by_cases hl : out.length = 0
        · left
          have : out = [] := List.length_eq_zero.mp hl
          simp [this]
        · right
          exact ⟨out, by simp [hl]⟩
      | true =>
        obtain ⟨_, hlast⟩ := hinv rfl
        by_cases hl : out.length = 1
        · right
          match out, hl, hlast with
          | [x], _, hlast =>
            simp only [List.getLast?_singleton, Option.some.injEq] at hlast
            exact ⟨[], by simp [hlast]⟩
        · right
          exact ⟨out, by simp [hl]⟩

theorem CleanInv.backtrack (rooted : Bool) (out : Str) (dotdot : Nat)
    (hinv : CleanInv rooted out dotdot) (h : out.length > dotdot) :
    CleanInv rooted (cleanBacktrack dotdot out) dotdot := by
  intro hr
  obtain ⟨hd, hlast⟩ := hinv hr
  obtain ⟨pre, hpre, hlen⟩ := cleanBacktrack_suffix dotdot out h
  refine ⟨hd, ?_⟩
  have hne : cleanBacktrack dotdot out ≠ [] := by
    intro h0
    rw [h0] at hlen
    simp at hlen
    omega
  rw [hpre] at hlast
  exact getLast?_suffix _ _ _ hne hlast

theorem CleanInv.element (rooted : Bool) (out elem : Str) (dotdot : Nat)
    (hinv : CleanInv rooted out dotdot) :
    CleanInv rooted (elem.reverse ++
      (if (rooted && out.length != 1) || (!rooted && out.length != 0) then '/' :: out
        else out)) dotdot := by
  intro hr
  obtain ⟨hd, hlast⟩ := hinv hr
  refine ⟨hd, ?_⟩
  have hne : out ≠ [] := by
    intro h0
    rw [h0] at hlast
    simp at hlast
  split
  · rw [List.getLast?_append_of_ne_nil _ (by simp)]
    obtain ⟨x, xs, rfl⟩ := List.exists_cons_of_ne_nil hne
    rw [List.getLast?_cons_cons]
    exact hlast
  · rw [List.getLast?_append_of_ne_nil _ hne]
    exact hlast

theorem dropWhile_to_slash (a n : Str) :
    (a ++ '/' :: n).dropWhile (fun x => x != '/')
      = a.dropWhile (fun x => x != '/') ++ '/' :: n := by
  induction a with
  | nil => simp
  | cons d r ih =>
    by_cases hd : d = '/'
    · simp [hd]
    · rw [List.cons_append, List.dropWhile_cons, List.dropWhile_cons,
        if_pos (by simpa using hd), if_pos (by simpa using hd)]
      exact ih

theorem cleanLoop_ends (rooted : Bool) (n : Str) (hn : NormalElem n) :
    ∀ (fuel : Nat) (inp out : Str) (dotdot : Nat),
      inp.length + n.length + 1 ≤ fuel → CleanInv rooted out dotdot →
      EndsWithElem (cleanLoop rooted fuel (inp ++ '/' :: n) out dotdot) n := by
  have hlen : 1 ≤ n.length := by
    cases n with
    | nil => exact absurd rfl hn.1
    | cons _ _ => simp
  intro fuel
  induction fuel with
  | zero => intro inp out dotdot hf; omega
  | succ fuel ih =>
    intro inp out dotdot hf hinv
    cases inp with
    | nil =>
      simp only [List.nil_append, cleanLoop, if_true]
      simp only [List.length_nil] at hf
      exact cleanLoop_last_elem rooted n hn fuel out dotdot (by omega) hinv
    | cons c inp' =>
      simp only [List.length_cons] at hf
      rw [List.cons_append]
      generalize hrest : inp' ++ '/' :: n = rest
      simp only [cleanLoop]
      by_cases h1 : c = '/'
      · rw [if_pos h1, ← hrest]
        exact ih inp' out dotdot (by omega) hinv
      · rw [if_neg h1]
        split
        · rw [← hrest]
          exact ih inp' out dotdot (by omega) hinv
        · split
          next h3 =>
            obtain ⟨_, hh, _⟩ := h3
            cases inp' with
            | nil =>
              rw [← hrest] at hh
              simp at hh
            | cons d inp'' =>
              simp only [List.length_cons] at hf
              rw [← hrest, List.cons_append, List.tail_cons]
              split
              next h4 =>
                exact ih inp'' _ dotdot (by omega) (CleanInv.backtrack rooted out dotdot hinv h4)
              next h4 =>
                cases rooted with
                | true => exact ih inp'' out dotdot (by omega) hinv
                | false =>
                  simp only [Bool.false_eq_true, if_false]
                  exact ih inp'' _ _ (by omega) (fun h => by simp at h)
          next h3 =>
            have hdw : (c :: rest).dropWhile (fun x => x != '/')
                = (inp'.dropWhile (fun x => x != '/')) ++ '/' :: n := by
              rw [List.dropWhile_cons, if_pos (by simpa using h1), ← hrest]
              exact dropWhile_to_slash inp' n
            rw [hdw]
            have hle : (inp'.dropWhile (fun x => x != '/')).length ≤ inp'.length :=
              (List.dropWhile_sublist _).length_le
            exact ih _ _ dotdot (by omega) (CleanInv.element rooted out _ dotdot hinv)

theorem lastElem_of_ends (out n : Str) (hn : '/' ∉ n) (h : EndsWithElem out n) :
    lastElem out.reverse = n := by
  obtain ⟨o, rfl, ho⟩ := h
  have hall : ∀ a ∈ n.reverse, (fun c => c != '/') a = true := by
    intro a ha
    have : a ≠ '/' := fun h => hn (h ▸ List.mem_reverse.mp ha)
    simpa using this
  unfold lastElem
  rw [List.reverse_reverse, List.takeWhile_append_of_pos hall]
  rcases ho with rfl | ⟨o', rfl⟩ <;> simp

theorem Clean_ne_nil (path : Str) : Clean path ≠ [] := by
  have aux : ∀ out : Str, (if out.isEmpty then ['.'] else out.reverse) ≠ [] := by
    intro out
    cases out <;> simp
  unfold Clean
  cases path with
  | nil => simp
  | cons c rest => exact aux _

theorem lastElem_Clean (inp n : Str) (hn : NormalElem n) :
    lastElem (Clean (inp ++ '/' :: n)) = n := by
  have hlen : 1 ≤ n.length := by
    cases n with
    | nil => exact absurd rfl hn.1
    | cons _ _ => simp
  have key : ∀ out, EndsWithElem out n →
      lastElem (if out.isEmpty then ['.'] else out.reverse) = n := by
    intro out h
    have hne : out.isEmpty = false := by
      obtain ⟨o, rfl, _⟩ := h
      cases n with
      | nil => exact absurd rfl hn.1
      | cons _ _ => simp
    rw [hne]
    exact lastElem_of_ends out n hn.2.1 h
  cases inp with
  | nil =>
    simp only [List.nil_append, Clean, if_true]
    exact key _ (cleanLoop_last_elem true n hn _ _ _ (by simp) (fun _ => ⟨rfl, rfl⟩))
  | cons c inp' =>
    simp only [List.cons_append, Clean]
    by_cases hc : c = '/'
    · rw [if_pos hc]
      exact key _ (cleanLoop_ends true n hn _ inp' _ _ (by simp) (fun _ => ⟨rfl, rfl⟩))
    · rw [if_neg hc]
      exact key _ (cleanLoop_ends false n hn _ (c :: inp') _ _ (by simp; omega) (fun h => by simp at h))

theorem Join_pair (d n : Str) (hd : d ≠ []) (hn : n ≠ []) :
    Join [d, n] = Clean (d ++ '/' :: n) := by
  cases d with
  | nil => exact absurd rfl hd
  | cons a d' =>
    cases n with
    | nil => exact absurd rfl hn
    | cons b n' => simp [Join]

theorem lastElem_no_slash (path : Str) : '/' ∉ lastElem path := by
  unfold lastElem
  intro h
  have h1 := List.mem_takeWhile_imp (List.mem_reverse.mp h)
  simp at h1

theorem lastElem_cases (path : Str) : lastElem path = [] ∨ lastElem path = Base path := by
  unfold lastElem Base stripTrailingSlashes
  rcases hrev : path.reverse with _ | ⟨x, r⟩
  · left; simp
  · have hne : path.isEmpty = false := by
      cases path with
      | nil => simp at hrev
      | cons _ _ => rfl
    by_cases hx : x = '/'
    · left; simp [hx]
    · right
      rw [hne]
      simp [List.dropWhile_cons, List.takeWhile_cons, hx]

theorem Base_slash (path : Str) : '/' ∉ Base path ∨ Base path = ['/'] := by
  unfold Base
  split
  · left; simp
  · simp only
    split
    · right; rfl
    · left
      intro h
      have h1 := List.mem_takeWhile_imp (List.mem_reverse.mp h)
      simp at h1

/-- The path of a backup is never the path of the file it backs up: its last element is
longer. -/
theorem backupPath_ne (d filePath stamp : Str) (hd : d ≠ []) (hstamp : '/' ∉ stamp) :
    Join [d, Base filePath ++ "_".toList ++ stamp ++ ".bak".toList] ≠ filePath := by
  intro heq
  have htail : NormalElem ('_' :: (stamp ++ ".bak".toList)) := by
    refine ⟨by simp, ?_, ?_, ?_⟩
    · simp [hstamp]
    · simp
    · intro h
      have := congrArg List.length h
      simp at this
  rw [Join_pair d _ hd (by simp)] at heq
  rcases Base_slash filePath with hb | hb
  · have hname : NormalElem (Base filePath ++ '_' :: (stamp ++ ".bak".toList)) := by
      refine ⟨by simp, ?_, ?_, ?_⟩
      · simp [hb, hstamp]
      · intro h
        have := congrArg List.length h
        simp at this
        omega
      · intro h
        have := congrArg List.length h
        simp at this
        omega
    have hl := lastElem_Clean d _ hname
    have hin : d ++ '/' :: (Base filePath ++ "_".toList ++ stamp ++ ".bak".toList)
        = d ++ '/' :: (Base filePath ++ '_' :: (stamp ++ ".bak".toList)) := by simp
    rw [hin] at heq
    rw [heq] at hl
    rcases lastElem_cases filePath with h0 | h0
    · rw [h0] at hl
      simp at hl
    · rw [h0] at hl
      have := congrArg List.length hl
      simp at this
  · have hl := lastElem_Clean (d ++ ['/']) _ htail
    have hin : d ++ '/' :: (Base filePath ++ "_".toList ++ stamp ++ ".bak".toList)
        = (d ++ ['/']) ++ '/' :: '_' :: (stamp ++ ".bak".toList) := by simp [hb]
    rw [hin] at heq
    rw [heq] at hl
    have hns := lastElem_no_slash filePath
    rcases lastElem_cases filePath with h0 | h0
    · rw [h0] at hl
      simp at hl
    · rw [h0, hb] at hns
      simp at hns

/-! ### What the cleanup and the backup leave on disk -/

theorem CleanupOldBackups_keeps (fs : FS) (now : Int) (filePath : Str) (maxAge : Int)
    (p : Str) (n : Node) (hget : GoMap.get fs p = some n) (hage : now - n.modTime ≤ maxAge) :
    GoMap.get (CleanupOldBackups fs now filePath maxAge).1 p = some n := by
  have step : ∀ (backups : List Str) (acc : FS × Except String Unit),
      GoMap.get acc.1 p = some n →
      GoMap.get (backups.foldl (fun acc backup =>
        match acc with
        | (fs, .error err) => (fs, .error err)
        | (fs, .ok ()) =>
          match fs.stat backup with
          | .error _ => (fs, .ok ())
          | .ok modTime =>
            if now - modTime > maxAge then
              match fs.remove backup with
              | .error err =>
                (fs, .error ("error removing old backup " ++ quote backup ++ ": " ++ err))
              | .ok fs => (fs, .ok ())
            else (fs, .ok ())) acc).1 p = some n := by
    intro backups
    induction backups with
    | nil => intro acc h; exact h
    | cons b bs ih =>
      intro acc h
      rw [List.foldl_cons]
      apply ih
      obtain ⟨fs0, r⟩ := acc
      simp only at h
      cases r with
      | error e => exact h
      | ok u =>
        simp only
        by_cases hbp : b = p
        · subst hbp
          have hs : FS.stat fs0 b = .ok n.modTime := by simp [FS.stat, h]
          simp only [hs]
          rw [if_neg (by omega)]
          exact h
        · cases hg : GoMap.get fs0 b with
          | none =>
            simp only [FS.stat, hg]
            exact h
          | some nb =>
            simp only [FS.stat, hg, FS.remove]
            split
            · rw [GoMap.get_delete_other _ _ _ (Ne.symm hbp)]
              exact h
            · exact h
  unfold CleanupOldBackups
  simp only
  split
  · exact hget
  · exact step _ _ hget

theorem writeFile_ok (fs fs1 : FS) (path data : Str) (now : Int)
    (h : fs.writeFile path data now = .ok fs1) :
    fs1 = GoMap.set fs path (.file data now) := by
  unfold FS.writeFile at h
  split at h
  · simp at h
  · simp only [Except.ok.injEq] at h
    exact h.symm

theorem BackupFile_ok (h : Host) (fs fsb : FS) (now m : Int) (filePath : Str)
    (hs : fs.stat filePath = .ok m)
    (hb : BackupFile h fs now filePath = (fsb, .ok ())) :
    ∃ old, fs.readFile filePath = .ok old
      ∧ GoMap.get fsb (Join [backupDirOf filePath,
          Base filePath ++ "_".toList ++ h.stamp now ++ ".bak".toList])
        = some (.file old now) := by
  have hex : ∃ nf, GoMap.get fs filePath = some nf := by
    unfold FS.stat at hs
    cases hg : GoMap.get fs filePath with
    | none => rw [hg] at hs; simp at hs
    | some nf => exact ⟨nf, rfl⟩
  obtain ⟨nf, hnf⟩ := hex
  unfold BackupFile at hb
  simp only [hs] at hb
  cases hmk : fs.mkdirAll (backupDirOf filePath) now with
  | error e => simp [hmk] at hb
  | ok fs1 =>
    simp only [hmk] at hb
    have hread : fs1.readFile filePath = fs.readFile filePath := by
      unfold FS.mkdirAll at hmk
      cases hg : GoMap.get fs (backupDirOf filePath) with
      | none =>
        simp only [hg, Except.ok.injEq] at hmk
        subst hmk
        have hne : filePath ≠ backupDirOf filePath := by
          intro he
          rw [← he, hnf] at hg
          simp at hg
        unfold FS.readFile
        rw [GoMap.get_set_other _ _ _ _ hne]
      | some nd =>
        cases nd with
        | file c t => simp [hg] at hmk
        | dir t =>
          simp only [hg, Except.ok.injEq] at hmk
          rw [hmk]
    cases hr : fs1.readFile filePath with
    | error e => simp [hr] at hb
    | ok old =>
      simp only [hr] at hb
      refine ⟨old, by rw [← hread, hr], ?_⟩
      split at hb
      · simp at hb
      · rename_i f2 hwr
        simp only [Prod.mk.injEq, and_true] at hb
        subst hb
        rw [writeFile_ok _ _ _ _ _ hwr]
        exact GoMap.get_set_self _ _ _

/-- C11: whenever WriteToFile returns success (the time stamp being free of slashes, as
the layout 20060102_150405 makes it), the destination holds exactly the given content
afterwards, and if the destination existed before the call then its prior bytes could be
read and the file named <basename>_<timestamp>.bak in the sibling .templater_backups
directory holds exactly those bytes afterwards. -/
theorem WriteToFile_success_writes_and_backs_up (h : Host) (io : Faults) (fs : FS)
    (now : Int) (filePath content : Str) (hstamp : '/' ∉ h.stamp now)
    (hok : (WriteToFile h io fs now filePath content).2 = .ok ()) :
    (WriteToFile h io fs now filePath content).1.readFile filePath = .ok content
    ∧ (∀ m, fs.stat filePath = .ok m →
        ∃ old, fs.readFile filePath = .ok old
          ∧ (WriteToFile h io fs now filePath content).1.readFile
              (Join [backupDirOf filePath,
                Base filePath ++ "_".toList ++ h.stamp now ++ ".bak".toList])
            = .ok old) := by
  have hage : ∀ c : Str, now - (Node.file c now).modTime ≤ 7 * 24 * (3600 * 1000000000) := by
    intro c
    simp [Node.modTime]
  have hdir : backupDirOf filePath ≠ [] := by
    unfold backupDirOf
    rw [Join_pair (Dir filePath) ".templater_backups".toList
      (by unfold Dir; exact Clean_ne_nil _) (by decide)]
    exact Clean_ne_nil _
  unfold WriteToFile at hok ⊢
  simp only at hok ⊢
  cases hv : ValidateOutputPath h.cwd fs filePath [Dir filePath] with
  | error e => simp [hv] at hok
  | ok u =>
    cases hb : BackupFile h fs now filePath with
    | mk fsb rb =>
      cases rb with
      | error e => simp [hv, hb] at hok
      | ok u2 =>
        cases hio : io.write with
        | some e =>
          simp only [hv, hb, hio] at hok
          obtain ⟨_, msg, hm, _⟩ := restoreAfter_spec fsb now filePath "write error: " e
          rw [hm] at hok
          simp at hok
        | none =>
          cases hw : fsb.writeFile filePath content now with
          | error e =>
            simp only [hv, hb, hio, hw] at hok
            obtain ⟨_, msg, hm, _⟩ := restoreAfter_spec fsb now filePath "write error: " e
            rw [hm] at hok
            simp at hok
          | ok fsw =>
            cases hvf : VerifyFileIntegrity io fsw filePath content with
            | error e =>
              simp only [hv, hb, hio, hw, hvf] at hok
              obtain ⟨_, msg, hm, _⟩ :=
                restoreAfter_spec fsw now filePath "integrity check failed: " e
              rw [hm] at hok
              simp at hok
            | ok u3 =>
              simp only [hv, hb, hio, hw, hvf]
              have hfsw : fsw = GoMap.set fsb filePath (.file content now) :=
                writeFile_ok _ _ _ _ _ hw
              constructor
              · unfold FS.readFile
                rw [CleanupOldBackups_keeps fsw now filePath _ filePath (.file content now)
                  (by rw [hfsw]; exact GoMap.get_set_self _ _ _) (hage content)]
              · intro m hs
                obtain ⟨old, hold, hbk⟩ := BackupFile_ok h fs fsb now m filePath hs hb
                refine ⟨old, hold, ?_⟩
                unfold FS.readFile
                rw [CleanupOldBackups_keeps fsw now filePath _ _ (.file old now)
                  (by
                    rw [hfsw, GoMap.get_set_other _ _ _ _
                      (backupPath_ne _ filePath _ hdir hstamp)]
                    exact hbk) (hage old)]

/-- The success theorem applied to the rewrite of `/srv/out.txt`, which held `old`: the
call succeeds, the file holds `new`, and the backup
`/srv/.templater_backups/out.txt_20240101_000000.bak` holds `old`. -/
theorem WriteToFile_success_writes_and_backs_up_witness :
    (WriteToFile stampHost Faults.none diskOut 5000 "/srv/out.txt".toList "new".toList).2
        = .ok ()
    ∧ diskOut.stat "/srv/out.txt".toList = .ok 200
    ∧ (WriteToFile stampHost Faults.none diskOut 5000 "/srv/out.txt".toList
          "new".toList).1.readFile "/srv/out.txt".toList = .ok "new".toList
    ∧ (WriteToFile stampHost Faults.none diskOut 5000 "/srv/out.txt".toList
          "new".toList).1.readFile
          "/srv/.templater_backups/out.txt_20240101_000000.bak".toList = .ok "old".toList := by
  have hstamp : '/' ∉ stampHost.stamp 5000 := by decide
  have hok : (WriteToFile stampHost Faults.none diskOut 5000 "/srv/out.txt".toList
      "new".toList).2 = .ok () := by decide
  have hs : diskOut.stat "/srv/out.txt".toList = .ok 200 := by decide
  have hthm := WriteToFile_success_writes_and_backs_up stampHost Faults.none diskOut 5000
    "/srv/out.txt".toList "new".toList hstamp hok
  obtain ⟨old, hold, hbk⟩ := hthm.2 200 hs
  have hold2 : old = "old".toList := by
    have h0 : diskOut.readFile "/srv/out.txt".toList = .ok "old".toList := by decide
    rw [h0] at hold
    simpa using hold.symm
  have hpath : Join [backupDirOf "/srv/out.txt".toList,
      Base "/srv/out.txt".toList ++ "_".toList ++ stampHost.stamp 5000 ++ ".bak".toList]
      = "/srv/.templater_backups/out.txt_20240101_000000.bak".toList := by decide
  rw [hpath, hold2] at hbk
  exact ⟨hok, hs, hthm.1, hbk⟩

/-! ### The watcher and a full error channel -/

/-- C21: the output of the watcher cannot be written and nobody reads the error channel;
the first failing cycle puts its error into the channel, the send of the second failing
cycle finds the channel full and blocks the loop, which then receives neither the next
event nor the stop; only a reader that takes the first error lets the send complete. -/
theorem watch_blocks_on_full_error_channel :
    (WatchLoop.run stampHost noCodec deniedWrite watchStart [templateWrite]).map
        (fun l => (l.w.errorChan.isSome, l.blocked, l.cycles)) = some (true, none, 1)
    ∧ (WatchLoop.run stampHost noCodec deniedWrite watchStart
        [templateWrite, templateWrite]).map
        (fun l => (l.w.errorChan.isSome, l.blocked.isSome, l.cycles, l.done))
      = some (true, true, 2, false)
    ∧ (WatchLoop.run stampHost noCodec deniedWrite watchStart
        [templateWrite, templateWrite, templateWrite]).isNone = true
    ∧ (WatchLoop.run stampHost noCodec deniedWrite watchStart
        [templateWrite, templateWrite, .stop]).isNone = true
    ∧ (WatchLoop.run stampHost noCodec deniedWrite watchStart
        [templateWrite, templateWrite, .readError, .stop]).map
        (fun l => (l.w.errorChan.isSome, l.blocked, l.done)) = some (true, none, true) := by
  refine ⟨by decide, by decide, by decide, by decide, by decide⟩

/-! ### Backups of a file with a longer name -/

/-- C23: `/srv/out.txt_v2` was backed up by BackupFile and `/srv/out.txt` never was; the
pattern that RestoreFromBackup and CleanupOldBackups build for `/srv/out.txt` matches the
backup of `/srv/out.txt_v2`, so RestoreFromBackup writes the bytes of the other file into
`/srv/out.txt`, and CleanupOldBackups, eight days later, removes the backup of the other
file. -/
theorem backups_of_longer_name_are_shared :
    diskTwoBackedUp.readFile "/srv/.templater_backups/out.txt_v2_20240101_000000.bak".toList
        = .ok "other".toList
    ∧ Glob diskTwoBackedUp (Join [backupDirOf "/srv/out.txt".toList,
          Base "/srv/out.txt".toList ++ "_*.bak".toList])
        = .ok ["/srv/.templater_backups/out.txt_v2_20240101_000000.bak".toList]
    ∧ diskTwoBackedUp.readFile "/srv/out.txt".toList = .ok "mine".toList
    ∧ (RestoreFromBackup diskTwoBackedUp 6000 "/srv/out.txt".toList).2 = .ok ()
    ∧ (RestoreFromBackup diskTwoBackedUp 6000 "/srv/out.txt".toList).1.readFile
        "/srv/out.txt".toList = .ok "other".toList
    ∧ (CleanupOldBackups diskTwoBackedUp (5000 + sevenDays + 1) "/srv/out.txt".toList
        sevenDays).2 = .ok ()
    ∧ GoMap.get (CleanupOldBackups diskTwoBackedUp (5000 + sevenDays + 1)
        "/srv/out.txt".toList sevenDays).1
        "/srv/.templater_backups/out.txt_v2_20240101_000000.bak".toList = none := by
  refine ⟨by decide, by decide, by decide, by decide, by decide, by decide, by decide⟩

/-! ### What SanitizePath leaves -/

theorem SanitizePath_no_control (path : Str) (c : Char) (h : c ∈ SanitizePath path) :
    32 ≤ c.toNat ∧ c.toNat ≠ 127 := by
  unfold SanitizePath at h
  have h2 := (List.mem_filter.mp h).2
  simp only [Bool.not_eq_true', Bool.or_eq_false_iff, decide_eq_false_iff_not] at h2
  omega

/-- C24: the path made of a dot, the control character U+0001 and a dot is one element
that Clean keeps and that holds none of the three substrings; the removal of the control
character, the last step, joins the two dots, and SanitizePath returns `..`. -/
theorem SanitizePath_joins_dots :
    Clean ".\x01.".toList = ".\x01.".toList
    ∧ SanitizePath ".\x01.".toList = "..".toList
    ∧ Contains (SanitizePath ".\x01.".toList) "..".toList = true := by
  refine ⟨by decide, by decide, by decide⟩

/-! ### The bounds of the metadata block -/

theorem ParseTemplateMetadata_no_block (unmarshal : Str → Except String TemplateMetadata)
    (content : Str) (h : Index content "\x7b\x7b/*".toList = none) :
    ParseTemplateMetadata unmarshal content = .returns (none, none) := by
  unfold ParseTemplateMetadata
  simp only [h]

theorem ParseTemplateMetadata_unclosed (unmarshal : Str → Except String TemplateMetadata)
    (content : Str) (startIdx : Nat) (h : Index content "\x7b\x7b/*".toList = some startIdx)
    (hend : Index (content.drop startIdx) "*/\x7d\x7d".toList = none) :
    ParseTemplateMetadata unmarshal content
      = .returns (none, some "unclosed metadata block") := by
  unfold ParseTemplateMetadata
  simp only [h, hend]

/-- C25: in the content `{{/*/}}` the first `{{/*` is at index 0 and the first `*/}}` at
or after it is at index 3, inside the opening marker; the slice of the metadata then runs
from index 4 to index 3 and ParseTemplateMetadata panics, whatever the YAML decoder. -/
theorem ParseTemplateMetadata_panics_on_overlap
    (unmarshal : Str → Except String TemplateMetadata) :
    Index "\x7b\x7b/*/\x7d\x7d".toList "\x7b\x7b/*".toList = some 0
    ∧ Index ("\x7b\x7b/*/\x7d\x7d".toList.drop 0) "*/\x7d\x7d".toList = some 3
    ∧ ParseTemplateMetadata unmarshal "\x7b\x7b/*/\x7d\x7d".toList
        = .panics "slice bounds out of range [4:3]" := by
  refine ⟨by decide, by decide, ?_⟩
  have h1 : Index "\x7b\x7b/*/\x7d\x7d".toList "\x7b\x7b/*".toList = some 0 := by decide
  have h2 : Index ("\x7b\x7b/*/\x7d\x7d".toList.drop 0) "*/\x7d\x7d".toList = some 3 := by
    decide
  have h3 : sliceStr "\x7b\x7b/*/\x7d\x7d".toList (0 + "\x7b\x7b/*".toList.length) (0 + 3)
      = .error "slice bounds out of range [4:3]" := by decide
  unfold ParseTemplateMetadata
  simp only [h1, h2, h3]

/-! ### The condition marker of a paragraph -/

theorem isWordRune_not_space (c : Char) (h : isWordRune c = true) : isReSpace c = false := by
  simp only [isWordRune, Bool.or_eq_true, Bool.and_eq_true, decide_eq_true_eq] at h
  simp only [isReSpace, Bool.or_eq_false_iff, decide_eq_false_iff_not]
  omega

theorem span_run (p : Char → Bool) (a : Str) (x : Char) (b : Str)
    (ha : ∀ c ∈ a, p c = true) (hx : p x = false) :
    (a ++ x :: b).takeWhile p = a ∧ (a ++ x :: b).dropWhile p = x :: b := by
  induction a with
  | nil => simp [List.takeWhile_cons, List.dropWhile_cons, hx]
  | cons c r ih =>
    have hc : p c = true := ha c (List.mem_cons_self _ _)
    have ih2 := ih (fun d hd => ha d (List.mem_cons_of_mem _ hd))
    simp [List.takeWhile_cons, List.dropWhile_cons, hc, ih2.1, ih2.2]

theorem conditionKeyAt_marker (ws k post : Str) (hws : ws ≠ [])
    (hws2 : ∀ c ∈ ws, isReSpace c = true) (hk : k ≠ [])
    (hk2 : ∀ c ∈ k, isWordRune c = true) :
    conditionKeyAt (ws ++ (k ++ ('\x7d' :: '\x7d' :: post))) = some k := by
  obtain ⟨x, k', rfl⟩ := List.exists_cons_of_ne_nil hk
  have hx : isReSpace x = false := isWordRune_not_space x (hk2 x (List.mem_cons_self _ _))
  have h1 := span_run isReSpace ws x (k' ++ ('\x7d' :: '\x7d' :: post)) hws2 hx
  have h2 := span_run isWordRune (x :: k') '\x7d' ('\x7d' :: post) hk2 (by decide)
  unfold conditionKeyAt
  simp only [List.cons_append, h1.1, h1.2]
  rw [List.cons_append] at h2
  simp only [h2.1, h2.2]
  simp [hws]

theorem conditionAt_if (ws k post : Str) (hws : ws ≠ [])
    (hws2 : ∀ c ∈ ws, isReSpace c = true) (hk : k ≠ [])
    (hk2 : ∀ c ∈ k, isWordRune c = true) :
    conditionAt ("\x7b\x7b#if".toList ++ (ws ++ (k ++ ('\x7d' :: '\x7d' :: post))))
      = some ("if".toList, k) := by
  have h := conditionKeyAt_marker ws k post hws hws2 hk hk2
  simp [conditionAt, afterLit, h]

theorem conditionAt_unless (ws k post : Str) (hws : ws ≠ [])
    (hws2 : ∀ c ∈ ws, isReSpace c = true) (hk : k ≠ [])
    (hk2 : ∀ c ∈ k, isWordRune c = true) :
    conditionAt ("\x7b\x7b#unless".toList ++ (ws ++ (k ++ ('\x7d' :: '\x7d' :: post))))
      = some ("unless".toList, k) := by
  have h := conditionKeyAt_marker ws k post hws hws2 hk hk2
  simp [conditionAt, afterLit, h]

theorem findCondition_skip (pre rest : Str) (hpre : ¬ "\x7b\x7b#".toList <:+: pre) :
    findCondition (pre ++ '\x7b' :: '\x7b' :: rest)
      = findCondition ('\x7b' :: '\x7b' :: rest) := by
  induction pre with
  | nil => rfl
  | cons c p ih =>
    have hp : ¬ "\x7b\x7b#".toList <:+: p := fun h => hpre (List.infix_cons h)
    have hnone : conditionAt (c :: (p ++ '\x7b' :: '\x7b' :: rest)) = none := by
      have hlit : afterLit "\x7b\x7b#".toList (c :: (p ++ '\x7b' :: '\x7b' :: rest)) = none := by
        unfold afterLit
        rw [if_neg]
        intro hpf
        rw [List.isPrefixOf_iff_prefix] at hpf
        match p, hpf with
        | [], hpf =>
          obtain ⟨t, ht⟩ := hpf
          simp at ht
        | [d], hpf =>
          obtain ⟨t, ht⟩ := hpf
          simp at ht
        | d :: e :: p', hpf =>
          obtain ⟨t, ht⟩ := hpf
          simp only [String.toList, List.cons_append, List.nil_append, List.cons.injEq] at ht
          apply hpre
          refine ⟨[], p', ?_⟩
          obtain ⟨h1, h2, h3, _⟩ := ht
          simp [← h1, ← h2, ← h3]
      unfold conditionAt
      rw [hlit]
    rw [List.cons_append]
    simp only [findCondition, hnone]
    exact ih hp

theorem findCondition_marker (pre marker : Str) (m : Str × Str)
    (hpre : ¬ "\x7b\x7b#".toList <:+: pre) (hm : conditionAt ('\x7b' :: '\x7b' :: marker) = some m) :
    findCondition (pre ++ '\x7b' :: '\x7b' :: marker) = some m := by
  rw [findCondition_skip pre marker hpre]
  simp only [findCondition, hm]

/-- C22, as stated, fails for a key that is not a word: the pattern of the marker takes
word characters only, so `{{#if a-b}}` and `{{#unless a-b}}` are not recognised and the
paragraph is kept whatever the data: the `if` paragraph is kept although `a-b` is absent,
the `unless` paragraph is kept although `a-b` is truthy, and with `a-b` set to `yes` both
are kept. -/
theorem shouldKeepParagraph_keeps_unrecognised_key :
    shouldKeepParagraph ["\x7b\x7b#if a-b\x7d\x7dHello".toList] [] = true
    ∧ truthy [] "a-b".toList = false
    ∧ shouldKeepParagraph ["\x7b\x7b#unless a-b\x7d\x7dHello".toList]
        [("a-b".toList, "yes".toList)] = true
    ∧ truthy [("a-b".toList, "yes".toList)] "a-b".toList = true
    ∧ shouldKeepParagraph ["\x7b\x7b#if a-b\x7d\x7dHello".toList]
        [("a-b".toList, "yes".toList)] = true := by
  refine ⟨by decide, by decide, by decide, by decide, by decide⟩

theorem conditionMarker_append (t ws k post : Str) :
    conditionMarker t ws k ++ post
      = "\x7b\x7b#".toList ++ (t ++ (ws ++ (k ++ ('\x7d' :: '\x7d' :: post)))) := by
  simp [conditionMarker]

theorem afterLit_sound (p s s1 : Str) (h : afterLit p s = some s1) : s = p ++ s1 := by
  unfold afterLit at h
  split at h
  · rename_i hp
    rw [List.isPrefixOf_iff_prefix] at hp
    obtain ⟨t, rfl⟩ := hp
    simp only [Option.some.injEq] at h
    rw [← h]
    simp
  · simp at h

theorem conditionKeyAt_sound (s k : Str) (h : conditionKeyAt s = some k) :
    ∃ ws post, s = ws ++ (k ++ ('\x7d' :: '\x7d' :: post))
      ∧ ws ≠ [] ∧ (∀ c ∈ ws, isReSpace c = true)
      ∧ k ≠ [] ∧ (∀ c ∈ k, isWordRune c = true) := by
  unfold conditionKeyAt at h
  simp only at h
  split at h
  · rename_i hc
    obtain ⟨h1, h2, h3⟩ := hc
    simp only [Option.some.injEq] at h
    rw [List.isPrefixOf_iff_prefix] at h3
    obtain ⟨post, hpost⟩ := h3
    refine ⟨s.takeWhile isReSpace, post, ?_, h1, ?_, ?_, ?_⟩
    · have e1 : s = s.takeWhile isReSpace ++ s.dropWhile isReSpace :=
        (List.takeWhile_append_dropWhile _ _).symm
      have e2 : s.dropWhile isReSpace
          = (s.dropWhile isReSpace).takeWhile isWordRune
            ++ (s.dropWhile isReSpace).dropWhile isWordRune :=
        (List.takeWhile_append_dropWhile _ _).symm
      rw [← hpost, h] at e2
      rw [e2] at e1
      simpa using e1
    · intro c hc
      exact List.mem_takeWhile_imp hc
    · rw [← h]
      exact h2
    · intro c hc
      rw [← h] at hc
      exact List.mem_takeWhile_imp hc
  · simp at h

theorem conditionAt_nil : conditionAt [] = none := by decide

theorem conditionAt_sound (s t k : Str) (h : conditionAt s = some (t, k)) :
    Recognised s t k := by
  unfold conditionAt at h
  cases h1 : afterLit "\x7b\x7b#".toList s with
  | none =>
    rw [h1] at h
    simp at h
  | some s1 =>
    have e1 := afterLit_sound _ _ _ h1
    simp only [h1] at h
    cases h2 : afterLit "if".toList s1 with
    | some s2 =>
      have e2 := afterLit_sound _ _ _ h2
      simp only [h2, Option.map_eq_some', Prod.mk.injEq] at h
      obtain ⟨key, hk, ht, hkey⟩ := h
      subst hkey
      obtain ⟨ws, post, e3, hws, hws2, hk1, hk2⟩ := conditionKeyAt_sound s2 key hk
      refine ⟨ws, post, ?_, Or.inl ht.symm, hws, hws2, hk1, hk2⟩
      rw [conditionMarker_append, ← ht, ← e3, ← e2, ← e1]
    | none =>
      simp only [h2] at h
      cases h3 : afterLit "unless".toList s1 with
      | none =>
        rw [h3] at h
        simp at h
      | some s2 =>
        have e2 := afterLit_sound _ _ _ h3
        simp only [h3, Option.map_eq_some', Prod.mk.injEq] at h
        obtain ⟨key, hk, ht, hkey⟩ := h
        subst hkey
        obtain ⟨ws, post, e3, hws, hws2, hk1, hk2⟩ := conditionKeyAt_sound s2 key hk
        refine ⟨ws, post, ?_, Or.inr ht.symm, hws, hws2, hk1, hk2⟩
        rw [conditionMarker_append, ← ht, ← e3, ← e2, ← e1]

theorem conditionAt_complete (s t k : Str) (h : Recognised s t k) :
    conditionAt s = some (t, k) := by
  obtain ⟨ws, post, hs, ht, hws, hws2, hk, hk2⟩ := h
  rw [hs, conditionMarker_append]
  rcases ht with rfl | rfl
  · exact conditionAt_if ws k post hws hws2 hk hk2
  · exact conditionAt_unless ws k post hws hws2 hk hk2

theorem findCondition_first (pre s : Str)
    (h : ∀ a b, pre = a ++ b → b ≠ [] → conditionAt (b ++ s) = none) :
    findCondition (pre ++ s) = findCondition s := by
  induction pre with
  | nil => rfl
  | cons c p ih =>
    have hnone : conditionAt (c :: (p ++ s)) = none := h [] (c :: p) rfl (by simp)
    rw [List.cons_append]
    simp only [findCondition, hnone]
    exact ih (fun a b hab hb => h (c :: a) b (by simp [hab]) hb)

theorem findCondition_of_conditionAt (s : Str) (m : Str × Str)
    (h : conditionAt s = some m) : findCondition s = some m := by
  cases s with
  | nil => rw [conditionAt_nil] at h; simp at h
  | cons c cs => simp only [findCondition, h]

theorem findCondition_none (text : Str)
    (h : ∀ a b, text = a ++ b → conditionAt b = none) : findCondition text = none := by
  induction text with
  | nil => rfl
  | cons c cs ih =>
    have hnone : conditionAt (c :: cs) = none := h [] (c :: cs) rfl
    simp only [findCondition, hnone]
    exact ih (fun a b hab => h (c :: a) b (by simp [hab]))

theorem findCondition_first_marker (pre s t k : Str) (hrec : Recognised s t k)
    (hfirst : ∀ a b, pre = a ++ b → b ≠ [] → ∀ t1 k1, ¬ Recognised (b ++ s) t1 k1) :
    findCondition (pre ++ s) = some (t, k) := by
  rw [findCondition_first pre s]
  · exact findCondition_of_conditionAt s _ (conditionAt_complete s t k hrec)
  · intro a b hab hb
    cases hc : conditionAt (b ++ s) with
    | none => rfl
    | some m =>
      obtain ⟨t1, k1⟩ := m
      exact absurd (conditionAt_sound _ _ _ hc) (hfirst a b hab hb t1 k1)

theorem no_marker_in_tails (pre s : Str)
    (h : ∀ b ∈ pre.tails, b ≠ [] → conditionAt (b ++ s) = none) :
    ∀ a b, pre = a ++ b → b ≠ [] → ∀ t1 k1, ¬ Recognised (b ++ s) t1 k1 := by
  intro a b hab hb t1 k1 hr
  have hc := conditionAt_complete _ _ _ hr
  have hm : b ∈ pre.tails := by
    rw [List.mem_tails]
    exact ⟨a, hab.symm⟩
  rw [h b hm hb] at hc
  simp at hc

/-- C22, amended: a condition marker is recognised when it reads `{{#if` or `{{#unless`,
one or more white-space characters, a key of one or more word characters (ASCII letters,
digits, underscore) and `}}`. For every data mapping and every such key k, a paragraph
whose leftmost recognised marker is `{{#if k}}` is kept if and only if k is truthy, a
paragraph whose leftmost recognised marker is `{{#unless k}}` is kept if and only if k is
not truthy, so exactly one of the two is kept, whatever text stands before and after the
marker; and a paragraph in which no recognised marker starts is kept whatever the data. -/
theorem shouldKeepParagraph_first_marker (data : List (Str × Str)) (k : Str)
    (runsIf runsUnless : List Str) (pre1 ws1 post1 pre2 ws2 post2 : Str)
    (hk : k ≠ [] ∧ ∀ c ∈ k, isWordRune c = true)
    (hws1 : ws1 ≠ [] ∧ ∀ c ∈ ws1, isReSpace c = true)
    (hif : paragraphText runsIf = pre1 ++ (conditionMarker "if".toList ws1 k ++ post1))
    (hfirst1 : ∀ a b, pre1 = a ++ b → b ≠ [] →
      ∀ t1 k1, ¬ Recognised (b ++ (conditionMarker "if".toList ws1 k ++ post1)) t1 k1)
    (hws2 : ws2 ≠ [] ∧ ∀ c ∈ ws2, isReSpace c = true)
    (hunless : paragraphText runsUnless
      = pre2 ++ (conditionMarker "unless".toList ws2 k ++ post2))
    (hfirst2 : ∀ a b, pre2 = a ++ b → b ≠ [] →
      ∀ t1 k1, ¬ Recognised (b ++ (conditionMarker "unless".toList ws2 k ++ post2)) t1 k1) :
    (shouldKeepParagraph runsIf data = true ↔ truthy data k = true)
    ∧ (shouldKeepParagraph runsUnless data = true ↔ truthy data k = false)
    ∧ shouldKeepParagraph runsIf data = !shouldKeepParagraph runsUnless data
    ∧ (∀ runs : List Str,
        (∀ a b, paragraphText runs = a ++ b → ∀ t1 k1, ¬ Recognised b t1 k1) →
        shouldKeepParagraph runs data = true) := by
  have hfi : findCondition (paragraphText runsIf) = some ("if".toList, k) := by
    rw [hif]
    exact findCondition_first_marker pre1 _ _ _
      ⟨ws1, post1, rfl, Or.inl rfl, hws1.1, hws1.2, hk.1, hk.2⟩ hfirst1
  have hfu : findCondition (paragraphText runsUnless) = some ("unless".toList, k) := by
    rw [hunless]
    exact findCondition_first_marker pre2 _ _ _
      ⟨ws2, post2, rfl, Or.inr rfl, hws2.1, hws2.2, hk.1, hk.2⟩ hfirst2
  have h1 : shouldKeepParagraph runsIf data = truthy data k := by
    unfold shouldKeepParagraph truthy
    rw [hfi]
    simp only
    rw [if_pos trivial]
    cases GoMap.get data k <;> simp
  have h2 : shouldKeepParagraph runsUnless data = !truthy data k := by
    unfold shouldKeepParagraph truthy
    rw [hfu]
    simp only
    rw [if_neg (by decide)]
    cases GoMap.get data k with
    | none => simp
    | some v =>
      cases v with
      | nil => simp
      | cons c cs => simp [bne]
  refine ⟨?_, ?_, ?_, ?_⟩
  · rw [h1]
  · rw [h2]
    cases truthy data k <;> simp
  · rw [h1, h2]
    simp
  · intro runs hno
    have hnone : findCondition (paragraphText runs) = none := by
      apply findCondition_none
      intro a b hab
      cases hc : conditionAt b with
      | none => rfl
      | some m =>
        obtain ⟨t1, k1⟩ := m
        exact absurd (conditionAt_sound _ _ _ hc) (hno a b hab t1 k1)
    unfold shouldKeepParagraph
    rw [hnone]

/-- The marker theorem applied to the key `c`, absent from the data: in the paragraph
`{{#if a-b}} text {{#if c}}` the marker of `a-b` is not recognised and is passed over,
the marker of `c` decides and the paragraph is not kept; the paragraph made of the runs
`{{#each xs}} ` and `{{#unless c}}rest` is kept. -/
theorem shouldKeepParagraph_first_marker_witness :
    paragraphText ["\x7b\x7b#if a-b\x7d\x7d text \x7b\x7b#if c\x7d\x7d".toList]
        = "\x7b\x7b#if a-b\x7d\x7d text ".toList
          ++ (conditionMarker "if".toList " ".toList "c".toList ++ [])
    ∧ paragraphText ["\x7b\x7b#each xs\x7d\x7d ".toList, "\x7b\x7b#unless c\x7d\x7drest".toList]
        = "\x7b\x7b#each xs\x7d\x7d ".toList
          ++ (conditionMarker "unless".toList " ".toList "c".toList ++ "rest".toList)
    ∧ truthy [] "c".toList = false
    ∧ shouldKeepParagraph ["\x7b\x7b#if a-b\x7d\x7d text \x7b\x7b#if c\x7d\x7d".toList] [] = false
    ∧ shouldKeepParagraph
        ["\x7b\x7b#each xs\x7d\x7d ".toList, "\x7b\x7b#unless c\x7d\x7drest".toList] [] = true := by
  have hif : paragraphText ["\x7b\x7b#if a-b\x7d\x7d text \x7b\x7b#if c\x7d\x7d".toList]
      = "\x7b\x7b#if a-b\x7d\x7d text ".toList
        ++ (conditionMarker "if".toList " ".toList "c".toList ++ []) := by decide
  have hunless : paragraphText
      ["\x7b\x7b#each xs\x7d\x7d ".toList, "\x7b\x7b#unless c\x7d\x7drest".toList]
      = "\x7b\x7b#each xs\x7d\x7d ".toList
        ++ (conditionMarker "unless".toList " ".toList "c".toList ++ "rest".toList) := by
    decide
  have ht : truthy [] "c".toList = false := by decide
  have h := shouldKeepParagraph_first_marker [] "c".toList
    ["\x7b\x7b#if a-b\x7d\x7d text \x7b\x7b#if c\x7d\x7d".toList]
    ["\x7b\x7b#each xs\x7d\x7d ".toList, "\x7b\x7b#unless c\x7d\x7drest".toList]
    "\x7b\x7b#if a-b\x7d\x7d text ".toList " ".toList []
    "\x7b\x7b#each xs\x7d\x7d ".toList " ".toList "rest".toList
    (by decide) (by decide) hif (no_marker_in_tails _ _ (by decide))
    (by decide) hunless (no_marker_in_tails _ _ (by decide))
  refine ⟨hif, hunless, ht, ?_, h.2.1.mpr ht⟩
  cases hb : shouldKeepParagraph
      ["\x7b\x7b#if a-b\x7d\x7d text \x7b\x7b#if c\x7d\x7d".toList] [] with
  | false => rfl
  | true =>
    have := h.1.mp hb
    rw [ht] at this
    exact absurd this (by decide)

end Templater
